import Mathlib

/-!
Verification of the Chord-style ring DHT simulator: a shallow embedding of
the B-tree (`BTree.h`), the ring of machines with finger tables
(`CircularLL.h`, `DoublyLL.h`) and the facade (`IPFS.h`), with proofs of
the specification claims.

Machine integers (C++ `int`) are modelled as `Int`; every identifier the
program manipulates lies in `[0, 2^bits)` with `bits ≤ 31`, far from
overflow, and C++ `%` on nonnegative operands agrees with `Int.emod`.
Null pointers are modelled by `BTree.null` / `Option`.  Mutable arrays
`value[1..count]` / `child[0..count]` are modelled by lists of length
`count` resp. `count + 1`; array slots beyond the logical count are never
read by the C++ code (`value[0]`, which is read by `searchNode` when
`count = 0`, keeps its constructor value `-1` forever, which the sentinel
default of `List.getD` reproduces).
-/
/-- A file record: hash key and path (`BTree.h`, class `FileNode`). -/
structure FileNode where
  key : Int
  path : String
deriving DecidableEq, Repr, Inhabited

/-- The C++ `FileNode()` default: key `-1`, empty path.  Also the value
every spare `value[]` slot holds. -/
def sentinelFile : FileNode := ⟨-1, ""⟩

/-- A B-tree node pointer (`BTree.h`, class `BTreeNode`).  `null` is the
C++ null pointer; `node vals children` holds `value[1..count]` as `vals`
(so `count = vals.length`) and `child[0..count]` as `children`. -/
inductive BTree where
  | null : BTree
  | node : List FileNode → List BTree → BTree
deriving Inhabited

/-- The C++ null-pointer test on a `BTreeNode*`. -/
def BTree.isNull : BTree → Bool
  | .null => true
  | .node _ _ => false

mutual

/-- Number of (non-null) nodes of a subtree; termination measure. -/
def BTree.size : BTree → Nat
  | .null => 0
  | .node _ cs => 1 + sizeList cs

def sizeList : List BTree → Nat
  | [] => 0
  | c :: cs => BTree.size c + sizeList cs

end

/-- `MAX` as computed by the `BTreeNode` constructor: `order - 1`. -/
def maxKeys (order : Nat) : Nat := order - 1

/-- `MIN` as computed by the `BTreeNode` constructor:
`MIN = order/2` if `order` is even else `order/2 + 1`, then `MIN--`,
then clamped to at least `1`. -/
def minKeys (order : Nat) : Nat :=
  let m0 := if order % 2 = 0 then order / 2 else order / 2 + 1
  max (m0 - 1) 1

def BTree.countKeys : BTree → Nat
  | .null => 0
  | .node vals _ => vals.length

def BTree.valsOf : BTree → List FileNode
  | .null => []
  | .node vs _ => vs

def BTree.childrenOf : BTree → List BTree
  | .null => []
  | .node _ cs => cs

/-- The scan loop of `BTree::searchNode`:
`while (key < n->value[pos].key && pos > 1) pos--;` (position is 1-based,
`value[p] = vals.getD (p-1)`). -/
def searchScan (k : Int) (vals : List FileNode) : Nat → Nat
  | 0 => 0
  | pos + 1 =>
    if k < (vals.getD pos sentinelFile).key ∧ 0 < pos then searchScan k vals pos
    else pos + 1

/-- `BTree::searchNode`: returns `(pos, found)` with `pos` 1-based. -/
def searchNode (k : Int) (vals : List FileNode) : Nat × Bool :=
  if k < (vals.getD 0 sentinelFile).key then (0, false)
  else
    let pos := searchScan k vals vals.length
    (pos, k == (vals.getD (pos - 1) sentinelFile).key)

/-- `BTree::fillnode`: shift `value[k+1..]` / `child[k+1..]` one slot to
the right and store `file` at `value[k+1]`, `c` at `child[k+1]`. -/
def fillnode (file : FileNode) (c : BTree) (vals : List FileNode)
    (children : List BTree) (k : Nat) : BTree :=
  .node (vals.insertIdx k file) (children.insertIdx (k + 1) c)

/-- `BTree::split`: the node (which holds `MAX` records) is cut at `mid`,
the new record is filled into the kept or the new half, the last record
of the kept half is promoted (`y`) and its last child becomes the new
node's `child[0]`.  Returns (mutated original node, promoted record,
new right node). -/
def splitNode (file : FileNode) (c : BTree) (vals : List FileNode)
    (children : List BTree) (k minK : Nat) : BTree × FileNode × BTree :=
  let mid := if k ≤ minK then minK else minK + 1
  let rVals0 := vals.drop mid
  let rChildren0 := BTree.null :: children.drop (mid + 1)
  let lVals0 := vals.take mid
  let lChildren0 := children.take (mid + 1)
  let lVals1 := if k ≤ minK then lVals0.insertIdx k file else lVals0
  let lChildren1 := if k ≤ minK then lChildren0.insertIdx (k + 1) c else lChildren0
  let rVals1 := if k ≤ minK then rVals0 else rVals0.insertIdx (k - mid) file
  let rChildren1 := if k ≤ minK then rChildren0 else rChildren0.insertIdx (k - mid + 1) c
  let y := lVals1.getLastD sentinelFile
  let lastChild := lChildren1.getLastD .null
  (.node lVals1.dropLast lChildren1.dropLast, y, .node rVals1 (lastChild :: rChildren1.tail))

/-- `BTree::setval`: insert `f` into subtree `t`; returns the updated
subtree together with `some (promoted, newChild)` when the caller must
grow (the C++ `true` return through out-parameters `p`, `c`).  A
duplicate key is reported and nothing changes.  The recursion descends
into a strictly smaller subtree, so fuel `t.size + 1` (supplied by the
wrapper `setval`) always suffices: the `fuel = 0` branch is dead code. -/
def setvalF (f : FileNode) (ord : Nat) : Nat → BTree → BTree × Option (FileNode × BTree)
  | 0, t => (t, none)
  | _ + 1, .null => (.null, some (f, .null))
  | fuel + 1, .node vals children =>
    let sr := searchNode f.key vals
    if sr.2 then (.node vals children, none)
    else
      let res := setvalF f ord fuel (children.getD sr.1 .null)
      match res.2 with
      | none => (.node vals (children.set sr.1 res.1), none)
      | some pc =>
        let children1 := children.set sr.1 res.1
        if vals.length < maxKeys ord then (fillnode pc.1 pc.2 vals children1 sr.1, none)
        else
          let s := splitNode pc.1 pc.2 vals children1 sr.1 (minKeys ord)
          (s.1, some (s.2.1, s.2.2))

def setval (f : FileNode) (ord : Nat) (t : BTree) : BTree × Option (FileNode × BTree) :=
  setvalF f ord (t.size + 1) t

/-- `BTree::insert`: wrapper allocating a new root when the old one
split (`child[0] :=` old root, `child[1] :=` new node). -/
def BTree.insert (f : FileNode) (t : BTree) (ord : Nat) : BTree :=
  match setval f ord t with
  | (t1, none) => t1
  | (t1, some pc) => .node [pc.1] [t1, pc.2]

/-- `BTree::insertHelper`. -/
def insertHelper (f : FileNode) (ord : Nat) (t : BTree) : BTree := BTree.insert f t ord

/-- The scan of `BTree::copysucc`: the left-most record of a subtree
(`while (temp->child[0]) temp = temp->child[0]; … temp->value[1]`);
fuel `t.size + 1` (the wrapper's choice) always suffices. -/
def leftmostRecF : Nat → BTree → FileNode
  | 0, _ => sentinelFile
  | _ + 1, .null => sentinelFile
  | fuel + 1, .node vals children =>
    if (children.getD 0 .null).isNull then vals.getD 0 sentinelFile
    else leftmostRecF fuel (children.getD 0 .null)

def leftmostRec (t : BTree) : FileNode := leftmostRecF (t.size + 1) t

/-- `BTree::leftshift` on parent record list `vals` / child list
`children` at index `k`: the left sibling `child[k-1]` borrows the
separator and `child[k]`'s first child; the separator becomes
`child[k]`'s first record. -/
def leftshift (vals : List FileNode) (children : List BTree) (k : Nat) : BTree :=
  let left := children.getD (k - 1) .null
  let right := children.getD k .null
  let left1 := BTree.node (left.valsOf ++ [vals.getD (k - 1) sentinelFile])
                          (left.childrenOf ++ [right.childrenOf.getD 0 .null])
  let vals1 := vals.set (k - 1) (right.valsOf.getD 0 sentinelFile)
  let right1 := BTree.node right.valsOf.tail right.childrenOf.tail
  .node vals1 ((children.set (k - 1) left1).set k right1)

/-- `BTree::rightshift` at index `k`: `child[k]` gains the separator in
front and the left sibling's last child as new `child[0]`; the left
sibling's last record replaces the separator. -/
def rightshift (vals : List FileNode) (children : List BTree) (k : Nat) : BTree :=
  let left := children.getD (k - 1) .null
  let right := children.getD k .null
  let right1 := BTree.node (vals.getD (k - 1) sentinelFile :: right.valsOf)
                           (left.childrenOf.getLastD .null :: right.childrenOf)
  let vals1 := vals.set (k - 1) (left.valsOf.getLastD sentinelFile)
  let left1 := BTree.node left.valsOf.dropLast left.childrenOf.dropLast
  .node vals1 ((children.set (k - 1) left1).set k right1)

/-- `BTree::merge` of `child[k-1]` and `child[k]`.  The C++ guard
`if (right->child[0] != nullptr)` before copying `right->child[0]` is
equivalent to an unconditional copy, because a leaf's spare child slots
only ever hold null. -/
def mergeAt (vals : List FileNode) (children : List BTree) (k : Nat) : BTree :=
  let left := children.getD (k - 1) .null
  let right := children.getD k .null
  let left1 := BTree.node (left.valsOf ++ vals.getD (k - 1) sentinelFile :: right.valsOf)
                          (left.childrenOf ++ right.childrenOf)
  .node (vals.eraseIdx (k - 1)) ((children.set (k - 1) left1).eraseIdx k)

/-- `BTree::restore`: fix the underflowing `child[i]` by borrowing from a
sibling with spare records, else by merging. -/
def restoreAt (minK : Nat) (vals : List FileNode) (children : List BTree) (i : Nat) : BTree :=
  if i = 0 then
    if minK < (children.getD 1 .null).countKeys then leftshift vals children 1
    else mergeAt vals children 1
  else if i = vals.length then
    if minK < (children.getD (i - 1) .null).countKeys then rightshift vals children i
    else mergeAt vals children i
  else
    if minK < (children.getD (i - 1) .null).countKeys then rightshift vals children i
    else if minK < (children.getD (i + 1) .null).countKeys then leftshift vals children (i + 1)
    else mergeAt vals children i

/-- `BTree::delhelp`: delete `k` from the subtree, restoring an
underflowing child afterwards; the `Bool` is the found flag.  Fuel
`t.size + 1` (the wrapper's choice) always suffices. -/
def delhelpF (ord : Nat) : Nat → Int → BTree → BTree × Bool
  | 0, _, t => (t, false)
  | _ + 1, _, .null => (.null, false)
  | fuel + 1, k, .node vals children =>
    let sr := searchNode k vals
    let i := sr.1
    let step : List FileNode × List BTree × Bool :=
      if sr.2 then
        if !(children.getD (i - 1) .null).isNull then
          let succF := leftmostRec (children.getD i .null)
          let r := delhelpF ord fuel succF.key (children.getD i .null)
          (vals.set (i - 1) succF, children.set i r.1, r.2)
        else
          (vals.eraseIdx (i - 1), children.eraseIdx i, true)
      else
        let r := delhelpF ord fuel k (children.getD i .null)
        (vals, children.set i r.1, r.2)
    let vals1 := step.1
    let children1 := step.2.1
    if !(children1.getD i .null).isNull ∧ (children1.getD i .null).countKeys < minKeys ord then
      (restoreAt (minKeys ord) vals1 children1 i, step.2.2)
    else
      (.node vals1 children1, step.2.2)

def delhelp (ord : Nat) (k : Int) (t : BTree) : BTree × Bool :=
  delhelpF ord (t.size + 1) k t

/-- `BTree::del`: root wrapper; when the root ends with zero records after
a successful deletion, its only child becomes the new root. -/
def delRoot (ord : Nat) (k : Int) (t : BTree) : BTree :=
  match t with
  | .null => .null
  | t =>
    let r := delhelp ord k t
    if r.2 then
      match r.1 with
      | .node [] children => children.getD 0 .null
      | t1 => t1
    else r.1

/-- `BTree::deleteHelper`. -/
def deleteHelper (ord : Nat) (k : Int) (t : BTree) : BTree := delRoot ord k t

/-- `BTree::search` descent: the record list and 1-based position of the
node where the key was found.  Fuel `t.size + 1` (the wrapper's choice)
always suffices. -/
def searchDescendF (k : Int) : Nat → BTree → Option (List FileNode × Nat)
  | 0, _ => none
  | _ + 1, .null => none
  | fuel + 1, .node vals children =>
    let sr := searchNode k vals
    if sr.2 then some (vals, sr.1) else searchDescendF k fuel (children.getD sr.1 .null)

def searchDescend (k : Int) (t : BTree) : Option (List FileNode × Nat) :=
  searchDescendF k (t.size + 1) t

/-- `BTree::searchFile`. -/
def searchFile (k : Int) (t : BTree) : Bool := (searchDescend k t).isSome

/-- `BTree::findFile`: the record `value[pos]` at the node where the key
was found. -/
def findFile (k : Int) (t : BTree) : Option FileNode :=
  (searchDescend k t).map fun vp => vp.1.getD (vp.2 - 1) sentinelFile

/-- Sum of node sizes of a BFS work queue, for termination. -/
def queueSize (q : List BTree) : Nat := (q.map BTree.size).sum

/-- The per-element fuel cost of the BFS loop: a queue element generates
exactly one dequeue step per non-null node of its subtree (a queued null
costs one step of its own). -/
def popWeight (t : BTree) : Nat := if t.isNull then 1 else t.size

def queueFuel (q : List BTree) : Nat := (q.map popWeight).sum

/-- The BFS loop of `BTree::getAllFiles`: dequeue a node, emit its
records, enqueue its non-null children.  Fuel `queueFuel q` (the
wrapper's choice) always suffices: it drops by exactly one per step. -/
def bfsFilesF : Nat → List BTree → List FileNode
  | 0, _ => []
  | _ + 1, [] => []
  | fuel + 1, .null :: rest => bfsFilesF fuel rest
  | fuel + 1, .node vals children :: rest =>
    vals ++ bfsFilesF fuel (rest ++ children.filter (fun c => !c.isNull))

def bfsFiles (q : List BTree) : List FileNode := bfsFilesF (queueFuel q) q

/-- `BTree::getAllFiles`. -/
def BTree.getAllFiles (t : BTree) : List FileNode :=
  if t.isNull then [] else bfsFiles [t]

/-! ## The ring of machines (`CircularLL.h`, `DoublyLL.h`, `IPFS.h`) -/
/-- A finger-table entry (`DoublyLL.h`, class `DoublyNode`): the target
`filekey = (self + 2^i) mod N`, the cached successor's ID `machinekey`,
and the pointer `m` to the successor machine, modelled by that machine's
ID (`none` is the C++ null pointer). -/
structure Finger where
  filekey : Int
  machinekey : Int
  m : Option Int
deriving DecidableEq, Repr, Inhabited

/-- A machine in the ring (`CircularLL.h`, class `CircularNode`). -/
structure CircularNode where
  key : Int
  RT : List Finger
  btree : BTree
deriving Inhabited

/-- The ring (`CircularLL.h`, class `CircularLinkedList`).  `head` is the
traversal order from the C++ `head` pointer; `next` steps cyclically
through the list. -/
structure CircularLinkedList where
  head : List CircularNode
  identifierSpace : Int
  bits : Nat
  btreeOrder : Nat

/-- Number of finger entries (`DoublyLinkedList::initialize`):
`log2(identifierSpace)` clamped to at least one entry.  The C++ floating
`log2` is exact on the powers of two used by the program; `log2Fuel` is a
fuel-structural `⌊log₂⌋` (fuel `n` suffices for input `n`). -/
def log2Fuel : Nat → Nat → Nat
  | 0, _ => 0
  | fuel + 1, n => if 2 ≤ n then log2Fuel fuel (n / 2) + 1 else 0

def numEntries (identifierSpace : Int) : Nat :=
  max (log2Fuel identifierSpace.toNat identifierSpace.toNat) 1

/-- `DoublyLinkedList::initialize`: entry `i` gets target
`(machine_key + 2^i) mod identifierSpace` and a null successor pointer. -/
def initFingers (machineKey identifierSpace : Int) : List Finger :=
  (List.range (numEntries identifierSpace)).map fun i =>
    { filekey := (machineKey + 2 ^ i) % identifierSpace, machinekey := -1, m := none }

/-- Walk of `CircularLinkedList::insert` past the head:
`while (current->next != head && current->next->key < value)`, then
splice after `current`. -/
def ringInsertAux (v : Int) (nm : CircularNode) : List CircularNode → List CircularNode
  | [] => [nm]
  | c :: rest =>
    match rest with
    | [] => [c, nm]
    | c2 :: _ => if c2.key < v then c :: ringInsertAux v nm rest else c :: nm :: rest

/-- `CircularLinkedList::insert`: splice a fresh machine (empty B-tree,
freshly initialized finger targets) into the sorted circular list. -/
def ringInsert (r : CircularLinkedList) (v : Int) : CircularLinkedList :=
  let nm : CircularNode := { key := v, RT := initFingers v r.identifierSpace, btree := .null }
  match r.head with
  | [] => { r with head := [nm] }
  | c :: rest =>
    if v < c.key then { r with head := nm :: c :: rest }
    else { r with head := ringInsertAux v nm (c :: rest) }

/-- `CircularLinkedList::search`. -/
def ringSearch (r : CircularLinkedList) (v : Int) : Bool :=
  r.head.any (fun m => m.key == v)

/-- `CircularLinkedList::succ`: scan from head for the first machine with
`key ≥ value`; wrap to head if the scan finds none. -/
def ringSucc (ms : List CircularNode) (v : Int) : Option CircularNode :=
  match ms.find? (fun m => v ≤ m.key) with
  | some m => some m
  | none => ms.head?

/-- Per-machine body of `CircularLinkedList::updateRT`: clear and
re-initialize the table, then set entry `i` to target
`(key + 2^i) mod N` with the current successor of that target. -/
def rebuildFingers (ms : List CircularNode) (identifierSpace mkey : Int) : List Finger :=
  (List.range (numEntries identifierSpace)).map fun i =>
    let target := (mkey + 2 ^ i) % identifierSpace
    match ringSucc ms target with
    | some s => { filekey := target, machinekey := s.key, m := some s.key }
    | none => { filekey := target, machinekey := -1, m := none }

/-- `CircularLinkedList::updateRT` (no-op on the empty ring). -/
def updateRT (r : CircularLinkedList) : CircularLinkedList :=
  if r.head.isEmpty then r
  else
    { r with head := r.head.map fun m =>
        { m with RT := rebuildFingers r.head r.identifierSpace m.key } }

/-- The circular `(current, current->next)` pairs in traversal order. -/
def circPairs (ms : List CircularNode) : List (CircularNode × CircularNode) :=
  ms.zip (ms.drop 1 ++ ms.take 1)

/-- `CircularLinkedList::findPredecessor`: first machine (from head)
whose `next` has the given key. -/
def findPredecessor (ms : List CircularNode) (machineKey : Int) : Option CircularNode :=
  ((circPairs ms).find? (fun pr => pr.2.key == machineKey)).map Prod.fst

/-- `CircularLinkedList::SearchNewMachine` — the same scan as
`findPredecessor`. -/
def searchNewMachine (ms : List CircularNode) (machineKey : Int) : Option CircularNode :=
  findPredecessor ms machineKey

/-- `current->next`: the machine after the first occurrence of
`c.key` in the circular traversal. -/
def nextMachine (ms : List CircularNode) (c : CircularNode) : CircularNode :=
  (((circPairs ms).find? (fun pr => pr.1.key == c.key)).map Prod.snd).getD c

/-- The move test of `Traverse_insert`:
`previous->key < file.key <= newMachine->key`, circularly. -/
def shouldMove (prevKey newKey fileKey : Int) : Bool :=
  if prevKey < newKey then prevKey < fileKey ∧ fileKey ≤ newKey
  else prevKey < fileKey ∨ fileKey ≤ newKey

/-- `Traverse_insert`: records of the new machine's successor whose keys
fall in the circular interval `(previous, newMachine]` are inserted into
the new machine's B-tree and deleted from the successor's.  The C++
in-place pointer updates are modelled by a keyed map (IDs are unique on
this path). -/
def traverseInsert (ms : List CircularNode) (p : CircularNode) (ord : Nat) :
    List CircularNode :=
  let newMachine := nextMachine ms p
  let successor := nextMachine ms newMachine
  if successor.btree.isNull then ms
  else
    let files := successor.btree.getAllFiles
    let toMove := files.filter (fun f => shouldMove p.key newMachine.key f.key)
    ms.map fun m =>
      if m.key == newMachine.key then
        { m with btree := toMove.foldl (fun t f => insertHelper f ord t) m.btree }
      else if m.key == successor.key then
        { m with btree := toMove.foldl (fun t f => deleteHelper ord f.key t) m.btree }
      else m

/-- `CircularLinkedList::insertAfter`: validated join.  The `Bool` is
`true` when a validation error was reported (ring left unchanged). -/
def insertAfter (r : CircularLinkedList) (value : Int) (ord : Nat) :
    CircularLinkedList × Bool :=
  if ringSearch r value then (r, true)
  else if value < 0 ∨ r.identifierSpace ≤ value then (r, true)
  else
    let r1 := updateRT (ringInsert r value)
    match searchNewMachine r1.head value with
    | some prev =>
      if 1 < r1.head.length then
        ({ r1 with head := traverseInsert r1.head prev ord }, false)
      else (r1, false)
    | none => (r1, false)

/-- `Traverse_delete`: bulk-insert all records of `src` into `dst`. -/
def traverseDelete (ord : Nat) (src dst : BTree) : BTree :=
  if src.isNull then dst
  else src.getAllFiles.foldl (fun t f => insertHelper f ord t) dst

/-- `CircularLinkedList::deletekey`: validated leave.  The `Bool` is
`true` when an error was reported (empty ring or machine not found). -/
def deletekey (r : CircularLinkedList) (value : Int) (ord : Nat) :
    CircularLinkedList × Bool :=
  match r.head with
  | [] => (r, true)
  | _ :: _ =>
    match r.head.findIdx? (fun m => m.key == value) with
    | none => (r, true)
    | some j =>
      let ms := r.head
      let n := ms.length
      let cur := ms.getD j default
      let succIdx := (j + 1) % n
      let ms1 :=
        if 1 < n then
          ms.set succIdx
            (let s := ms.getD succIdx default
             { s with btree := traverseDelete ord cur.btree s.btree })
        else ms
      let ms2 := if j = 0 then ms1.tail else ms1.eraseIdx j
      (updateRT { r with head := ms2 }, false)

/-- `IPFS::InsertMachines`: bulk initial setup — a range check only
(`isValidMachineId`), a raw `insert` per valid ID, one `updateRT`. -/
def insertMachines (r : CircularLinkedList) (arr : List Int) : CircularLinkedList :=
  updateRT (arr.foldl (fun acc v =>
    if 0 ≤ v ∧ v < acc.identifierSpace then ringInsert acc v else acc) r)

/-- `CircularLinkedList::isBetween` — circular interval `(start, end]`. -/
def isBetween (target start e : Int) : Bool :=
  if start < e then start < target ∧ target ≤ e
  else start < target ∨ target ≤ e

/-- `CircularLinkedList::findMachineById`. -/
def findMachineById (ms : List CircularNode) (v : Int) : Option CircularNode :=
  ms.find? (fun m => m.key == v)

/-- The responsibility test inside the routing loop of `routeToKey`
(predecessor key defaults to `-1` when absent; a sole machine is always
responsible). -/
def routeResponsible (ms : List CircularNode) (current : CircularNode) (k : Int) : Bool :=
  let predKey := ((findPredecessor ms current.key).map CircularNode.key).getD (-1)
  if ms.length == 1 then true
  else if predKey < current.key then predKey < k ∧ k ≤ current.key
  else predKey < k ∨ k ≤ current.key

/-- The finger scan of `routeToKey`: the last entry whose cached machine
is non-null and lies in `(current, key]` wins. -/
def bestFinger (fingers : List Finger) (curKey k : Int) : Option Finger :=
  fingers.foldl (fun acc f =>
    if f.m.isSome ∧ isBetween f.machinekey curKey k then some f else acc) none

/-- The next-hop choice of the routing loop: the best finger's machine
(the pointer hop `finger->m` is modelled by looking the stored ID up in
the ring; the `getD` fallback is never taken when fingers reference live
machines), else `current->next`. -/
def routeHop (r : CircularLinkedList) (k : Int) (current : CircularNode) : CircularNode :=
  match bestFinger current.RT current.key k with
  | some f => (findMachineById r.head f.machinekey).getD (nextMachine r.head current)
  | none => nextMachine r.head current

/-- The `while (true)` loop of `routeToKey`, with explicit fuel (`none` =
fuel exhausted; `head.length + 1` provably suffices). -/
def routeLoop (r : CircularLinkedList) (k : Int) :
    Nat → CircularNode → List Int → List Int → Option (List Int)
  | 0, _, _, _ => none
  | fuel + 1, current, path, visited =>
    if routeResponsible r.head current k then some path
    else
      if (routeHop r k current).key ∈ visited then some path
      else
        routeLoop r k fuel (routeHop r k current)
          (path ++ [(routeHop r k current).key]) ((routeHop r k current).key :: visited)

/-- `CircularLinkedList::routeToKey`.  The empty path is returned for an
empty ring or an unknown start machine (the C++ error paths; on the empty
ring the start lookup fails, as in the C++ early return). -/
def routeToKey (r : CircularLinkedList) (startMachineId k : Int) : Option (List Int) :=
  match findMachineById r.head startMachineId with
  | none => some []
  | some c => routeLoop r k (r.head.length + 1) c [c.key] [c.key]

/-- The responsibility test of `findResponsibleMachine` (predecessor key
defaults to `identifierSpace - 1` when absent). -/
def respCheck (r : CircularLinkedList) (m : CircularNode) (k : Int) : Bool :=
  let predKey := ((findPredecessor r.head m.key).map CircularNode.key).getD
    (r.identifierSpace - 1)
  if r.head.length == 1 then true
  else if predKey < m.key then predKey < k ∧ k ≤ m.key
  else predKey < k ∨ k ≤ m.key

/-- `CircularLinkedList::findResponsibleMachine` (the C++ null-head exit
coincides with the scan finding nothing and `head?` being `none`). -/
def findResponsibleMachine (r : CircularLinkedList) (k : Int) : Option CircularNode :=
  match r.head.find? (fun m => respCheck r m k) with
  | some m => some m
  | none => r.head.head?

/-- Outcome reported by `InsertFileToTree` through its console output. -/
inductive PutOutcome where
  | emptyRing
  | noStartMachine
  | routeFailed
  | respMissing
  | duplicate
  | stored
deriving DecidableEq, Repr

/-- `CircularLinkedList::InsertFileToTree` (the put operation): route
from the start machine, then insert into the responsible machine's
B-tree unless the key is already there. -/
def insertFileToTree (r : CircularLinkedList) (machineKey fileKey : Int) (p : String)
    (ord : Nat) : CircularLinkedList × PutOutcome :=
  if r.head.isEmpty then (r, .emptyRing)
  else
    if ¬ ringSearch r machineKey then (r, .noStartMachine)
    else
      match routeToKey r machineKey fileKey with
      | none => (r, .routeFailed)
      | some [] => (r, .routeFailed)
      | some (h :: t) =>
        match findMachineById r.head ((h :: t).getLast (List.cons_ne_nil h t)) with
        | none => (r, .respMissing)
        | some resp =>
          if searchFile fileKey resp.btree then (r, .duplicate)
          else
            ({ r with head := r.head.map fun m =>
                 if m.key == resp.key then
                   { m with btree := insertHelper ⟨fileKey, p⟩ ord m.btree }
                 else m }, .stored)

/-- `CircularLinkedList::SearchFile_WithMachine` (the get operation):
returns the responsible machine when the file is found there. -/
def searchFileWithMachine (r : CircularLinkedList) (machineKey fileKey : Int) :
    Option CircularNode :=
  if r.head.isEmpty then none
  else
    match routeToKey r machineKey fileKey with
    | none => none
    | some [] => none
    | some (h :: t) =>
      match findMachineById r.head ((h :: t).getLast (List.cons_ne_nil h t)) with
      | none => none
      | some resp => if searchFile fileKey resp.btree then some resp else none

/-- Concrete one-machine ring used by witnesses. -/
def ringW : CircularLinkedList := ⟨[⟨3, [], .null⟩], 16, 4, 3⟩

/-! ## Sortedness of the ring and finger correctness (C2) -/
/-- The ring's machine keys are strictly increasing in traversal order
(invariants I1 + I2: the reachable rings). -/
def SortedKeys (ms : List CircularNode) : Prop :=
  List.Pairwise (· < ·) (ms.map CircularNode.key)

/-- Specification-side definition (§3): `s` is "the live node with the
smallest ID ≥ x", wrapping to the smallest live ID if `x` exceeds all of
them. -/
def IsSpecSuccessor (keys : List Int) (x s : Int) : Prop :=
  (s ∈ keys ∧ x ≤ s ∧ ∀ k ∈ keys, x ≤ k → s ≤ k) ∨
  ((∀ k ∈ keys, k < x) ∧ s ∈ keys ∧ ∀ k ∈ keys, s ≤ k)

/-- I4 as a predicate on a ring: every finger of every machine stores the
target `(key + 2^i) mod N`, a non-null successor pointer consistent with
its cached ID, and that ID is the spec-side successor of the target. -/
def FingersCorrect (r : CircularLinkedList) : Prop :=
  ∀ m ∈ r.head, ∀ i, i < numEntries r.identifierSpace →
    (m.RT.getD i default).filekey = (m.key + 2 ^ i) % r.identifierSpace ∧
    (m.RT.getD i default).m = some (m.RT.getD i default).machinekey ∧
    IsSpecSuccessor (r.head.map CircularNode.key)
      ((m.key + 2 ^ i) % r.identifierSpace) (m.RT.getD i default).machinekey

/-- Concrete three-machine ring (bare tables) used by the C2 witness. -/
def ringW2 : CircularLinkedList :=
  ⟨[⟨2, [], .null⟩, ⟨5, [], .null⟩, ⟨10, [], .null⟩], 16, 4, 3⟩

/-- Concrete order-3 tree for the C6 witness: keys 1–6. -/
def treeW : BTree :=
  ([1, 2, 3, 4, 5, 6] : List Int).foldl (fun t i => insertHelper ⟨i, "p"⟩ 3 t) .null

/-- Departing machine's B-tree for the C9 counterexample: records with
keys 5 and 7; key 5 collides with a record on the successor. -/
def cexSrc : BTree := .node [⟨5, "a"⟩, ⟨7, "b"⟩] [.null, .null, .null]

/-- Successor's B-tree for the C9 counterexample: already holds key 5. -/
def cexDst : BTree := .node [⟨5, "x"⟩] [.null, .null]

/-- Two-machine ring for the C9 counterexample. -/
def cexRing : CircularLinkedList := ⟨[⟨2, [], cexDst⟩, ⟨10, [], cexSrc⟩], 16, 4, 3⟩

/-! ## Shape invariant of the B-tree (claim C4) -/
mutual

/-- Height of a subtree: `0` for null, one more than the children's
common height for a node. -/
def BTree.height : BTree → Nat
  | .null => 0
  | .node _ children => 1 + heightList children

def heightList : List BTree → Nat
  | [] => 0
  | c :: cs => max c.height (heightList cs)

end

mutual

/-- Well-shapedness of a non-root subtree: record count within
`[MIN, MAX]`, one more child slot than records, all children of equal
height and themselves well-shaped. -/
def shapeN (ord : Nat) : BTree → Bool
  | .null => true
  | .node vals children =>
    decide (minKeys ord ≤ vals.length) && decide (vals.length ≤ maxKeys ord) &&
    (children.length == vals.length + 1) &&
    children.all (fun c => c.height == heightList children) &&
    shapeL ord children

def shapeL (ord : Nat) : List BTree → Bool
  | [] => true
  | c :: cs => shapeN ord c && shapeL ord cs

end

/-- Well-shapedness with an explicit lower bound `lo` on the top node's
record count (`lo = minKeys ord` at a non-root node, `lo = 1` at the
root, `lo - 1` transiently during deletion). -/
def shapeAt (ord lo : Nat) : BTree → Bool
  | .null => true
  | .node vals children =>
    decide (lo ≤ vals.length) && decide (vals.length ≤ maxKeys ord) &&
    (children.length == vals.length + 1) &&
    children.all (fun c => c.height == heightList children) &&
    shapeL ord children

mutual

/-- All non-null nodes of a subtree (the subtree's top node included). -/
def subNodes : BTree → List BTree
  | .null => []
  | .node vals children => .node vals children :: subNodesL children

def subNodesL : List BTree → List BTree
  | [] => []
  | c :: cs => subNodes c ++ subNodesL cs

end

/-- A B-tree operation of the facade: insert a record or delete a key. -/
inductive BTreeOp where
  | ins : FileNode → BTreeOp
  | del : Int → BTreeOp
deriving DecidableEq, Repr

def applyOp (ord : Nat) (t : BTree) : BTreeOp → BTree
  | .ins f => insertHelper f ord t
  | .del k => deleteHelper ord k t

/-- The tree built from the empty tree by a sequence of operations. -/
def applyOps (ord : Nat) (ops : List BTreeOp) : BTree :=
  ops.foldl (applyOp ord) .null

/-- The tail of `delhelp`'s node case: restore the modified child when it
underflowed, else rebuild the node. -/
def delhelpStep (ord : Nat) (vals1 : List FileNode) (children1 : List BTree)
    (i : Nat) : BTree :=
  if !(children1.getD i .null).isNull ∧
      (children1.getD i .null).countKeys < minKeys ord then
    restoreAt (minKeys ord) vals1 children1 i
  else
    .node vals1 children1

/-- Operation sequence for the C4 witness: build an order-3 tree with
keys 1–5 (forcing splits), then delete 2 (forcing a restore). -/
def opsW : List BTreeOp :=
  ((List.range 5).map fun i => BTreeOp.ins ⟨(i : Int) + 1, "p"⟩) ++ [BTreeOp.del 2]

/-- Ring used by the C1/C7 witnesses: machines {2, 5, 10} in a 4-bit
space with rebuilt finger tables. -/
def ringW3 : CircularLinkedList := updateRT ringW2

/-! ## In-order record list of a B-tree, and key ordering (claims C3, C7) -/
mutual

/-- In-order record sequence: `child[0], value[1], child[1], value[2], …`. -/
def BTree.inord : BTree → List FileNode
  | .null => []
  | .node vals children => inordMerge vals children

def inordMerge : List FileNode → List BTree → List FileNode
  | vals, [] => vals
  | vals, c :: cs => BTree.inord c ++ vals.take 1 ++ inordMerge vals.tail cs

end

/-- The key sequence of the in-order record list. -/
def keysOf (t : BTree) : List Int := t.inord.map FileNode.key

/-- The search-tree order invariant: strictly increasing in-order keys. -/
def SortedTree (t : BTree) : Prop := List.Pairwise (· < ·) (keysOf t)

/-- Insertion of a record into a (sorted) record list at its key's
position. -/
def insIn (f : FileNode) (l : List FileNode) : List FileNode :=
  l.takeWhile (fun r => r.key < f.key) ++ f :: l.dropWhile (fun r => r.key < f.key)

/-- Removal of every record with the given key. -/
def delOut (k : Int) (l : List FileNode) : List FileNode :=
  l.filter (fun r => !(r.key == k))

/-- The record list contributed by the promotion pair of `setval`. -/
def promOut : Option (FileNode × BTree) → List FileNode
  | none => []
  | some pc => pc.1 :: BTree.inord pc.2

/-- The per-machine update performed by a successful `InsertFileToTree`. -/
def putUpdate (f : FileNode) (ord : Nat) (rk : Int) : CircularNode → CircularNode :=
  fun m => if m.key == rk then { m with btree := insertHelper f ord m.btree } else m

/-- The per-machine update performed by `Traverse_insert`. -/
def handoffUpdate (toMove : List FileNode) (ord : Nat) (nmKey sKey : Int)
    (m : CircularNode) : CircularNode :=
  if m.key == nmKey then
    { m with btree := toMove.foldl (fun t f => insertHelper f ord t) m.btree }
  else if m.key == sKey then
    { m with btree := toMove.foldl (fun t f => deleteHelper ord f.key t) m.btree }
  else m

/-- Ring used by the C3 witness: machines {2, 10} in a 4-bit space;
machine 10 stores records with keys 3 and 7. -/
def ringW5 : CircularLinkedList :=
  { head := [⟨2, [], .null⟩,
      ⟨10, [], .node [⟨3, "ipfs/a"⟩, ⟨7, "ipfs/b"⟩] [.null, .null, .null]⟩],
    identifierSpace := 16, bits := 4, btreeOrder := 3 }

theorem size_le_sizeList_of_mem {c : BTree} {cs : List BTree} (h : c ∈ cs) :
    c.size ≤ sizeList cs := by
  induction cs with
  | nil => cases h
  | cons a l ih =>
    rcases List.mem_cons.mp h with h | h
    · subst h; simp [sizeList]
    · have := ih h
      simp [sizeList]
      omega

/-- Size bound used for termination of the descent recursions. -/
theorem size_getD_lt (children : List BTree) (k : Nat) (vals : List FileNode) :
    (children.getD k .null).size < (BTree.node vals children).size := by
  by_cases h : k < children.length
  · have hm : children.getD k .null ∈ children := by
      rw [List.getD_eq_getElem?_getD, List.getElem?_eq_getElem h]
      exact List.getElem_mem h
    have h1 := size_le_sizeList_of_mem hm
    simp only [BTree.size]
    omega
  · have h1 : children.getD k .null = .null := by
      rw [List.getD_eq_getElem?_getD, List.getElem?_eq_none (by omega)]
      rfl
    rw [h1]
    simp [BTree.size]

theorem queueSize_filter_le (p : BTree → Bool) (l : List BTree) :
    queueSize (l.filter p) ≤ queueSize l := by
  induction l with
  | nil => simp [queueSize]
  | cons c cs ih =>
    simp only [queueSize, List.filter_cons] at *
    by_cases h : p c <;> simp [h] <;> omega

theorem queueSize_eq_sizeList (l : List BTree) : queueSize l = sizeList l := by
  induction l with
  | nil => rfl
  | cons c cs ih =>
    simp only [queueSize, List.map_cons, List.sum_cons, sizeList] at *
    omega

/-! ## Claims C5 and C10: validation behaviour of membership operations -/
theorem ringSearch_false_findIdx (r : CircularLinkedList) (v : Int)
    (h : ¬ ringSearch r v) : r.head.findIdx? (fun m => m.key == v) = none := by
  rw [List.findIdx?_eq_none_iff]
  intro m hm
  unfold ringSearch at h
  rw [List.any_eq_true] at h
  push_neg at h
  simpa using h m hm

theorem deletekey_invalid (r : CircularLinkedList) (v : Int) (ord : Nat)
    (h : ¬ ringSearch r v) : deletekey r v ord = (r, true) := by
  unfold deletekey
  match hh : r.head with
  | [] => rfl
  | c :: rest =>
    have := ringSearch_false_findIdx r v h
    rw [hh] at this
    simp [this]

theorem insertAfter_invalid (r : CircularLinkedList) (v : Int) (ord : Nat)
    (h : v < 0 ∨ r.identifierSpace ≤ v ∨ ringSearch r v) :
    insertAfter r v ord = (r, true) := by
  unfold insertAfter
  by_cases hs : ringSearch r v
  · simp [hs]
  · have hv : v < 0 ∨ r.identifierSpace ≤ v := by tauto
    simp [hs, hv]

/-! C10 machinery -/
theorem ringInsertAux_cons_cons (v : Int) (nm c c2 : CircularNode)
    (rest : List CircularNode) :
    ringInsertAux v nm (c :: c2 :: rest) =
      if c2.key < v then c :: ringInsertAux v nm (c2 :: rest) else c :: nm :: c2 :: rest :=
  rfl

theorem ringInsertAux_keys_perm (v : Int) (nm : CircularNode) (l : List CircularNode) :
    ((ringInsertAux v nm l).map CircularNode.key).Perm
      (nm.key :: l.map CircularNode.key) := by
  induction l with
  | nil => simp [ringInsertAux]
  | cons c rest ih =>
    match rest with
    | [] =>
      simp only [ringInsertAux, List.map_cons, List.map_nil]
      exact List.Perm.swap _ _ _
    | c2 :: rest2 =>
      rw [ringInsertAux_cons_cons]
      by_cases h : c2.key < v
      · simp only [h, if_true, List.map_cons]
        exact (ih.cons _).trans (List.Perm.swap _ _ _)
      · simp only [h, if_false, List.map_cons]
        exact List.Perm.swap _ _ _

theorem ringInsert_keys_perm (r : CircularLinkedList) (v : Int) :
    ((ringInsert r v).head.map CircularNode.key).Perm (v :: r.head.map CircularNode.key) := by
  unfold ringInsert
  match hh : r.head with
  | [] => simp
  | c :: rest =>
    by_cases h : v < c.key
    · simp [h]
    · simp only [h, if_false]
      exact ringInsertAux_keys_perm v _ (c :: rest)

theorem ringInsert_identifierSpace (r : CircularLinkedList) (v : Int) :
    (ringInsert r v).identifierSpace = r.identifierSpace := by
  unfold ringInsert
  match r.head with
  | [] => rfl
  | c :: rest => by_cases h : v < c.key <;> simp [h]

theorem updateRT_keys (r : CircularLinkedList) :
    (updateRT r).head.map CircularNode.key = r.head.map CircularNode.key := by
  unfold updateRT
  cases hh : r.head with
  | nil => simp [hh]
  | cons c rest => simp

theorem insertMachinesAux_keys_perm (arr : List Int) (r : CircularLinkedList) :
    ((arr.foldl (fun acc v =>
        if 0 ≤ v ∧ v < acc.identifierSpace then ringInsert acc v else acc) r).head.map
          CircularNode.key).Perm
      ((r.head.map CircularNode.key) ++
        arr.filter (fun v => decide (0 ≤ v) && decide (v < r.identifierSpace))) := by
  induction arr generalizing r with
  | nil => simp
  | cons a rest ih =>
    simp only [List.foldl_cons, List.filter_cons]
    by_cases h : 0 ≤ a ∧ a < r.identifierSpace
    · have hb : (decide (0 ≤ a) && decide (a < r.identifierSpace)) = true := by
        simp [h.1, h.2]
      simp only [h, if_true, hb]
      have := ih (ringInsert r a)
      rw [ringInsert_identifierSpace] at this
      refine this.trans ?_
      refine (List.Perm.append_right _ ((ringInsert_keys_perm r a))).trans ?_
      simp only [List.cons_append]
      exact (List.perm_middle).symm
    · have hb : (decide (0 ≤ a) && decide (a < r.identifierSpace)) = false := by
        rcases not_and_or.mp h with h1 | h1 <;> simp [h1]
      simp only [h, if_false, hb]
      exact ih r

/-- C5.  Membership validation is atomic: a join of an out-of-range or
already-present ID, and a leave of an absent ID, each report a validation
error (`true` flag) and return the ring — membership, finger tables and
all B-trees — exactly as it was. -/
theorem membership_validation_atomic :
    (∀ (r : CircularLinkedList) (v : Int) (ord : Nat),
        (v < 0 ∨ r.identifierSpace ≤ v ∨ ringSearch r v) →
        insertAfter r v ord = (r, true)) ∧
    (∀ (r : CircularLinkedList) (v : Int) (ord : Nat),
        ¬ ringSearch r v → deletekey r v ord = (r, true)) :=
  ⟨insertAfter_invalid, deletekey_invalid⟩

theorem membership_validation_atomic_witness :
    ((16 : Int) ≤ ringW.identifierSpace ∨ ringSearch ringW 16 ∨ (16 : Int) < 0) ∧
    insertAfter ringW 16 3 = (ringW, true) ∧
    ringSearch ringW 3 ∧
    insertAfter ringW 3 3 = (ringW, true) ∧
    ¬ ringSearch ringW 5 ∧
    deletekey ringW 5 3 = (ringW, true) :=
  ⟨by decide,
   membership_validation_atomic.1 ringW 16 3 (by decide),
   by decide,
   membership_validation_atomic.1 ringW 3 3 (by decide),
   by decide,
   membership_validation_atomic.2 ringW 5 3 (by decide)⟩

/-- C10.  `InsertMachines` rejects an input ID iff it is out of range:
the resulting membership is, up to order, the old one plus every in-range
input — duplicates included, so feeding the same in-range ID twice
splices two ring nodes with the same ID (I1 is not enforced here). -/
theorem insertMachines_range_check_only :
    (∀ (r : CircularLinkedList) (arr : List Int),
        ((insertMachines r arr).head.map CircularNode.key).Perm
          ((r.head.map CircularNode.key) ++
            arr.filter (fun v => decide (0 ≤ v ∧ v < r.identifierSpace)))) ∧
    (insertMachines ⟨[], 16, 4, 3⟩ [3, 3]).head.map CircularNode.key = [3, 3] := by
  constructor
  · intro r arr
    unfold insertMachines
    rw [updateRT_keys]
    have := insertMachinesAux_keys_perm arr r
    simpa [Bool.decide_and] using this
  · decide

theorem sorted_find?_min (v : Int) :
    ∀ (ms : List CircularNode), SortedKeys ms →
      ∀ s, ms.find? (fun m => v ≤ m.key) = some s →
        ∀ k ∈ ms.map CircularNode.key, v ≤ k → s.key ≤ k := by
  intro ms
  induction ms with
  | nil => intro _ s hs; simp at hs
  | cons c rest ih =>
    intro hsort s hfind k hk hvk
    rw [List.find?_cons] at hfind
    simp only [SortedKeys, List.map_cons, List.pairwise_cons] at hsort
    rcases List.mem_cons.mp hk with hk | hk
    · subst hk
      by_cases hc : v ≤ c.key
      · simp [hc] at hfind; subst hfind; exact le_refl _
      · exact absurd hvk hc
    · by_cases hc : v ≤ c.key
      · simp [hc] at hfind; subst hfind
        exact le_of_lt (hsort.1 k hk)
      · simp [hc] at hfind
        exact ih hsort.2 s hfind k hk hvk

theorem ringSucc_spec (ms : List CircularNode) (v : Int)
    (hs : SortedKeys ms) (hne : ms ≠ []) :
    ∃ s, ringSucc ms v = some s ∧ s ∈ ms ∧
      IsSpecSuccessor (ms.map CircularNode.key) v s.key := by
  unfold ringSucc
  cases hfind : ms.find? (fun m => v ≤ m.key) with
  | some s =>
    refine ⟨s, rfl, List.mem_of_find?_eq_some hfind, Or.inl ⟨?_, ?_, ?_⟩⟩
    · exact List.mem_map_of_mem _ (List.mem_of_find?_eq_some hfind)
    · have := List.find?_some hfind
      simpa using this
    · exact sorted_find?_min v ms hs s hfind
  | none =>
    match ms, hne with
    | c :: rest, _ =>
      refine ⟨c, rfl, List.mem_cons_self _ _, Or.inr ⟨?_, ?_, ?_⟩⟩
      · intro k hk
        rw [List.find?_eq_none] at hfind
        rcases List.mem_map.mp hk with ⟨m, hm, rfl⟩
        have := hfind m hm
        simp at this
        exact this
      · exact List.mem_map_of_mem _ (List.mem_cons_self _ _)
      · intro k hk
        simp only [SortedKeys, List.map_cons, List.pairwise_cons] at hs
        rcases List.mem_cons.mp hk with hk | hk
        · exact le_of_eq hk.symm
        · exact le_of_lt (hs.1 k hk)

theorem log2Fuel_pow (b : Nat) : ∀ fuel, 2 ^ b ≤ fuel → log2Fuel fuel (2 ^ b) = b := by
  induction b with
  | zero =>
    intro fuel hf
    cases fuel with
    | zero => exact absurd hf (by omega)
    | succ f => rw [pow_zero, log2Fuel, if_neg (by omega)]
  | succ b ih =>
    intro fuel hf
    have hpos : 1 ≤ 2 ^ b := Nat.one_le_two_pow
    have hdouble : 2 ^ (b + 1) = 2 * 2 ^ b := by rw [Nat.pow_succ]; ring
    cases fuel with
    | zero => exact absurd hf (by omega)
    | succ f =>
      have hdiv : 2 ^ (b + 1) / 2 = 2 ^ b := by omega
      rw [log2Fuel, if_pos (by omega), hdiv, ih f (by omega)]

theorem numEntries_pow (bits : Nat) (hb : 1 ≤ bits) :
    numEntries ((2 : Int) ^ bits) = bits := by
  unfold numEntries
  have h1 : ((2 : Int) ^ bits).toNat = 2 ^ bits := by
    have : ((2 : Int) ^ bits) = ((2 ^ bits : Nat) : Int) := by push_cast; ring
    rw [this, Int.toNat_natCast]
  rw [h1, log2Fuel_pow bits (2 ^ bits) (le_refl _)]
  omega

theorem rebuildFingers_getD (ms : List CircularNode) (identifierSpace mkey : Int)
    (i : Nat) (hi : i < numEntries identifierSpace) :
    (rebuildFingers ms identifierSpace mkey).getD i default =
      (match ringSucc ms ((mkey + 2 ^ i) % identifierSpace) with
       | some s => ⟨(mkey + 2 ^ i) % identifierSpace, s.key, some s.key⟩
       | none => ⟨(mkey + 2 ^ i) % identifierSpace, -1, none⟩ : Finger) := by
  unfold rebuildFingers
  rw [List.getD_eq_getElem?_getD]
  rw [List.getElem?_map]
  rw [List.getElem?_range hi]
  rfl

theorem updateRT_fingersCorrect (r : CircularLinkedList) (hs : SortedKeys r.head) :
    FingersCorrect (updateRT r) := by
  intro m hm i hi
  unfold updateRT at hm hi ⊢
  cases hh : r.head with
  | nil => rw [hh] at hm; simp [hh] at hm
  | cons c rest =>
    rw [hh] at hm hi
    simp only [List.isEmpty_cons, Bool.false_eq_true, if_false] at hm hi ⊢
    rcases List.mem_map.mp hm with ⟨m0, hm0, rfl⟩
    rw [rebuildFingers_getD _ _ _ i hi]
    obtain ⟨s, hsucc, hsmem, hspec⟩ :=
      ringSucc_spec (c :: rest) ((m0.key + 2 ^ i) % r.identifierSpace)
        (hh ▸ hs) (by simp)
    rw [hsucc]
    refine ⟨rfl, rfl, ?_⟩
    simpa using hspec

theorem sortedKeys_cons {c : CircularNode} {l : List CircularNode} :
    SortedKeys (c :: l) ↔ (∀ m ∈ l, c.key < m.key) ∧ SortedKeys l := by
  simp only [SortedKeys, List.map_cons, List.pairwise_cons]
  constructor
  · rintro ⟨h1, h2⟩
    exact ⟨fun m hm => h1 _ (List.mem_map_of_mem _ hm), h2⟩
  · rintro ⟨h1, h2⟩
    refine ⟨?_, h2⟩
    intro k hk
    rcases List.mem_map.mp hk with ⟨m, hm, rfl⟩
    exact h1 m hm

theorem mem_ringInsertAux (v : Int) (nm : CircularNode) :
    ∀ (l : List CircularNode) (m : CircularNode),
      m ∈ ringInsertAux v nm l → m = nm ∨ m ∈ l := by
  intro l
  induction l with
  | nil => intro m hm; simp [ringInsertAux] at hm; exact Or.inl hm
  | cons c rest ih =>
    intro m hm
    match rest with
    | [] =>
      simp only [ringInsertAux] at hm
      rcases List.mem_cons.mp hm with rfl | hm
      · exact Or.inr (List.mem_cons_self _ _)
      · simp at hm; subst hm; exact Or.inl rfl
    | c2 :: rest2 =>
      rw [ringInsertAux_cons_cons] at hm
      by_cases h : c2.key < v
      · simp only [h, if_true] at hm
        rcases List.mem_cons.mp hm with rfl | hm
        · exact Or.inr (List.mem_cons_self _ _)
        · rcases ih m hm with h1 | h1
          · exact Or.inl h1
          · exact Or.inr (List.mem_cons_of_mem _ h1)
      · simp only [h, if_false] at hm
        rcases List.mem_cons.mp hm with rfl | hm
        · exact Or.inr (List.mem_cons_self _ _)
        · rcases List.mem_cons.mp hm with rfl | hm
          · exact Or.inl rfl
          · exact Or.inr (List.mem_cons_of_mem _ hm)

theorem ringInsertAux_sorted (v : Int) (nm : CircularNode) (hnm : nm.key = v) :
    ∀ (rest : List CircularNode) (c : CircularNode),
      SortedKeys (c :: rest) → (∀ m ∈ rest, m.key ≠ v) → c.key < v →
      SortedKeys (ringInsertAux v nm (c :: rest)) := by
  intro rest
  induction rest with
  | nil =>
    intro c _ _ hc
    simp only [ringInsertAux]
    rw [sortedKeys_cons]
    refine ⟨?_, by simp [SortedKeys]⟩
    intro m hm
    simp at hm; subst hm; omega
  | cons c2 rest2 ih =>
    intro c hsort hne hc
    rw [ringInsertAux_cons_cons]
    rw [sortedKeys_cons] at hsort
    by_cases h : c2.key < v
    · simp only [h, if_true]
      rw [sortedKeys_cons]
      constructor
      · intro m hm
        rcases mem_ringInsertAux v nm _ m hm with rfl | hm
        · omega
        · exact hsort.1 m hm
      · exact ih c2 hsort.2 (fun m hm => hne m (List.mem_cons_of_mem _ hm)) h
    · simp only [h, if_false]
      have hv : v < c2.key := by
        have := hne c2 (List.mem_cons_self _ _)
        omega
      rw [sortedKeys_cons]
      constructor
      · intro m hm
        rcases List.mem_cons.mp hm with rfl | hm
        · omega
        · exact hsort.1 m hm
      · rw [sortedKeys_cons]
        constructor
        · intro m hm
          rcases List.mem_cons.mp hm with rfl | hm
          · omega
          · rw [sortedKeys_cons] at hsort
            have := hsort.2.1 m hm
            omega
        · exact hsort.2

theorem ringInsert_sorted (r : CircularLinkedList) (v : Int)
    (hs : SortedKeys r.head) (hfresh : ¬ ringSearch r v) :
    SortedKeys (ringInsert r v).head := by
  have hne : ∀ m ∈ r.head, m.key ≠ v := by
    intro m hm
    unfold ringSearch at hfresh
    rw [List.any_eq_true] at hfresh
    push_neg at hfresh
    simpa using hfresh m hm
  unfold ringInsert
  cases hh : r.head with
  | nil => simp [SortedKeys]
  | cons c rest =>
    rw [hh] at hs hne
    by_cases h : v < c.key
    · simp only [h, if_true]
      rw [sortedKeys_cons]
      constructor
      · intro m hm
        show v < m.key
        rcases List.mem_cons.mp hm with rfl | hm
        · omega
        · rw [sortedKeys_cons] at hs
          have := hs.1 m hm
          omega
      · exact hs
    · simp only [h, if_false]
      have hc : c.key < v := by
        have := hne c (List.mem_cons_self _ _)
        omega
      exact ringInsertAux_sorted v _ rfl rest c hs
        (fun m hm => hne m (List.mem_cons_of_mem _ hm)) hc

theorem keys_set_preserve (ms : List CircularNode) (i : Nat) (m' : CircularNode)
    (hk : m'.key = (ms.getD i default).key) :
    (ms.set i m').map CircularNode.key = ms.map CircularNode.key := by
  induction ms generalizing i with
  | nil => simp
  | cons c rest ih =>
    cases i with
    | zero => simp_all
    | succ j =>
      simp only [List.set_cons_succ, List.map_cons]
      rw [ih j (by simpa using hk)]

theorem fingersCorrect_congr (r r' : CircularLinkedList)
    (hIS : r'.identifierSpace = r.identifierSpace)
    (hkeys : r'.head.map CircularNode.key = r.head.map CircularNode.key)
    (hmem : ∀ m' ∈ r'.head, ∃ m ∈ r.head, m'.key = m.key ∧ m'.RT = m.RT)
    (h : FingersCorrect r) : FingersCorrect r' := by
  intro m' hm' i hi
  obtain ⟨m, hm, hkey, hRT⟩ := hmem m' hm'
  rw [hIS] at hi
  have := h m hm i hi
  rw [hIS, hkeys, hkey, hRT]
  exact this

theorem traverseInsert_shape (ms : List CircularNode) (p : CircularNode) (ord : Nat) :
    (traverseInsert ms p ord).map CircularNode.key = ms.map CircularNode.key ∧
    ∀ m' ∈ traverseInsert ms p ord, ∃ m ∈ ms, m'.key = m.key ∧ m'.RT = m.RT := by
  unfold traverseInsert
  by_cases hbt : (nextMachine ms (nextMachine ms p)).btree.isNull
  · rw [if_pos hbt]
    exact ⟨rfl, fun m' hm' => ⟨m', hm', rfl, rfl⟩⟩
  · rw [if_neg hbt]
    refine ⟨?_, ?_⟩
    · rw [List.map_map]
      apply List.map_congr_left
      intro m _
      simp only [Function.comp_apply]
      split
      · rfl
      · split <;> rfl
    · intro m' hm'
      rcases List.mem_map.mp hm' with ⟨m, hm, rfl⟩
      refine ⟨m, hm, ?_, ?_⟩ <;>
        (split
         · rfl
         · split <;> rfl)

theorem insertAfter_fingersCorrect (r r' : CircularLinkedList) (v : Int) (ord : Nat)
    (hs : SortedKeys r.head) (heq : insertAfter r v ord = (r', false)) :
    FingersCorrect r' := by
  unfold insertAfter at heq
  by_cases h1 : ringSearch r v
  · rw [if_pos h1] at heq; simp at heq
  · rw [if_neg h1] at heq
    by_cases h2 : v < 0 ∨ r.identifierSpace ≤ v
    · rw [if_pos h2] at heq; simp at heq
    · rw [if_neg h2] at heq
      dsimp only at heq
      have hF1 : FingersCorrect (updateRT (ringInsert r v)) :=
        updateRT_fingersCorrect _ (ringInsert_sorted r v hs h1)
      cases hsn : searchNewMachine (updateRT (ringInsert r v)).head v with
      | none =>
        rw [hsn] at heq
        have : updateRT (ringInsert r v) = r' := congrArg Prod.fst heq
        exact this ▸ hF1
      | some prev =>
        rw [hsn] at heq
        dsimp only at heq
        by_cases h3 : 1 < (updateRT (ringInsert r v)).head.length
        · rw [if_pos h3] at heq
          have hr' : ({ updateRT (ringInsert r v) with
              head := traverseInsert (updateRT (ringInsert r v)).head prev ord } :
              CircularLinkedList) = r' := congrArg Prod.fst heq
          subst hr'
          refine fingersCorrect_congr (updateRT (ringInsert r v)) _ rfl ?_ ?_ hF1
          · exact (traverseInsert_shape _ prev ord).1
          · exact (traverseInsert_shape _ prev ord).2
        · rw [if_neg h3] at heq
          have : updateRT (ringInsert r v) = r' := congrArg Prod.fst heq
          exact this ▸ hF1

theorem deletekey_fingersCorrect (r r' : CircularLinkedList) (v : Int) (ord : Nat)
    (hs : SortedKeys r.head) (heq : deletekey r v ord = (r', false)) :
    FingersCorrect r' := by
  unfold deletekey at heq
  cases hh : r.head with
  | nil => rw [hh] at heq; simp at heq
  | cons c rest =>
    rw [hh] at heq
    dsimp only at heq
    cases hidx : (c :: rest).findIdx? (fun m => m.key == v) with
    | none => rw [hidx] at heq; simp at heq
    | some j =>
      rw [hidx] at heq
      dsimp only at heq
      have hr' := congrArg Prod.fst heq
      simp only at hr'
      subst hr'
      apply updateRT_fingersCorrect
      · -- SortedKeys of the spliced-out list
        have hms : SortedKeys (c :: rest) := hh ▸ hs
        set ms := c :: rest with hmsdef
        set n := ms.length with hn
        set succIdx := (j + 1) % n with hsi
        have hkeys1 :
            ((if 1 < n then
                ms.set succIdx
                  (let s := ms.getD succIdx default
                   { s with btree := traverseDelete ord (ms.getD j default).btree s.btree })
              else ms).map CircularNode.key) = ms.map CircularNode.key := by
          by_cases h3 : 1 < n
          · rw [if_pos h3]
            exact keys_set_preserve ms succIdx _ rfl
          · rw [if_neg h3]
        have hsorted1 : SortedKeys
            (if 1 < n then
                ms.set succIdx
                  (let s := ms.getD succIdx default
                   { s with btree := traverseDelete ord (ms.getD j default).btree s.btree })
              else ms) := by
          unfold SortedKeys
          rw [hkeys1]
          exact hms
        by_cases h4 : j = 0
        · rw [if_pos h4]
          unfold SortedKeys
          exact hsorted1.sublist (List.Sublist.map _ (List.tail_sublist _))
        · rw [if_neg h4]
          unfold SortedKeys
          exact hsorted1.sublist (List.Sublist.map _ (List.eraseIdx_sublist _ _))

/-- C2.  After `updateRT` — hence after every successful join and leave —
every live machine's `i`-th finger (for all `i` below the table length,
which equals `bits` on the power-of-two identifier space) stores the
target `(key + 2^i) mod N`, and its cached pointer and ID name the actual
successor of that target: the live node with the smallest ID ≥ target,
wrapping to the smallest live ID. -/
theorem finger_tables_correct_after_rebuild :
    (∀ r : CircularLinkedList, SortedKeys r.head → FingersCorrect (updateRT r)) ∧
    (∀ (r r' : CircularLinkedList) (v : Int) (ord : Nat), SortedKeys r.head →
        insertAfter r v ord = (r', false) → FingersCorrect r') ∧
    (∀ (r r' : CircularLinkedList) (v : Int) (ord : Nat), SortedKeys r.head →
        deletekey r v ord = (r', false) → FingersCorrect r') ∧
    (∀ bits : Nat, 1 ≤ bits → numEntries ((2 : Int) ^ bits) = bits) :=
  ⟨updateRT_fingersCorrect, insertAfter_fingersCorrect, deletekey_fingersCorrect,
   numEntries_pow⟩

theorem finger_tables_correct_after_rebuild_witness :
    SortedKeys ringW2.head ∧ FingersCorrect (updateRT ringW2) ∧
    1 ≤ 4 ∧ numEntries ((2 : Int) ^ 4) = 4 :=
  ⟨by unfold SortedKeys; decide,
   finger_tables_correct_after_rebuild.1 ringW2 (by unfold SortedKeys; decide),
   by decide,
   finger_tables_correct_after_rebuild.2.2.2 4 (by decide)⟩

/-! ## Fuel adequacy of the structural B-tree recursions -/
theorem set_getD_self (l : List BTree) : ∀ i : Nat, l.set i (l.getD i .null) = l := by
  induction l with
  | nil => intro i; cases i <;> rfl
  | cons a t ih =>
    intro i
    cases i with
    | zero => rfl
    | succ i => simp only [List.set_cons_succ, List.getD_cons_succ, ih i]

theorem searchDescendF_fuel (k : Int) :
    ∀ f1 f2 t, t.size < f1 → t.size < f2 →
      searchDescendF k f1 t = searchDescendF k f2 t := by
  intro f1
  induction f1 with
  | zero => intro f2 t h1 h2; omega
  | succ f1 ih =>
    intro f2 t h1 h2
    cases f2 with
    | zero => omega
    | succ f2 =>
      cases t with
      | null => rfl
      | node vals children =>
        have hc := size_getD_lt children (searchNode k vals).1 vals
        simp only [BTree.size] at h1 h2
        simp only [searchDescendF]
        by_cases hsr : (searchNode k vals).2 = true
        · simp only [hsr, if_true]
        · have hb : (searchNode k vals).2 = false := by
            cases hx : (searchNode k vals).2
            · rfl
            · exact absurd hx hsr
          simp only [hb, Bool.false_eq_true, if_false]
          apply ih
          · simp only [BTree.size] at hc ⊢; omega
          · simp only [BTree.size] at hc ⊢; omega

theorem searchDescend_node (k : Int) (vals : List FileNode) (children : List BTree) :
    searchDescend k (.node vals children) =
      if (searchNode k vals).2 then some (vals, (searchNode k vals).1)
      else searchDescend k (children.getD (searchNode k vals).1 .null) := by
  unfold searchDescend
  have hc := size_getD_lt children (searchNode k vals).1 vals
  by_cases hsr : (searchNode k vals).2 = true
  · simp only [searchDescendF, hsr, if_true]
  · have hb : (searchNode k vals).2 = false := by
      cases hx : (searchNode k vals).2
      · rfl
      · exact absurd hx hsr
    simp only [searchDescendF, hb, Bool.false_eq_true, if_false]
    exact searchDescendF_fuel k _ _ _ hc (Nat.lt_succ_self _)

theorem searchFile_null (k : Int) : searchFile k .null = false := rfl

theorem searchFile_node (k : Int) (vals : List FileNode) (children : List BTree) :
    searchFile k (.node vals children) =
      if (searchNode k vals).2 then true
      else searchFile k (children.getD (searchNode k vals).1 .null) := by
  unfold searchFile
  rw [searchDescend_node]
  by_cases hsr : (searchNode k vals).2 = true
  · simp [hsr]
  · have hb : (searchNode k vals).2 = false := by
      cases hx : (searchNode k vals).2
      · rfl
      · exact absurd hx hsr
    simp [hb]

theorem setvalF_fuel (f : FileNode) (ord : Nat) :
    ∀ f1 f2 t, t.size < f1 → t.size < f2 →
      setvalF f ord f1 t = setvalF f ord f2 t := by
  intro f1
  induction f1 with
  | zero => intro f2 t h1 h2; omega
  | succ f1 ih =>
    intro f2 t h1 h2
    cases f2 with
    | zero => omega
    | succ f2 =>
      cases t with
      | null => rfl
      | node vals children =>
        have hc := size_getD_lt children (searchNode f.key vals).1 vals
        simp only [BTree.size] at h1 h2 hc
        simp only [setvalF]
        by_cases hsr : (searchNode f.key vals).2 = true
        · simp only [hsr, if_true]
        · have hb : (searchNode f.key vals).2 = false := by
            cases hx : (searchNode f.key vals).2
            · rfl
            · exact absurd hx hsr
          simp only [hb, Bool.false_eq_true, if_false]
          rw [ih f2 (children.getD (searchNode f.key vals).1 .null) (by omega) (by omega)]

theorem setval_null (f : FileNode) (ord : Nat) :
    setval f ord .null = (.null, some (f, .null)) := rfl

theorem setval_node (f : FileNode) (ord : Nat) (vals : List FileNode)
    (children : List BTree) :
    setval f ord (.node vals children) =
      (let sr := searchNode f.key vals
       if sr.2 then (.node vals children, none)
       else
         let res := setval f ord (children.getD sr.1 .null)
         match res.2 with
         | none => (.node vals (children.set sr.1 res.1), none)
         | some pc =>
           let children1 := children.set sr.1 res.1
           if vals.length < maxKeys ord then (fillnode pc.1 pc.2 vals children1 sr.1, none)
           else
             let s := splitNode pc.1 pc.2 vals children1 sr.1 (minKeys ord)
             (s.1, some (s.2.1, s.2.2))) := by
  unfold setval
  have hc := size_getD_lt children (searchNode f.key vals).1 vals
  conv_lhs => rw [setvalF]
  rw [setvalF_fuel f ord _ ((children.getD (searchNode f.key vals).1 .null).size + 1)
    (children.getD (searchNode f.key vals).1 .null) hc (Nat.lt_succ_self _)]

theorem delhelpF_fuel (ord : Nat) :
    ∀ f1 f2 k t, t.size < f1 → t.size < f2 →
      delhelpF ord f1 k t = delhelpF ord f2 k t := by
  intro f1
  induction f1 with
  | zero => intro f2 k t h1 h2; omega
  | succ f1 ih =>
    intro f2 k t h1 h2
    cases f2 with
    | zero => omega
    | succ f2 =>
      cases t with
      | null => rfl
      | node vals children =>
        simp only [BTree.size] at h1 h2
        simp only [delhelpF]
        by_cases hsr : (searchNode k vals).2 = true
        · simp only [hsr, if_true]
          by_cases hnn : ((children.getD ((searchNode k vals).1 - 1) .null).isNull = false)
          · have hci := size_getD_lt children (searchNode k vals).1 vals
            simp only [BTree.size] at hci
            simp only [hnn, Bool.not_false, if_true]
            rw [ih f2 (leftmostRec (children.getD (searchNode k vals).1 .null)).key
              (children.getD (searchNode k vals).1 .null) (by omega) (by omega)]
          · have hb : (children.getD ((searchNode k vals).1 - 1) .null).isNull = true := by
              cases hx : (children.getD ((searchNode k vals).1 - 1) .null).isNull
              · exact absurd hx hnn
              · rfl
            simp only [hb, Bool.not_true, Bool.false_eq_true, if_false]
        · have hb : (searchNode k vals).2 = false := by
            cases hx : (searchNode k vals).2
            · rfl
            · exact absurd hx hsr
          have hci := size_getD_lt children (searchNode k vals).1 vals
          simp only [BTree.size] at hci
          simp only [hb, Bool.false_eq_true, if_false]
          rw [ih f2 k (children.getD (searchNode k vals).1 .null) (by omega) (by omega)]

theorem delhelp_null (ord : Nat) (k : Int) : delhelp ord k .null = (.null, false) := rfl

theorem delhelp_node (ord : Nat) (k : Int) (vals : List FileNode) (children : List BTree) :
    delhelp ord k (.node vals children) =
      (let sr := searchNode k vals
       let i := sr.1
       let step : List FileNode × List BTree × Bool :=
         if sr.2 then
           if !(children.getD (i - 1) .null).isNull then
             let succF := leftmostRec (children.getD i .null)
             let r := delhelp ord succF.key (children.getD i .null)
             (vals.set (i - 1) succF, children.set i r.1, r.2)
           else
             (vals.eraseIdx (i - 1), children.eraseIdx i, true)
         else
           let r := delhelp ord k (children.getD i .null)
           (vals, children.set i r.1, r.2)
       let vals1 := step.1
       let children1 := step.2.1
       if !(children1.getD i .null).isNull ∧
           (children1.getD i .null).countKeys < minKeys ord then
         (restoreAt (minKeys ord) vals1 children1 i, step.2.2)
       else
         (.node vals1 children1, step.2.2)) := by
  unfold delhelp
  have hc := size_getD_lt children (searchNode k vals).1 vals
  have hrw : ∀ k' : Int,
      delhelpF ord (BTree.node vals children).size k'
        (children.getD (searchNode k vals).1 .null) =
      delhelpF ord ((children.getD (searchNode k vals).1 .null).size + 1) k'
        (children.getD (searchNode k vals).1 .null) := fun k' =>
    delhelpF_fuel ord _ _ k' _ hc (Nat.lt_succ_self _)
  conv_lhs => rw [delhelpF]
  simp only [hrw]

/-! ## BFS fuel adequacy -/
theorem popWeight_pos (t : BTree) : 1 ≤ popWeight t := by
  cases t with
  | null => simp [popWeight, BTree.isNull]
  | node vals children => simp [popWeight, BTree.isNull, BTree.size]

theorem queueFuel_cons (t : BTree) (q : List BTree) :
    queueFuel (t :: q) = popWeight t + queueFuel q := by
  simp [queueFuel]

theorem queueFuel_append (a b : List BTree) :
    queueFuel (a ++ b) = queueFuel a + queueFuel b := by
  simp [queueFuel]

theorem queueFuel_filter_nonnull (children : List BTree) :
    queueFuel (children.filter (fun c => !c.isNull)) = sizeList children := by
  induction children with
  | nil => rfl
  | cons c cs ih =>
    rw [List.filter_cons]
    cases c with
    | null =>
      have h0 : (!(BTree.null).isNull) = false := rfl
      rw [h0, if_neg (by simp), ih]
      simp [sizeList, BTree.size]
    | node vals gc =>
      have h1 : (!(BTree.node vals gc).isNull) = true := rfl
      rw [h1, if_pos rfl, queueFuel_cons, ih]
      simp [popWeight, BTree.isNull, BTree.size, sizeList]

theorem bfsFilesF_fuel :
    ∀ f1 f2 q, queueFuel q ≤ f1 → queueFuel q ≤ f2 →
      bfsFilesF f1 q = bfsFilesF f2 q := by
  intro f1
  induction f1 with
  | zero =>
    intro f2 q h1 h2
    cases q with
    | nil => cases f2 <;> rfl
    | cons t rest =>
      exfalso
      have := popWeight_pos t
      rw [queueFuel_cons] at h1
      omega
  | succ f1 ih =>
    intro f2 q h1 h2
    cases q with
    | nil => cases f2 <;> rfl
    | cons t rest =>
      have hpw := popWeight_pos t
      rw [queueFuel_cons] at h1 h2
      cases f2 with
      | zero => omega
      | succ f2 =>
        cases t with
        | null =>
          simp only [bfsFilesF]
          have hw : popWeight BTree.null = 1 := rfl
          exact ih f2 rest (by omega) (by omega)
        | node vals children =>
          simp only [bfsFilesF]
          have hw : popWeight (BTree.node vals children) = 1 + sizeList children := by
            simp [popWeight, BTree.isNull, BTree.size]
          have hq : queueFuel (rest ++ children.filter (fun c => !c.isNull)) =
              queueFuel rest + sizeList children := by
            rw [queueFuel_append, queueFuel_filter_nonnull]
          rw [ih f2 (rest ++ children.filter (fun c => !c.isNull)) (by omega) (by omega)]

theorem bfsFiles_nil : bfsFiles [] = [] := rfl

theorem bfsFiles_null_cons (rest : List BTree) :
    bfsFiles (.null :: rest) = bfsFiles rest := by
  unfold bfsFiles
  rw [queueFuel_cons]
  have : popWeight BTree.null = 1 := rfl
  rw [this, Nat.add_comm]
  rfl

theorem bfsFiles_node_cons (vals : List FileNode) (children : List BTree)
    (rest : List BTree) :
    bfsFiles (.node vals children :: rest) =
      vals ++ bfsFiles (rest ++ children.filter (fun c => !c.isNull)) := by
  unfold bfsFiles
  rw [queueFuel_cons]
  have hw : popWeight (BTree.node vals children) = 1 + sizeList children := by
    simp [popWeight, BTree.isNull, BTree.size]
  rw [hw]
  have h1 : 1 + sizeList children + queueFuel rest =
      (sizeList children + queueFuel rest) + 1 := by omega
  rw [h1]
  simp only [bfsFilesF]
  congr 1
  apply bfsFilesF_fuel
  · rw [queueFuel_append, queueFuel_filter_nonnull]; omega
  · exact le_refl _

/-! ## Claim C6: duplicate insert is rejected without modification -/
theorem setvalF_duplicate (f : FileNode) (ord : Nat) :
    ∀ fuel t, t.size < fuel → searchFile f.key t = true →
      setvalF f ord fuel t = (t, none) := by
  intro fuel
  induction fuel with
  | zero => intro t h _; omega
  | succ fuel ih =>
    intro t hsize hfound
    cases t with
    | null => exact absurd hfound (by rw [searchFile_null]; simp)
    | node vals children =>
      rw [searchFile_node] at hfound
      have hc := size_getD_lt children (searchNode f.key vals).1 vals
      simp only [BTree.size] at hsize hc
      by_cases hsr : (searchNode f.key vals).2 = true
      · simp only [setvalF, hsr, if_true]
      · have hb : (searchNode f.key vals).2 = false := by
          cases hx : (searchNode f.key vals).2
          · rfl
          · exact absurd hx hsr
        rw [hb] at hfound
        simp only [Bool.false_eq_true, if_false] at hfound
        simp only [setvalF, hb, Bool.false_eq_true, if_false]
        rw [ih (children.getD (searchNode f.key vals).1 .null) (by omega) hfound]
        simp only [set_getD_self]

theorem insertHelper_duplicate (f : FileNode) (ord : Nat) (t : BTree)
    (h : searchFile f.key t = true) : insertHelper f ord t = t := by
  unfold insertHelper BTree.insert
  rw [show setval f ord t = (t, none) from
    setvalF_duplicate f ord (t.size + 1) t (Nat.lt_succ_self _) h]

/-- C6.  A duplicate insert is rejected with no modification: whenever the
key of `f` is already found in the tree, `setval` reports the duplicate
(`none` promotion, tree returned as-is) and `insertHelper` returns the
tree completely unchanged. -/
theorem duplicate_insert_rejected :
    ∀ (t : BTree) (f : FileNode) (ord : Nat), searchFile f.key t = true →
      setval f ord t = (t, none) ∧ insertHelper f ord t = t := by
  intro t f ord h
  exact ⟨setvalF_duplicate f ord (t.size + 1) t (Nat.lt_succ_self _) h,
    insertHelper_duplicate f ord t h⟩

theorem duplicate_insert_rejected_witness :
    searchFile (4 : Int) treeW = true ∧
    (setval ⟨4, "other"⟩ 3 treeW = (treeW, none) ∧ insertHelper ⟨4, "other"⟩ 3 treeW = treeW) :=
  ⟨by decide, duplicate_insert_rejected treeW ⟨4, "other"⟩ 3 (by decide)⟩

/-! ## Claim C9: hand-off collision behaviour on leave -/
theorem deletekey_found_no_error (r : CircularLinkedList) (v : Int) (ord : Nat)
    (h : ringSearch r v = true) : (deletekey r v ord).2 = false := by
  unfold deletekey
  cases hh : r.head with
  | nil =>
    exfalso
    unfold ringSearch at h
    rw [hh] at h
    simp at h
  | cons c rest =>
    cases hfi : (c :: rest).findIdx? (fun m => m.key == v) with
    | none =>
      exfalso
      rw [List.findIdx?_eq_none_iff] at hfi
      unfold ringSearch at h
      rw [hh, List.any_eq_true] at h
      obtain ⟨m, hm, hmv⟩ := h
      have := hfi m hm
      rw [this] at hmv
      exact Bool.false_ne_true hmv
    | some j => rfl

/-- C9 counterexample.  Machine 10 leaves; its record `(5, "a")` collides
with `(5, "x")` already on successor machine 2.  No assertion fires and
nothing aborts: the leave reports success (`false` error flag), the
transfer continues past the collision (record `(7, "b")` arrives), and
the colliding record is silently dropped — the survivor keeps `(5, "x")`.
This refutes the claimed fatal-assertion behaviour. -/
theorem handoff_collision_cex :
    searchFile (5 : Int) cexDst = true ∧
    cexSrc.getAllFiles = [⟨5, "a"⟩, ⟨7, "b"⟩] ∧
    (deletekey cexRing 10 3).2 = false ∧
    ((deletekey cexRing 10 3).1.head.map fun m => (m.key, m.btree.getAllFiles)) =
      [(2, [⟨5, "x"⟩, ⟨7, "b"⟩])] := by
  refine ⟨by decide, by decide, by decide, by decide⟩

/-- C9 (amended).  Hand-off collisions are silent, not fatal: during a
leave, a transferred record whose key already exists on the successor is
rejected by `setval`'s duplicate check, leaving the successor's tree
unchanged at that step (the record is dropped), and the hand-off always
runs to completion — `deletekey` of a live machine reports success. -/
theorem handoff_collision_silent :
    (∀ (ord : Nat) (dst : BTree) (f : FileNode),
        searchFile f.key dst = true → insertHelper f ord dst = dst) ∧
    (∀ (r : CircularLinkedList) (v : Int) (ord : Nat),
        ringSearch r v = true → (deletekey r v ord).2 = false) :=
  ⟨fun ord dst f h => insertHelper_duplicate f ord dst h,
   fun r v ord h => deletekey_found_no_error r v ord h⟩

theorem handoff_collision_silent_witness :
    (searchFile (5 : Int) cexDst = true ∧ insertHelper ⟨5, "a"⟩ 3 cexDst = cexDst) ∧
    (ringSearch cexRing 10 = true ∧ (deletekey cexRing 10 3).2 = false) :=
  ⟨⟨by decide, handoff_collision_silent.1 3 cexDst ⟨5, "a"⟩ (by decide)⟩,
   ⟨by decide, handoff_collision_silent.2 cexRing 10 3 (by decide)⟩⟩

/-! ### Basic facts about the shape predicates -/
theorem minKeys_eq (ord : Nat) (h3 : 3 ≤ ord) : minKeys ord = (ord + 1) / 2 - 1 := by
  by_cases h : ord % 2 = 0 <;> simp only [minKeys, h, if_true, if_false] <;> omega

theorem minKeys_pos (ord : Nat) : 1 ≤ minKeys ord := by
  by_cases h : ord % 2 = 0 <;> simp only [minKeys, h, if_true, if_false] <;> omega

theorem minKeys_le_maxKeys (ord : Nat) (h3 : 3 ≤ ord) : minKeys ord ≤ maxKeys ord := by
  by_cases h : ord % 2 = 0 <;>
    simp only [minKeys, maxKeys, h, if_true, if_false] <;> omega

theorem two_minKeys_le (ord : Nat) (h3 : 3 ≤ ord) : 2 * minKeys ord ≤ maxKeys ord := by
  by_cases h : ord % 2 = 0 <;>
    simp only [minKeys, maxKeys, h, if_true, if_false] <;> omega

theorem minKeys_succ_le_maxKeys (ord : Nat) (h3 : 3 ≤ ord) :
    minKeys ord + 1 ≤ maxKeys ord := by
  have := two_minKeys_le ord h3
  have := minKeys_pos ord
  omega

theorem height_null : BTree.height .null = 0 := rfl

theorem height_node (vals : List FileNode) (children : List BTree) :
    BTree.height (.node vals children) = 1 + heightList children := rfl

theorem height_eq_zero_iff (t : BTree) : t.height = 0 ↔ t = .null := by
  cases t with
  | null => simp [height_null]
  | node vals children => simp [height_node]

theorem isNull_iff (t : BTree) : t.isNull = true ↔ t = .null := by
  cases t <;> simp [BTree.isNull]

theorem heightList_cons (c : BTree) (cs : List BTree) :
    heightList (c :: cs) = max c.height (heightList cs) := rfl

theorem heightList_eq_of_all (h : Nat) :
    ∀ l : List BTree, l ≠ [] → (∀ c ∈ l, c.height = h) → heightList l = h := by
  intro l
  induction l with
  | nil => intro hne; exact absurd rfl hne
  | cons c cs ih =>
    intro _ hall
    rw [heightList_cons, hall c (by simp)]
    cases cs with
    | nil => simp [heightList]
    | cons d ds =>
      rw [ih (by simp) (fun x hx => hall x (List.mem_cons_of_mem _ hx))]
      simp

theorem shapeL_iff (ord : Nat) :
    ∀ l : List BTree, shapeL ord l = true ↔ ∀ c ∈ l, shapeN ord c = true := by
  intro l
  induction l with
  | nil => simp [shapeL]
  | cons c cs ih =>
    rw [shapeL]
    rw [Bool.and_eq_true, ih]
    constructor
    · rintro ⟨h1, h2⟩ x hx
      rcases List.mem_cons.mp hx with hx | hx
      · subst hx; exact h1
      · exact h2 x hx
    · intro h
      exact ⟨h c (by simp), fun x hx => h x (List.mem_cons_of_mem _ hx)⟩

theorem shapeAt_null (ord lo : Nat) : shapeAt ord lo .null = true := rfl

theorem shapeAt_node_iff (ord lo : Nat) (vals : List FileNode) (children : List BTree) :
    shapeAt ord lo (.node vals children) = true ↔
      lo ≤ vals.length ∧ vals.length ≤ maxKeys ord ∧
      children.length = vals.length + 1 ∧
      (∀ c ∈ children, c.height = heightList children) ∧
      (∀ c ∈ children, shapeN ord c = true) := by
  rw [shapeAt]
  simp only [Bool.and_eq_true, decide_eq_true_eq, beq_iff_eq, List.all_eq_true,
    shapeL_iff, and_assoc]

theorem shapeN_eq_shapeAt (ord : Nat) (t : BTree) :
    shapeN ord t = shapeAt ord (minKeys ord) t := by
  cases t <;> rfl

theorem shapeAt_mono (ord : Nat) {lo lo' : Nat} (hle : lo' ≤ lo) (t : BTree)
    (h : shapeAt ord lo t = true) : shapeAt ord lo' t = true := by
  cases t with
  | null => rfl
  | node vals children =>
    rw [shapeAt_node_iff] at h ⊢
    exact ⟨le_trans hle h.1, h.2⟩

/-! ### `searchNode` index bounds -/
theorem searchScan_le (k : Int) (vals : List FileNode) :
    ∀ n, searchScan k vals n ≤ n := by
  intro n
  induction n with
  | zero => simp [searchScan]
  | succ n ih =>
    rw [searchScan]
    by_cases h : k < (vals.getD n sentinelFile).key ∧ 0 < n
    · rw [if_pos h]; omega
    · rw [if_neg h]

theorem searchScan_pos (k : Int) (vals : List FileNode) :
    ∀ n, 1 ≤ n → 1 ≤ searchScan k vals n := by
  intro n
  induction n with
  | zero => omega
  | succ n ih =>
    intro _
    rw [searchScan]
    by_cases h : k < (vals.getD n sentinelFile).key ∧ 0 < n
    · rw [if_pos h]; exact ih h.2
    · rw [if_neg h]; omega

theorem searchNode_le (k : Int) (vals : List FileNode) :
    (searchNode k vals).1 ≤ vals.length := by
  rw [searchNode]
  by_cases h : k < (vals.getD 0 sentinelFile).key
  · rw [if_pos h]; simp
  · rw [if_neg h]
    exact searchScan_le k vals vals.length

theorem searchNode_found_pos (k : Int) (vals : List FileNode) (hv : vals ≠ [])
    (h : (searchNode k vals).2 = true) : 1 ≤ (searchNode k vals).1 := by
  rw [searchNode] at h ⊢
  by_cases hlt : k < (vals.getD 0 sentinelFile).key
  · rw [if_pos hlt] at h; simp at h
  · rw [if_neg hlt]
    exact searchScan_pos k vals vals.length (by
      cases vals with
      | nil => exact absurd rfl hv
      | cons a l => simp)

theorem btree_getD_mem {l : List BTree} {i : Nat} (h : i < l.length) :
    l.getD i .null ∈ l := by
  rw [List.getD_eq_getElem?_getD, List.getElem?_eq_getElem h]
  exact List.getElem_mem h

theorem btree_getLastD_mem : ∀ (l : List BTree) (d : BTree), l ≠ [] → l.getLastD d ∈ l := by
  intro l
  induction l with
  | nil => intro d h; exact absurd rfl h
  | cons a t ih =>
    intro d _
    cases t with
    | nil => simp [List.getLastD]
    | cons b t2 =>
      rw [List.getLastD_cons]
      exact List.mem_cons_of_mem _ (ih a (by simp))

theorem splitNode_shape (ord : Nat) (h3 : 3 ≤ ord) (p0 : FileNode) (c0 : BTree)
    (vals : List FileNode) (children1 : List BTree) (i H : Nat)
    (hn : vals.length = maxKeys ord)
    (hcl : children1.length = vals.length + 1)
    (hi : i ≤ vals.length)
    (hhts : ∀ c ∈ children1, c.height = H)
    (hts : ∀ c ∈ children1, shapeN ord c = true)
    (hc0h : c0.height = H) (hc0s : shapeN ord c0 = true) :
    shapeN ord (splitNode p0 c0 vals children1 i (minKeys ord)).1 = true ∧
    shapeN ord (splitNode p0 c0 vals children1 i (minKeys ord)).2.2 = true ∧
    (splitNode p0 c0 vals children1 i (minKeys ord)).1.height = 1 + H ∧
    (splitNode p0 c0 vals children1 i (minKeys ord)).2.2.height = 1 + H := by
  have hminpos := minKeys_pos ord
  have hminmax := minKeys_le_maxKeys ord h3
  have hmin1max := minKeys_succ_le_maxKeys ord h3
  have h2min := two_minKeys_le ord h3
  by_cases hk : i ≤ minKeys ord
  · simp only [splitNode, hk, if_true]
    -- left half: vals (take minK).insertIdx i p0 |>.dropLast,
    --            children1 (take minK+1).insertIdx (i+1) c0 |>.dropLast
    have hlv0 : (vals.take (minKeys ord)).length = minKeys ord := by
      rw [List.length_take]; omega
    have hlv1 : ((vals.take (minKeys ord)).insertIdx i p0).length = minKeys ord + 1 := by
      rw [List.length_insertIdx i _ (by omega), hlv0]
    have hlc0 : (children1.take (minKeys ord + 1)).length = minKeys ord + 1 := by
      rw [List.length_take]; omega
    have hlc1 : ((children1.take (minKeys ord + 1)).insertIdx (i + 1) c0).length =
        minKeys ord + 2 := by
      rw [List.length_insertIdx (i + 1) _ (by omega), hlc0]
    have hLmem : ∀ c ∈ ((children1.take (minKeys ord + 1)).insertIdx (i + 1) c0).dropLast,
        c ∈ children1 ∨ c = c0 := by
      intro c hc
      have hc1 := List.mem_of_mem_dropLast hc
      rw [List.mem_insertIdx (by omega)] at hc1
      rcases hc1 with hc1 | hc1
      · exact Or.inr hc1
      · exact Or.inl (List.take_subset _ _ hc1)
    have hLh : ∀ c ∈ ((children1.take (minKeys ord + 1)).insertIdx (i + 1) c0).dropLast,
        c.height = H := by
      intro c hc
      rcases hLmem c hc with hc | hc
      · exact hhts c hc
      · rw [hc]; exact hc0h
    have hLne : ((children1.take (minKeys ord + 1)).insertIdx (i + 1) c0).dropLast ≠ [] := by
      intro hcon
      have := congrArg List.length hcon
      rw [List.length_dropLast, hlc1] at this
      simp at this
    have hLhl : heightList ((children1.take (minKeys ord + 1)).insertIdx (i + 1)
        c0).dropLast = H := heightList_eq_of_all H _ hLne hLh
    have hLshape : shapeN ord (BTree.node ((vals.take (minKeys ord)).insertIdx i p0).dropLast
        (((children1.take (minKeys ord + 1)).insertIdx (i + 1) c0).dropLast)) = true := by
      rw [shapeN_eq_shapeAt, shapeAt_node_iff]
      refine ⟨?_, ?_, ?_, ?_, ?_⟩
      · rw [List.length_dropLast, hlv1]; omega
      · rw [List.length_dropLast, hlv1]; omega
      · rw [List.length_dropLast, List.length_dropLast, hlv1, hlc1]; omega
      · intro c hc; rw [hLhl]; exact hLh c hc
      · intro c hc
        rcases hLmem c hc with hc | hc
        · exact hts c hc
        · rw [hc]; exact hc0s
    -- right half: vals.drop minK, lastChild :: children1.drop (minK+1)
    have hrtail : (BTree.null :: children1.drop (minKeys ord + 1)).tail =
        children1.drop (minKeys ord + 1) := rfl
    have hlast := btree_getLastD_mem ((children1.take (minKeys ord + 1)).insertIdx (i + 1) c0)
      .null (by intro hcon; have := congrArg List.length hcon; rw [hlc1] at this; simp at this)
    have hlastm : ((children1.take (minKeys ord + 1)).insertIdx (i + 1) c0).getLastD .null ∈
        children1 ∨ ((children1.take (minKeys ord + 1)).insertIdx (i + 1) c0).getLastD .null
          = c0 := by
      rw [List.mem_insertIdx (by omega)] at hlast
      rcases hlast with hl | hl
      · exact Or.inr hl
      · exact Or.inl (List.take_subset _ _ hl)
    have hRmem : ∀ c ∈ ((children1.take (minKeys ord + 1)).insertIdx (i + 1) c0).getLastD
        .null :: children1.drop (minKeys ord + 1), c ∈ children1 ∨ c = c0 := by
      intro c hc
      rcases List.mem_cons.mp hc with hc | hc
      · rcases hlastm with hl | hl
        · exact Or.inl (hc ▸ hl)
        · exact Or.inr (hc ▸ hl)
      · exact Or.inl (List.drop_subset _ _ hc)
    have hRh : ∀ c ∈ ((children1.take (minKeys ord + 1)).insertIdx (i + 1) c0).getLastD
        .null :: children1.drop (minKeys ord + 1), c.height = H := by
      intro c hc
      rcases hRmem c hc with hc | hc
      · exact hhts c hc
      · rw [hc]; exact hc0h
    have hRhl : heightList (((children1.take (minKeys ord + 1)).insertIdx (i + 1)
        c0).getLastD .null :: children1.drop (minKeys ord + 1)) = H :=
      heightList_eq_of_all H _ (by simp) hRh
    have hRshape : shapeN ord (BTree.node (vals.drop (minKeys ord))
        (((children1.take (minKeys ord + 1)).insertIdx (i + 1) c0).getLastD .null ::
          children1.drop (minKeys ord + 1))) = true := by
      rw [shapeN_eq_shapeAt, shapeAt_node_iff]
      refine ⟨?_, ?_, ?_, ?_, ?_⟩
      · rw [List.length_drop]; omega
      · rw [List.length_drop]; omega
      · simp only [List.length_cons, List.length_drop]; omega
      · intro c hc; rw [hRhl]; exact hRh c hc
      · intro c hc
        rcases hRmem c hc with hc | hc
        · exact hts c hc
        · rw [hc]; exact hc0s
    refine ⟨hLshape, ?_, ?_, ?_⟩
    · simpa [hrtail] using hRshape
    · rw [height_node, hLhl]
    · rw [hrtail, height_node, hRhl]
  · simp only [splitNode, hk, if_false]
    have hik : minKeys ord < i := by omega
    -- left half: (vals.take (minK+1)).dropLast, (children1.take (minK+2)).dropLast
    have hlv0 : (vals.take (minKeys ord + 1)).length = minKeys ord + 1 := by
      rw [List.length_take]; omega
    have hlc0 : (children1.take (minKeys ord + 1 + 1)).length = minKeys ord + 2 := by
      rw [List.length_take]; omega
    have hLmem : ∀ c ∈ (children1.take (minKeys ord + 1 + 1)).dropLast, c ∈ children1 :=
      fun c hc => List.take_subset _ _ (List.mem_of_mem_dropLast hc)
    have hLne : (children1.take (minKeys ord + 1 + 1)).dropLast ≠ [] := by
      intro hcon
      have := congrArg List.length hcon
      rw [List.length_dropLast, hlc0] at this
      simp at this
    have hLhl : heightList (children1.take (minKeys ord + 1 + 1)).dropLast = H :=
      heightList_eq_of_all H _ hLne (fun c hc => hhts c (hLmem c hc))
    have hLshape : shapeN ord (BTree.node (vals.take (minKeys ord + 1)).dropLast
        ((children1.take (minKeys ord + 1 + 1)).dropLast)) = true := by
      rw [shapeN_eq_shapeAt, shapeAt_node_iff]
      refine ⟨?_, ?_, ?_, ?_, ?_⟩
      · rw [List.length_dropLast, hlv0]; omega
      · rw [List.length_dropLast, hlv0]; omega
      · rw [List.length_dropLast, List.length_dropLast, hlv0, hlc0]; omega
      · intro c hc; rw [hLhl]; exact hhts c (hLmem c hc)
      · intro c hc; exact hts c (hLmem c hc)
    -- right half
    have hdl : (children1.drop (minKeys ord + 1 + 1)).length =
        vals.length - minKeys ord - 1 := by
      rw [List.length_drop]; omega
    have hins : (BTree.null :: children1.drop (minKeys ord + 1 + 1)).insertIdx
        (i - (minKeys ord + 1) + 1) c0 =
        BTree.null :: (children1.drop (minKeys ord + 1 + 1)).insertIdx
          (i - (minKeys ord + 1)) c0 :=
      List.insertIdx_succ_cons _ _ _ _
    have hrv1 : ((vals.drop (minKeys ord + 1)).insertIdx (i - (minKeys ord + 1))
        p0).length = vals.length - minKeys ord := by
      rw [List.length_insertIdx _ _ (by rw [List.length_drop]; omega), List.length_drop]
      omega
    have hrc1 : ((children1.drop (minKeys ord + 1 + 1)).insertIdx (i - (minKeys ord + 1))
        c0).length = vals.length - minKeys ord := by
      rw [List.length_insertIdx _ _ (by rw [List.length_drop]; omega), List.length_drop]
      omega
    have hRcm : ∀ c ∈ (children1.drop (minKeys ord + 1 + 1)).insertIdx
        (i - (minKeys ord + 1)) c0, c ∈ children1 ∨ c = c0 := by
      intro c hc
      rw [List.mem_insertIdx (by rw [List.length_drop]; omega)] at hc
      rcases hc with hc | hc
      · exact Or.inr hc
      · exact Or.inl (List.drop_subset _ _ hc)
    have hlast := btree_getLastD_mem (children1.take (minKeys ord + 1 + 1)) .null
      (by intro hcon; have := congrArg List.length hcon; rw [hlc0] at this; simp at this)
    have hlastm : (children1.take (minKeys ord + 1 + 1)).getLastD .null ∈ children1 :=
      List.take_subset _ _ hlast
    have hRmem : ∀ c ∈ (children1.take (minKeys ord + 1 + 1)).getLastD .null ::
        (children1.drop (minKeys ord + 1 + 1)).insertIdx (i - (minKeys ord + 1)) c0,
        c ∈ children1 ∨ c = c0 := by
      intro c hc
      rcases List.mem_cons.mp hc with hc | hc
      · exact Or.inl (hc ▸ hlastm)
      · exact hRcm c hc
    have hRh : ∀ c ∈ (children1.take (minKeys ord + 1 + 1)).getLastD .null ::
        (children1.drop (minKeys ord + 1 + 1)).insertIdx (i - (minKeys ord + 1)) c0,
        c.height = H := by
      intro c hc
      rcases hRmem c hc with hc | hc
      · exact hhts c hc
      · rw [hc]; exact hc0h
    have hRhl : heightList ((children1.take (minKeys ord + 1 + 1)).getLastD .null ::
        (children1.drop (minKeys ord + 1 + 1)).insertIdx (i - (minKeys ord + 1)) c0) = H :=
      heightList_eq_of_all H _ (by simp) hRh
    have hRshape : shapeN ord (BTree.node ((vals.drop (minKeys ord + 1)).insertIdx
        (i - (minKeys ord + 1)) p0)
        ((children1.take (minKeys ord + 1 + 1)).getLastD .null ::
          (children1.drop (minKeys ord + 1 + 1)).insertIdx (i - (minKeys ord + 1)) c0)) =
        true := by
      rw [shapeN_eq_shapeAt, shapeAt_node_iff]
      refine ⟨?_, ?_, ?_, ?_, ?_⟩
      · rw [hrv1]; omega
      · rw [hrv1]; omega
      · simp only [List.length_cons, hrv1, hrc1]
      · intro c hc; rw [hRhl]; exact hRh c hc
      · intro c hc
        rcases hRmem c hc with hc | hc
        · exact hts c hc
        · rw [hc]; exact hc0s
    refine ⟨hLshape, ?_, ?_, ?_⟩
    · rw [hins]
      simpa using hRshape
    · rw [height_node, hLhl]
    · rw [hins]
      simp only [List.tail_cons]
      rw [height_node, hRhl]

theorem setvalF_shape (f : FileNode) (ord : Nat) (h3 : 3 ≤ ord) :
    ∀ fuel t lo, t.size < fuel → 1 ≤ lo → lo ≤ minKeys ord → shapeAt ord lo t = true →
      (∀ t1, setvalF f ord fuel t = (t1, none) →
          shapeAt ord lo t1 = true ∧ t1.height = t.height) ∧
      (∀ t1 p c, setvalF f ord fuel t = (t1, some (p, c)) →
          shapeN ord t1 = true ∧ shapeN ord c = true ∧
          t1.height = t.height ∧ c.height = t.height) := by
  intro fuel
  induction fuel with
  | zero => intro t lo h _ _ _; omega
  | succ fuel ih =>
    intro t lo hsize hlo1 hlomin hsh
    cases t with
    | null =>
      constructor
      · intro t1 h1
        rw [show setvalF f ord (fuel + 1) .null = (.null, some (f, .null)) from rfl] at h1
        injection h1 with h1a h1b
        exact Option.noConfusion h1b
      · intro t1 p c h1
        rw [show setvalF f ord (fuel + 1) .null = (.null, some (f, .null)) from rfl] at h1
        injection h1 with h1a h1b
        injection h1b with h1b
        injection h1b with h1c h1d
        subst h1a; subst h1d
        exact ⟨rfl, rfl, rfl, rfl⟩
    | node vals children =>
      rw [shapeAt_node_iff] at hsh
      obtain ⟨hlo, hmax, hlen, hhts, hshl⟩ := hsh
      have hile := searchNode_le f.key vals
      have hilt : (searchNode f.key vals).1 < children.length := by omega
      have hchildmem : children.getD (searchNode f.key vals).1 .null ∈ children :=
        btree_getD_mem hilt
      have hch : (children.getD (searchNode f.key vals).1 .null).height =
          heightList children := hhts _ hchildmem
      have hcs : shapeN ord (children.getD (searchNode f.key vals).1 .null) = true :=
        hshl _ hchildmem
      have hchsize : (children.getD (searchNode f.key vals).1 .null).size < fuel := by
        have := size_getD_lt children (searchNode f.key vals).1 vals
        omega
      have ihc := ih (children.getD (searchNode f.key vals).1 .null) (minKeys ord)
        hchsize (minKeys_pos ord) (le_refl _)
        (by rw [← shapeN_eq_shapeAt]; exact hcs)
      by_cases hsr : (searchNode f.key vals).2 = true
      · have heq : setvalF f ord (fuel + 1) (.node vals children) =
            (.node vals children, none) := by
          simp only [setvalF, hsr, if_true]
        constructor
        · intro t1 h1
          rw [heq] at h1
          injection h1 with h1a _
          subst h1a
          exact ⟨(shapeAt_node_iff ord lo vals children).mpr ⟨hlo, hmax, hlen, hhts, hshl⟩,
            rfl⟩
        · intro t1 p c h1
          rw [heq] at h1
          injection h1 with _ h1b
          exact Option.noConfusion h1b
      · have hb : (searchNode f.key vals).2 = false := by
          cases hx : (searchNode f.key vals).2
          · rfl
          · exact absurd hx hsr
        cases hres : setvalF f ord fuel (children.getD (searchNode f.key vals).1 .null) with
        | mk rt ro =>
        cases ro with
        | none =>
          obtain ⟨hsh1, hht1⟩ := ihc.1 rt hres
          have heq : setvalF f ord (fuel + 1) (.node vals children) =
              (.node vals (children.set (searchNode f.key vals).1 rt), none) := by
            simp only [setvalF, hb, Bool.false_eq_true, if_false, hres]
          have hmemset : ∀ c ∈ children.set (searchNode f.key vals).1 rt,
              c ∈ children ∨ c = rt := fun c hc => List.mem_or_eq_of_mem_set hc
          have hhset : ∀ c ∈ children.set (searchNode f.key vals).1 rt,
              c.height = heightList children := by
            intro c hc
            rcases hmemset c hc with hc | hc
            · exact hhts c hc
            · rw [hc, hht1]; exact hch
          have hlne : children.set (searchNode f.key vals).1 rt ≠ [] := by
            intro hcon
            have := congrArg List.length hcon
            rw [List.length_set, hlen] at this
            simp at this
          have hhl : heightList (children.set (searchNode f.key vals).1 rt) =
              heightList children := heightList_eq_of_all _ _ hlne hhset
          constructor
          · intro t1 h1
            rw [heq] at h1
            injection h1 with h1a _
            subst h1a
            constructor
            · rw [shapeAt_node_iff]
              refine ⟨hlo, hmax, by rw [List.length_set]; exact hlen, ?_, ?_⟩
              · intro c hc; rw [hhl]; exact hhset c hc
              · intro c hc
                rcases hmemset c hc with hc | hc
                · exact hshl c hc
                · rw [hc, shapeN_eq_shapeAt]; exact hsh1
            · rw [height_node, height_node, hhl]
          · intro t1 p c h1
            rw [heq] at h1
            injection h1 with _ h1b
            exact Option.noConfusion h1b
        | some pc =>
          obtain ⟨p0, c0⟩ := pc
          obtain ⟨hrt, hc0, hhrt, hhc0⟩ := ihc.2 rt p0 c0 hres
          have hmemset : ∀ c ∈ children.set (searchNode f.key vals).1 rt,
              c ∈ children ∨ c = rt := fun c hc => List.mem_or_eq_of_mem_set hc
          have hhset : ∀ c ∈ children.set (searchNode f.key vals).1 rt,
              c.height = heightList children := by
            intro c hc
            rcases hmemset c hc with hc | hc
            · exact hhts c hc
            · rw [hc, hhrt]; exact hch
          have htset : ∀ c ∈ children.set (searchNode f.key vals).1 rt,
              shapeN ord c = true := by
            intro c hc
            rcases hmemset c hc with hc | hc
            · exact hshl c hc
            · rw [hc]; exact hrt
          have hlenset : (children.set (searchNode f.key vals).1 rt).length =
              vals.length + 1 := by rw [List.length_set]; exact hlen
          by_cases hfull : vals.length < maxKeys ord
          · have heq : setvalF f ord (fuel + 1) (.node vals children) =
                (fillnode p0 c0 vals (children.set (searchNode f.key vals).1 rt)
                  (searchNode f.key vals).1, none) := by
              simp only [setvalF, hb, Bool.false_eq_true, if_false, hres, hfull, if_true]
            constructor
            · intro t1 h1
              rw [heq] at h1
              injection h1 with h1a _
              subst h1a
              have hvlen : (vals.insertIdx (searchNode f.key vals).1 p0).length =
                  vals.length + 1 :=
                List.length_insertIdx _ _ hile
              have hclen : (((children.set (searchNode f.key vals).1 rt)).insertIdx
                  ((searchNode f.key vals).1 + 1) c0).length = vals.length + 2 := by
                rw [List.length_insertIdx _ _ (by omega), hlenset]
              have hmemins : ∀ c ∈ ((children.set (searchNode f.key vals).1 rt)).insertIdx
                  ((searchNode f.key vals).1 + 1) c0,
                  c ∈ children.set (searchNode f.key vals).1 rt ∨ c = c0 := by
                intro c hc
                rw [List.mem_insertIdx (by omega)] at hc
                tauto
              have hhins : ∀ c ∈ ((children.set (searchNode f.key vals).1 rt)).insertIdx
                  ((searchNode f.key vals).1 + 1) c0, c.height = heightList children := by
                intro c hc
                rcases hmemins c hc with hc | hc
                · exact hhset c hc
                · rw [hc, hhc0]; exact hch
              have hinsne : ((children.set (searchNode f.key vals).1 rt)).insertIdx
                  ((searchNode f.key vals).1 + 1) c0 ≠ [] := by
                intro hcon
                have := congrArg List.length hcon
                rw [hclen] at this
                simp at this
              have hhlins : heightList (((children.set (searchNode f.key vals).1
                  rt)).insertIdx ((searchNode f.key vals).1 + 1) c0) =
                  heightList children := heightList_eq_of_all _ _ hinsne hhins
              constructor
              · rw [fillnode, shapeAt_node_iff]
                refine ⟨by omega, by omega, by rw [hvlen, hclen], ?_, ?_⟩
                · intro c hc; rw [hhlins]; exact hhins c hc
                · intro c hc
                  rcases hmemins c hc with hc | hc
                  · exact htset c hc
                  · rw [hc]; exact hc0
              · rw [fillnode, height_node, height_node, hhlins]
            · intro t1 p c h1
              rw [heq] at h1
              injection h1 with _ h1b
              exact Option.noConfusion h1b
          · have hfull2 : vals.length = maxKeys ord := by omega
            have hsplit := splitNode_shape ord h3 p0 c0 vals
              (children.set (searchNode f.key vals).1 rt) (searchNode f.key vals).1
              (heightList children) hfull2 hlenset hile hhset htset
              (hhc0.trans hch) hc0
            have heq : setvalF f ord (fuel + 1) (.node vals children) =
                ((splitNode p0 c0 vals (children.set (searchNode f.key vals).1 rt)
                    (searchNode f.key vals).1 (minKeys ord)).1,
                  some ((splitNode p0 c0 vals (children.set (searchNode f.key vals).1 rt)
                    (searchNode f.key vals).1 (minKeys ord)).2.1,
                    (splitNode p0 c0 vals (children.set (searchNode f.key vals).1 rt)
                    (searchNode f.key vals).1 (minKeys ord)).2.2)) := by
              simp only [setvalF, hb, Bool.false_eq_true, if_false, hres]
              rw [if_neg hfull]
            constructor
            · intro t1 h1
              rw [heq] at h1
              injection h1 with _ h1b
              exact Option.noConfusion h1b
            · intro t1 p c h1
              rw [heq] at h1
              injection h1 with h1a h1b
              injection h1b with h1b
              injection h1b with h1c h1d
              subst h1a; subst h1d
              exact ⟨hsplit.1, hsplit.2.1, by rw [hsplit.2.2.1, height_node],
                by rw [hsplit.2.2.2, height_node]⟩

/-! ### Shape preservation of the three restore operations -/
theorem valsOf_node (vs : List FileNode) (cs : List BTree) :
    (BTree.node vs cs).valsOf = vs := rfl

theorem childrenOf_node (vs : List FileNode) (cs : List BTree) :
    (BTree.node vs cs).childrenOf = cs := rfl

theorem countKeys_node (vs : List FileNode) (cs : List BTree) :
    (BTree.node vs cs).countKeys = vs.length := rfl

theorem mem_set_set_cases {l : List BTree} {i j : Nat} {a b c : BTree}
    (hc : c ∈ (l.set i a).set j b) :
    ∃ x, x < l.length ∧
      c = (if j = x then b else if i = x then a else l.getD x .null) := by
  obtain ⟨x, hx, hget⟩ := List.mem_iff_getElem.mp hc
  rw [List.getElem_set] at hget
  refine ⟨x, by simpa using hx, ?_⟩
  by_cases hjx : j = x
  · rw [if_pos hjx] at hget ⊢; exact hget.symm
  · rw [if_neg hjx] at hget ⊢
    rw [List.getElem_set] at hget
    by_cases hix : i = x
    · rw [if_pos hix] at hget ⊢; exact hget.symm
    · rw [if_neg hix] at hget ⊢
      rw [← hget, List.getD_eq_getElem l .null (by simpa using hx)]

theorem mem_set_eraseIdx_cases {l : List BTree} {i j : Nat} {a c : BTree}
    (hjl : j < l.length)
    (hc : c ∈ (l.set i a).eraseIdx j) :
    ∃ x, x < l.length ∧ x ≠ j ∧
      c = (if i = x then a else l.getD x .null) := by
  obtain ⟨x, hx, hget⟩ := List.mem_iff_getElem.mp hc
  rw [List.getElem_eraseIdx] at hget
  have hxl : x < l.length - 1 := by
    have := List.length_eraseIdx_of_lt (l := l.set i a) (i := j) (by simpa using hjl)
    rw [List.length_set] at this
    omega
  by_cases hxj : x < j
  · rw [dif_pos hxj] at hget
    rw [List.getElem_set] at hget
    refine ⟨x, by omega, by omega, ?_⟩
    by_cases hix : i = x
    · rw [if_pos hix] at hget ⊢; exact hget.symm
    · rw [if_neg hix] at hget ⊢
      rw [← hget, List.getD_eq_getElem l .null (by omega)]
  · rw [dif_neg hxj] at hget
    rw [List.getElem_set] at hget
    refine ⟨x + 1, by omega, by omega, ?_⟩
    by_cases hix : i = x + 1
    · rw [if_pos hix] at hget ⊢; exact hget.symm
    · rw [if_neg hix] at hget ⊢
      rw [← hget, List.getD_eq_getElem l .null (by omega)]

theorem leftshift_shape (ord : Nat) (h3 : 3 ≤ ord) (vals1 : List FileNode)
    (children1 : List BTree) (k H : Nat)
    (hk1 : 1 ≤ k) (hkn : k ≤ vals1.length)
    (hvmax : vals1.length ≤ maxKeys ord)
    (hlen : children1.length = vals1.length + 1)
    (hhts : ∀ c ∈ children1, c.height = H)
    (hsibs : ∀ j, j < children1.length → j ≠ k - 1 →
      shapeN ord (children1.getD j .null) = true)
    (lv : List FileNode) (lc : List BTree)
    (hcl : children1.getD (k - 1) .null = .node lv lc)
    (hlu : shapeAt ord (minKeys ord - 1) (.node lv lc) = true)
    (hlvc : lv.length = minKeys ord - 1)
    (rv : List FileNode) (rc : List BTree)
    (hcr : children1.getD k .null = .node rv rc)
    (hspare : minKeys ord < rv.length) :
    shapeAt ord vals1.length (leftshift vals1 children1 k) = true ∧
    (leftshift vals1 children1 k).height = 1 + H := by
  have hminpos := minKeys_pos ord
  have hminmax := minKeys_le_maxKeys ord h3
  rw [shapeAt_node_iff] at hlu
  obtain ⟨_, hlmax, hllen, hlhts, hlsh⟩ := hlu
  have hrs : shapeN ord (.node rv rc) = true := by
    rw [← hcr]
    exact hsibs k (by omega) (by omega)
  rw [shapeN_eq_shapeAt, shapeAt_node_iff] at hrs
  obtain ⟨hrmin, hrmax, hrlen, hrhts, hrsh⟩ := hrs
  have hHl : (BTree.node lv lc).height = H := by
    rw [← hcl]; exact hhts _ (btree_getD_mem (by omega))
  have hHr : (BTree.node rv rc).height = H := by
    rw [← hcr]; exact hhts _ (btree_getD_mem (by omega))
  rw [height_node] at hHl hHr
  have hrc0 : rc.getD 0 .null ∈ rc := btree_getD_mem (by omega)
  have hLh : ∀ c ∈ lc ++ [rc.getD 0 .null], c.height = heightList lc := by
    intro c hc
    rcases List.mem_append.mp hc with hc | hc
    · exact hlhts c hc
    · rw [List.mem_singleton.mp hc, hrhts _ hrc0]
      omega
  have hLhl : heightList (lc ++ [rc.getD 0 .null]) = heightList lc :=
    heightList_eq_of_all _ _ (by simp) hLh
  have hLshape : shapeN ord (.node (lv ++ [vals1.getD (k - 1) sentinelFile])
      (lc ++ [rc.getD 0 .null])) = true := by
    rw [shapeN_eq_shapeAt, shapeAt_node_iff]
    refine ⟨?_, ?_, ?_, ?_, ?_⟩
    · rw [List.length_append]; simp; omega
    · rw [List.length_append]; simp; omega
    · rw [List.length_append, List.length_append]; simp; omega
    · intro c hc; rw [hLhl]; exact hLh c hc
    · intro c hc
      rcases List.mem_append.mp hc with hc | hc
      · exact hlsh c hc
      · rw [List.mem_singleton.mp hc]
        exact hrsh _ hrc0
  have hLheight : (BTree.node (lv ++ [vals1.getD (k - 1) sentinelFile])
      (lc ++ [rc.getD 0 .null])).height = H := by
    rw [height_node, hLhl]; omega
  have hRh : ∀ c ∈ rc.tail, c.height = heightList rc :=
    fun c hc => hrhts c (List.tail_subset _ hc)
  have hRne : rc.tail ≠ [] := by
    intro hcon
    have := congrArg List.length hcon
    rw [List.length_tail] at this
    simp at this
    omega
  have hRhl : heightList rc.tail = heightList rc := heightList_eq_of_all _ _ hRne hRh
  have hRshape : shapeN ord (.node rv.tail rc.tail) = true := by
    rw [shapeN_eq_shapeAt, shapeAt_node_iff]
    refine ⟨?_, ?_, ?_, ?_, ?_⟩
    · rw [List.length_tail]; omega
    · rw [List.length_tail]; omega
    · rw [List.length_tail, List.length_tail]; omega
    · intro c hc; rw [hRhl]; exact hRh c hc
    · intro c hc; exact hrsh c (List.tail_subset _ hc)
  have hRheight : (BTree.node rv.tail rc.tail).height = H := by
    rw [height_node, hRhl]; omega
  simp only [leftshift, hcl, hcr, valsOf_node, childrenOf_node]
  have hmh : ∀ c ∈ (children1.set (k - 1) (BTree.node
      (lv ++ [vals1.getD (k - 1) sentinelFile]) (lc ++ [rc.getD 0 .null]))).set k
      (BTree.node rv.tail rc.tail), c.height = H := by
    intro c hc
    obtain ⟨x, hxlt, hcx⟩ := mem_set_set_cases hc
    subst hcx
    by_cases hkx : k = x
    · rw [if_pos hkx]; exact hRheight
    · rw [if_neg hkx]
      by_cases hk1x : k - 1 = x
      · rw [if_pos hk1x]; exact hLheight
      · rw [if_neg hk1x]
        exact hhts _ (btree_getD_mem hxlt)
  have hlne2 : (children1.set (k - 1) (BTree.node
      (lv ++ [vals1.getD (k - 1) sentinelFile]) (lc ++ [rc.getD 0 .null]))).set k
      (BTree.node rv.tail rc.tail) ≠ [] := by
    intro hcon
    have := congrArg List.length hcon
    rw [List.length_set, List.length_set, hlen] at this
    simp at this
  have hhl2 := heightList_eq_of_all H _ hlne2 hmh
  constructor
  · rw [shapeAt_node_iff]
    refine ⟨?_, ?_, ?_, ?_, ?_⟩
    · rw [List.length_set]
    · rw [List.length_set]; exact hvmax
    · rw [List.length_set, List.length_set, List.length_set, hlen]
    · intro c hc; rw [hhl2]; exact hmh c hc
    · intro c hc
      obtain ⟨x, hxlt, hcx⟩ := mem_set_set_cases hc
      subst hcx
      by_cases hkx : k = x
      · rw [if_pos hkx]; exact hRshape
      · rw [if_neg hkx]
        by_cases hk1x : k - 1 = x
        · rw [if_pos hk1x]; exact hLshape
        · rw [if_neg hk1x]
          exact hsibs x hxlt (fun hx => hk1x hx.symm)
  · rw [height_node, hhl2]

theorem rightshift_shape (ord : Nat) (h3 : 3 ≤ ord) (vals1 : List FileNode)
    (children1 : List BTree) (k H : Nat)
    (hk1 : 1 ≤ k) (hkn : k ≤ vals1.length)
    (hvmax : vals1.length ≤ maxKeys ord)
    (hlen : children1.length = vals1.length + 1)
    (hhts : ∀ c ∈ children1, c.height = H)
    (hsibs : ∀ j, j < children1.length → j ≠ k →
      shapeN ord (children1.getD j .null) = true)
    (rv : List FileNode) (rc : List BTree)
    (hcr : children1.getD k .null = .node rv rc)
    (hru : shapeAt ord (minKeys ord - 1) (.node rv rc) = true)
    (hrvc : rv.length = minKeys ord - 1)
    (lv : List FileNode) (lc : List BTree)
    (hcl : children1.getD (k - 1) .null = .node lv lc)
    (hspare : minKeys ord < lv.length) :
    shapeAt ord vals1.length (rightshift vals1 children1 k) = true ∧
    (rightshift vals1 children1 k).height = 1 + H := by
  have hminpos := minKeys_pos ord
  have hminmax := minKeys_le_maxKeys ord h3
  rw [shapeAt_node_iff] at hru
  obtain ⟨_, hrmax, hrlen, hrhts, hrsh⟩ := hru
  have hls : shapeN ord (.node lv lc) = true := by
    rw [← hcl]
    exact hsibs (k - 1) (by omega) (by omega)
  rw [shapeN_eq_shapeAt, shapeAt_node_iff] at hls
  obtain ⟨hlmin, hlmax, hllen, hlhts, hlsh⟩ := hls
  have hHl : (BTree.node lv lc).height = H := by
    rw [← hcl]; exact hhts _ (btree_getD_mem (by omega))
  have hHr : (BTree.node rv rc).height = H := by
    rw [← hcr]; exact hhts _ (btree_getD_mem (by omega))
  rw [height_node] at hHl hHr
  have hlcne : lc ≠ [] := by
    intro hcon
    have := congrArg List.length hcon
    rw [hllen] at this
    simp at this
  have hlast : lc.getLastD .null ∈ lc := btree_getLastD_mem lc .null hlcne
  -- the fixed right node
  have hRh : ∀ c ∈ lc.getLastD .null :: rc, c.height = heightList rc := by
    intro c hc
    rcases List.mem_cons.mp hc with hc | hc
    · rw [hc, hlhts _ hlast]; omega
    · exact hrhts c hc
  have hRhl : heightList (lc.getLastD .null :: rc) = heightList rc :=
    heightList_eq_of_all _ _ (by simp) hRh
  have hRshape : shapeN ord (.node (vals1.getD (k - 1) sentinelFile :: rv)
      (lc.getLastD .null :: rc)) = true := by
    rw [shapeN_eq_shapeAt, shapeAt_node_iff]
    refine ⟨?_, ?_, ?_, ?_, ?_⟩
    · simp; omega
    · simp; omega
    · simp; omega
    · intro c hc; rw [hRhl]; exact hRh c hc
    · intro c hc
      rcases List.mem_cons.mp hc with hc | hc
      · rw [hc]; exact hlsh _ hlast
      · exact hrsh c hc
  have hRheight : (BTree.node (vals1.getD (k - 1) sentinelFile :: rv)
      (lc.getLastD .null :: rc)).height = H := by
    rw [height_node, hRhl]; omega
  -- the fixed left node
  have hLh : ∀ c ∈ lc.dropLast, c.height = heightList lc :=
    fun c hc => hlhts c (List.dropLast_subset _ hc)
  have hLne : lc.dropLast ≠ [] := by
    intro hcon
    have := congrArg List.length hcon
    rw [List.length_dropLast] at this
    simp at this
    omega
  have hLhl : heightList lc.dropLast = heightList lc := heightList_eq_of_all _ _ hLne hLh
  have hLshape : shapeN ord (.node lv.dropLast lc.dropLast) = true := by
    rw [shapeN_eq_shapeAt, shapeAt_node_iff]
    refine ⟨?_, ?_, ?_, ?_, ?_⟩
    · rw [List.length_dropLast]; omega
    · rw [List.length_dropLast]; omega
    · rw [List.length_dropLast, List.length_dropLast]; omega
    · intro c hc; rw [hLhl]; exact hLh c hc
    · intro c hc; exact hlsh c (List.dropLast_subset _ hc)
  have hLheight : (BTree.node lv.dropLast lc.dropLast).height = H := by
    rw [height_node, hLhl]; omega
  simp only [rightshift, hcl, hcr, valsOf_node, childrenOf_node]
  have hmh : ∀ c ∈ (children1.set (k - 1) (BTree.node lv.dropLast lc.dropLast)).set k
      (BTree.node (vals1.getD (k - 1) sentinelFile :: rv) (lc.getLastD .null :: rc)),
      c.height = H := by
    intro c hc
    obtain ⟨x, hxlt, hcx⟩ := mem_set_set_cases hc
    subst hcx
    by_cases hkx : k = x
    · rw [if_pos hkx]; exact hRheight
    · rw [if_neg hkx]
      by_cases hk1x : k - 1 = x
      · rw [if_pos hk1x]; exact hLheight
      · rw [if_neg hk1x]
        exact hhts _ (btree_getD_mem hxlt)
  have hlne2 : (children1.set (k - 1) (BTree.node lv.dropLast lc.dropLast)).set k
      (BTree.node (vals1.getD (k - 1) sentinelFile :: rv) (lc.getLastD .null :: rc)) ≠
      [] := by
    intro hcon
    have := congrArg List.length hcon
    rw [List.length_set, List.length_set, hlen] at this
    simp at this
  have hhl2 := heightList_eq_of_all H _ hlne2 hmh
  constructor
  · rw [shapeAt_node_iff]
    refine ⟨?_, ?_, ?_, ?_, ?_⟩
    · rw [List.length_set]
    · rw [List.length_set]; exact hvmax
    · rw [List.length_set, List.length_set, List.length_set, hlen]
    · intro c hc; rw [hhl2]; exact hmh c hc
    · intro c hc
      obtain ⟨x, hxlt, hcx⟩ := mem_set_set_cases hc
      subst hcx
      by_cases hkx : k = x
      · rw [if_pos hkx]; exact hRshape
      · rw [if_neg hkx]
        by_cases hk1x : k - 1 = x
        · rw [if_pos hk1x]; exact hLshape
        · rw [if_neg hk1x]
          exact hsibs x hxlt (fun hx => hkx hx.symm)
  · rw [height_node, hhl2]

theorem mergeAt_shape (ord : Nat) (h3 : 3 ≤ ord) (vals1 : List FileNode)
    (children1 : List BTree) (k H : Nat)
    (hk1 : 1 ≤ k) (hkn : k ≤ vals1.length)
    (hvmax : vals1.length ≤ maxKeys ord)
    (hlen : children1.length = vals1.length + 1)
    (hhts : ∀ c ∈ children1, c.height = H)
    (hsibs : ∀ j, j < children1.length → j ≠ k - 1 → j ≠ k →
      shapeN ord (children1.getD j .null) = true)
    (lv : List FileNode) (lc : List BTree)
    (hcl : children1.getD (k - 1) .null = .node lv lc)
    (hls : shapeAt ord (minKeys ord - 1) (.node lv lc) = true)
    (rv : List FileNode) (rc : List BTree)
    (hcr : children1.getD k .null = .node rv rc)
    (hrs : shapeAt ord (minKeys ord - 1) (.node rv rc) = true)
    (hsum : lv.length + rv.length + 1 = 2 * minKeys ord) :
    shapeAt ord (vals1.length - 1) (mergeAt vals1 children1 k) = true ∧
    (mergeAt vals1 children1 k).height = 1 + H := by
  have hminpos := minKeys_pos ord
  have h2min := two_minKeys_le ord h3
  rw [shapeAt_node_iff] at hls hrs
  obtain ⟨_, hlmax, hllen, hlhts, hlsh⟩ := hls
  obtain ⟨_, hrmax, hrlen, hrhts, hrsh⟩ := hrs
  have hHl : (BTree.node lv lc).height = H := by
    rw [← hcl]; exact hhts _ (btree_getD_mem (by omega))
  have hHr : (BTree.node rv rc).height = H := by
    rw [← hcr]; exact hhts _ (btree_getD_mem (by omega))
  rw [height_node] at hHl hHr
  have hMh : ∀ c ∈ lc ++ rc, c.height = heightList lc := by
    intro c hc
    rcases List.mem_append.mp hc with hc | hc
    · exact hlhts c hc
    · rw [hrhts c hc]; omega
  have hlcne : lc ++ rc ≠ [] := by
    intro hcon
    have := congrArg List.length hcon
    rw [List.length_append, hllen] at this
    simp at this
  have hMhl : heightList (lc ++ rc) = heightList lc :=
    heightList_eq_of_all _ _ hlcne hMh
  have hMshape : shapeN ord (.node (lv ++ vals1.getD (k - 1) sentinelFile :: rv)
      (lc ++ rc)) = true := by
    rw [shapeN_eq_shapeAt, shapeAt_node_iff]
    refine ⟨?_, ?_, ?_, ?_, ?_⟩
    · simp only [List.length_append, List.length_cons]; omega
    · simp only [List.length_append, List.length_cons]; omega
    · simp only [List.length_append, List.length_cons]; omega
    · intro c hc; rw [hMhl]; exact hMh c hc
    · intro c hc
      rcases List.mem_append.mp hc with hc | hc
      · exact hlsh c hc
      · exact hrsh c hc
  have hMheight : (BTree.node (lv ++ vals1.getD (k - 1) sentinelFile :: rv)
      (lc ++ rc)).height = H := by
    rw [height_node, hMhl]; omega
  simp only [mergeAt, hcl, hcr, valsOf_node, childrenOf_node]
  have hmh : ∀ c ∈ (children1.set (k - 1) (BTree.node
      (lv ++ vals1.getD (k - 1) sentinelFile :: rv) (lc ++ rc))).eraseIdx k,
      c.height = H := by
    intro c hc
    obtain ⟨x, hxlt, hxk, hcx⟩ := mem_set_eraseIdx_cases (by omega) hc
    subst hcx
    by_cases hk1x : k - 1 = x
    · rw [if_pos hk1x]; exact hMheight
    · rw [if_neg hk1x]
      exact hhts _ (btree_getD_mem hxlt)
  have hlne2 : (children1.set (k - 1) (BTree.node
      (lv ++ vals1.getD (k - 1) sentinelFile :: rv) (lc ++ rc))).eraseIdx k ≠ [] := by
    intro hcon
    have := congrArg List.length hcon
    rw [List.length_eraseIdx, List.length_set, hlen] at this
    by_cases hkl : k < vals1.length + 1
    · rw [if_pos hkl] at this
      simp only [List.length_nil] at this
      omega
    · omega
  have hhl2 := heightList_eq_of_all H _ hlne2 hmh
  constructor
  · rw [shapeAt_node_iff]
    refine ⟨?_, ?_, ?_, ?_, ?_⟩
    · rw [List.length_eraseIdx, if_pos (by omega)]
    · rw [List.length_eraseIdx, if_pos (by omega)]; omega
    · rw [List.length_eraseIdx, List.length_set, hlen, if_pos (by omega),
        List.length_eraseIdx, if_pos (by omega)]
      omega
    · intro c hc; rw [hhl2]; exact hmh c hc
    · intro c hc
      obtain ⟨x, hxlt, hxk, hcx⟩ := mem_set_eraseIdx_cases (by omega) hc
      subst hcx
      by_cases hk1x : k - 1 = x
      · rw [if_pos hk1x]; exact hMshape
      · rw [if_neg hk1x]
        exact hsibs x hxlt (fun hx => hk1x hx.symm) hxk
  · rw [height_node, hhl2]

theorem restoreAt_shape (ord : Nat) (h3 : 3 ≤ ord) (vals1 : List FileNode)
    (children1 : List BTree) (i H : Nat)
    (hvpos : 1 ≤ vals1.length)
    (hvmax : vals1.length ≤ maxKeys ord)
    (hlen : children1.length = vals1.length + 1)
    (hi : i ≤ vals1.length)
    (hhts : ∀ c ∈ children1, c.height = H)
    (hsibs : ∀ j, j < children1.length → j ≠ i →
      shapeN ord (children1.getD j .null) = true)
    (hnn : (children1.getD i .null).isNull = false)
    (hui : shapeAt ord (minKeys ord - 1) (children1.getD i .null) = true)
    (huc : (children1.getD i .null).countKeys = minKeys ord - 1) :
    shapeAt ord (vals1.length - 1) (restoreAt (minKeys ord) vals1 children1 i) = true ∧
    (restoreAt (minKeys ord) vals1 children1 i).height = 1 + H := by
  have hminpos := minKeys_pos ord
  have hHpos : 1 ≤ H := by
    cases hci : children1.getD i .null with
    | null => rw [hci] at hnn; exact absurd hnn (by simp [BTree.isNull])
    | node uv uc =>
      have := hhts _ (btree_getD_mem (l := children1) (i := i) (by omega))
      rw [hci, height_node] at this
      omega
  have hsibnode : ∀ j, j < children1.length → j ≠ i →
      ∃ sv sc, children1.getD j .null = .node sv sc ∧
        minKeys ord ≤ sv.length ∧ sv.length ≤ maxKeys ord := by
    intro j hj hji
    cases hcj : children1.getD j .null with
    | null =>
      exfalso
      have := hhts _ (btree_getD_mem (l := children1) (i := j) hj)
      rw [hcj, height_null] at this
      omega
    | node sv sc =>
      have hs := hsibs j hj hji
      rw [hcj, shapeN_eq_shapeAt, shapeAt_node_iff] at hs
      exact ⟨sv, sc, rfl, hs.1, hs.2.1⟩
  cases hci : children1.getD i .null with
  | null => rw [hci] at hnn; exact absurd hnn (by simp [BTree.isNull])
  | node uv uc =>
  rw [hci] at hui huc
  rw [countKeys_node] at huc
  by_cases hi0 : i = 0
  · subst hi0
    obtain ⟨sv, sc, hc1, hsvmin, hsvmax⟩ := hsibnode 1 (by omega) (by omega)
    rw [restoreAt, if_pos rfl]
    by_cases hsp : minKeys ord < (children1.getD 1 .null).countKeys
    · rw [if_pos hsp]
      rw [hc1, countKeys_node] at hsp
      have := leftshift_shape ord h3 vals1 children1 1 H (by omega) (by omega) hvmax
        hlen hhts (by simpa using hsibs) uv uc (by simpa using hci) hui huc
        sv sc hc1 hsp
      exact ⟨shapeAt_mono ord (by omega) _ this.1, this.2⟩
    · rw [if_neg hsp]
      rw [hc1, countKeys_node] at hsp
      have := mergeAt_shape ord h3 vals1 children1 1 H (by omega) (by omega) hvmax
        hlen hhts (by intro j hj hj0 hj1; exact hsibs j hj (by simpa using hj0))
        uv uc (by simpa using hci) hui sv sc hc1
        (@shapeAt_mono ord (minKeys ord) (minKeys ord - 1) (by omega) _ (by
          have := hsibs 1 (by omega) (by omega)
          rw [hc1, shapeN_eq_shapeAt] at this
          exact this))
        (by omega)
      exact this
  · rw [restoreAt, if_neg hi0]
    have hi1 : 1 ≤ i := by omega
    obtain ⟨lv, lc, hcl, hlvmin, hlvmax⟩ := hsibnode (i - 1) (by omega) (by omega)
    by_cases hin : i = vals1.length
    · rw [if_pos hin]
      by_cases hsp : minKeys ord < (children1.getD (i - 1) .null).countKeys
      · rw [if_pos hsp]
        rw [hcl, countKeys_node] at hsp
        have := rightshift_shape ord h3 vals1 children1 i H hi1 hi hvmax
          hlen hhts hsibs uv uc hci hui huc lv lc hcl hsp
        exact ⟨shapeAt_mono ord (by omega) _ this.1, this.2⟩
      · rw [if_neg hsp]
        rw [hcl, countKeys_node] at hsp
        have := mergeAt_shape ord h3 vals1 children1 i H hi1 hi hvmax
          hlen hhts (by intro j hj hj1 hj2; exact hsibs j hj hj2)
          lv lc hcl
          (@shapeAt_mono ord (minKeys ord) (minKeys ord - 1) (by omega) _ (by
            have := hsibs (i - 1) (by omega) (by omega)
            rw [hcl, shapeN_eq_shapeAt] at this
            exact this))
          uv uc hci hui (by omega)
        exact this
    · rw [if_neg hin]
      by_cases hsp : minKeys ord < (children1.getD (i - 1) .null).countKeys
      · rw [if_pos hsp]
        rw [hcl, countKeys_node] at hsp
        have := rightshift_shape ord h3 vals1 children1 i H hi1 hi hvmax
          hlen hhts hsibs uv uc hci hui huc lv lc hcl hsp
        exact ⟨shapeAt_mono ord (by omega) _ this.1, this.2⟩
      · rw [if_neg hsp]
        obtain ⟨rv, rc, hcr, hrvmin, hrvmax⟩ := hsibnode (i + 1) (by omega) (by omega)
        by_cases hsp2 : minKeys ord < (children1.getD (i + 1) .null).countKeys
        · rw [if_pos hsp2]
          rw [hcr, countKeys_node] at hsp2
          have := leftshift_shape ord h3 vals1 children1 (i + 1) H (by omega) (by omega)
            hvmax hlen hhts (by
              intro j hj hji
              exact hsibs j hj (by omega))
            uv uc (by simpa using hci) hui huc rv rc hcr hsp2
          exact ⟨shapeAt_mono ord (by omega) _ this.1, this.2⟩
        · rw [if_neg hsp2]
          rw [hcl, countKeys_node] at hsp
          have := mergeAt_shape ord h3 vals1 children1 i H hi1 hi hvmax
            hlen hhts (by intro j hj hj1 hj2; exact hsibs j hj hj2)
            lv lc hcl
            (@shapeAt_mono ord (minKeys ord) (minKeys ord - 1) (by omega) _ (by
              have := hsibs (i - 1) (by omega) (by omega)
              rw [hcl, shapeN_eq_shapeAt] at this
              exact this))
            uv uc hci hui (by omega)
          exact this

theorem getD_set_self {l : List BTree} {i : Nat} (h : i < l.length) (a : BTree) :
    (l.set i a).getD i .null = a := by
  rw [List.getD_eq_getElem (l.set i a) .null (by simpa using h), List.getElem_set,
    if_pos rfl]

theorem getD_set_ne {l : List BTree} {i j : Nat} (h : i ≠ j) (a : BTree) :
    (l.set i a).getD j .null = l.getD j .null := by
  by_cases hj : j < l.length
  · rw [List.getD_eq_getElem (l.set i a) .null (by simpa using hj), List.getElem_set,
      if_neg h, List.getD_eq_getElem l .null hj]
  · rw [List.getD_eq_getElem?_getD, List.getElem?_eq_none (by simp; omega),
      List.getD_eq_getElem?_getD, List.getElem?_eq_none (by omega)]

theorem getD_of_ge {l : List BTree} {i : Nat} (h : l.length ≤ i) :
    l.getD i .null = .null := by
  rw [List.getD_eq_getElem?_getD, List.getElem?_eq_none (by omega)]
  rfl

theorem height_pos_isNull {t : BTree} (h : 1 ≤ t.height) : t.isNull = false := by
  cases t with
  | null => rw [height_null] at h; omega
  | node vals children => rfl

theorem delhelpStep_shape (ord : Nat) (h3 : 3 ≤ ord)
    (vals vals1 : List FileNode) (children : List BTree) (i lo : Nat)
    (hlo1 : 1 ≤ lo) (hlomin : lo ≤ minKeys ord)
    (hsh : shapeAt ord lo (.node vals children) = true)
    (hv1 : vals1.length = vals.length)
    (hi : i ≤ vals.length)
    (r1 : BTree)
    (hr1 : shapeAt ord (minKeys ord - 1) r1 = true)
    (hrh : r1.height = (children.getD i .null).height)
    (hrn : r1.isNull = (children.getD i .null).isNull) :
    shapeAt ord (lo - 1) (delhelpStep ord vals1 (children.set i r1) i) = true ∧
    (delhelpStep ord vals1 (children.set i r1) i).height = 1 + heightList children ∧
    (delhelpStep ord vals1 (children.set i r1) i).isNull = false ∧
    (r1.countKeys = (children.getD i .null).countKeys →
      (delhelpStep ord vals1 (children.set i r1) i).countKeys = vals.length) := by
  rw [shapeAt_node_iff] at hsh
  obtain ⟨hlo, hmax, hlen, hhts, hshl⟩ := hsh
  have hminpos := minKeys_pos ord
  have hilt : i < children.length := by omega
  have hchmem := btree_getD_mem (l := children) (i := i) hilt
  have hchh := hhts _ hchmem
  have hchs := hshl _ hchmem
  have hgset : (children.set i r1).getD i .null = r1 := getD_set_self hilt r1
  have hhset : ∀ c ∈ children.set i r1, c.height = heightList children := by
    intro c hc
    rcases List.mem_or_eq_of_mem_set hc with hc | hc
    · exact hhts c hc
    · rw [hc, hrh]; exact hchh
  have hlenset : (children.set i r1).length = vals.length + 1 := by
    rw [List.length_set]; exact hlen
  unfold delhelpStep
  rw [hgset]
  by_cases hcond : (!r1.isNull) = true ∧ r1.countKeys < minKeys ord
  · rw [if_pos hcond]
    have hrnn : r1.isNull = false := by
      have := hcond.1
      cases hx : r1.isNull
      · rfl
      · rw [hx] at this; simp at this
    have hruc : r1.countKeys = minKeys ord - 1 := by
      cases r1 with
      | null => simp [BTree.isNull] at hrnn
      | node rv rc =>
        rw [shapeAt_node_iff] at hr1
        rw [countKeys_node] at hcond ⊢
        have := hr1.1
        omega
    have hres := restoreAt_shape ord h3 vals1 (children.set i r1) i
      (heightList children) (by omega) (by omega)
      (by rw [hlenset, hv1]) (by omega) hhset
      (by
        intro j hj hji
        rw [getD_set_ne (fun hx => hji hx.symm)]
        rw [List.length_set] at hj
        exact hshl _ (btree_getD_mem hj))
      (by rw [hgset]; exact hrnn)
      (by rw [hgset]; exact hr1)
      (by rw [hgset]; exact hruc)
    refine ⟨shapeAt_mono ord (by omega) _ hres.1, hres.2, ?_, ?_⟩
    · exact height_pos_isNull (by rw [hres.2]; omega)
    · intro hceq
      exfalso
      have hchnn : (children.getD i .null).isNull = false := by rw [← hrn]; exact hrnn
      cases hch : children.getD i .null with
      | null => rw [hch] at hchnn; simp [BTree.isNull] at hchnn
      | node cv cc =>
        rw [hch] at hchs
        rw [shapeN_eq_shapeAt, shapeAt_node_iff] at hchs
        rw [hch, countKeys_node] at hceq
        have := hchs.1
        have := hcond.2
        omega
  · rw [if_neg hcond]
    have hr1s : shapeN ord r1 = true := by
      cases r1 with
      | null => rfl
      | node rv rc =>
        rw [shapeN_eq_shapeAt]
        rw [shapeAt_node_iff] at hr1 ⊢
        refine ⟨?_, hr1.2⟩
        by_contra hlt
        exact hcond ⟨by simp [BTree.isNull], by
          rw [countKeys_node]; omega⟩
    have hlne : children.set i r1 ≠ [] := by
      intro hcon
      have := congrArg List.length hcon
      rw [hlenset] at this
      simp at this
    have hhl := heightList_eq_of_all _ _ hlne hhset
    refine ⟨?_, ?_, rfl, ?_⟩
    · rw [shapeAt_node_iff]
      refine ⟨by omega, by omega, by rw [hlenset, hv1], ?_, ?_⟩
      · intro c hc; rw [hhl]; exact hhset c hc
      · intro c hc
        rcases List.mem_or_eq_of_mem_set hc with hc | hc
        · exact hshl c hc
        · rw [hc]; exact hr1s
    · rw [height_node, hhl]
    · intro _; rw [countKeys_node]; exact hv1

theorem delhelpF_shape (ord : Nat) (h3 : 3 ≤ ord) :
    ∀ fuel k t lo, t.size < fuel → 1 ≤ lo → lo ≤ minKeys ord →
      shapeAt ord lo t = true →
      shapeAt ord (lo - 1) (delhelpF ord fuel k t).1 = true ∧
      (delhelpF ord fuel k t).1.height = t.height ∧
      (delhelpF ord fuel k t).1.isNull = t.isNull ∧
      ((delhelpF ord fuel k t).2 = false →
        (delhelpF ord fuel k t).1.countKeys = t.countKeys) := by
  intro fuel
  induction fuel with
  | zero => intro k t lo h _ _ _; omega
  | succ fuel ih =>
    intro k t lo hsize hlo1 hlomin hsh
    cases t with
    | null => exact ⟨rfl, rfl, rfl, fun _ => rfl⟩
    | node vals children =>
      have hshX := hsh
      rw [shapeAt_node_iff] at hshX
      obtain ⟨hlo, hmax, hlen, hhts, hshl⟩ := hshX
      have hile := searchNode_le k vals
      have hilt : (searchNode k vals).1 < children.length := by omega
      have hchmem := btree_getD_mem (l := children) (i := (searchNode k vals).1) hilt
      have hchsize : (children.getD (searchNode k vals).1 .null).size < fuel := by
        have := size_getD_lt children (searchNode k vals).1 vals
        omega
      have hchsh : shapeAt ord (minKeys ord) (children.getD (searchNode k vals).1 .null) =
          true := by
        rw [← shapeN_eq_shapeAt]; exact hshl _ hchmem
      have hvne : vals ≠ [] := by
        intro hcon
        have := congrArg List.length hcon
        simp only [List.length_nil] at this
        omega
      by_cases hsr : (searchNode k vals).2 = true
      · have hipos : 1 ≤ (searchNode k vals).1 := searchNode_found_pos k vals hvne hsr
        by_cases hnn1 : (children.getD ((searchNode k vals).1 - 1) .null).isNull = false
        · -- key found at an internal node: replace with successor, delete it below
          cases hres : delhelpF ord fuel
              (leftmostRec (children.getD (searchNode k vals).1 .null)).key
              (children.getD (searchNode k vals).1 .null) with
          | mk r1 rb =>
          have ihc := ih (leftmostRec (children.getD (searchNode k vals).1 .null)).key
            (children.getD (searchNode k vals).1 .null) (minKeys ord) hchsize
            (minKeys_pos ord) (le_refl _) hchsh
          rw [hres] at ihc
          have heq : delhelpF ord (fuel + 1) k (.node vals children) =
              (delhelpStep ord
                (vals.set ((searchNode k vals).1 - 1)
                  (leftmostRec (children.getD (searchNode k vals).1 .null)))
                (children.set (searchNode k vals).1 r1) (searchNode k vals).1, rb) := by
            simp only [delhelpF, delhelpStep, hsr, hnn1, Bool.not_false, if_true, hres]
            split <;> rfl
          rw [heq]
          have hmain := delhelpStep_shape ord h3 vals
            (vals.set ((searchNode k vals).1 - 1)
              (leftmostRec (children.getD (searchNode k vals).1 .null)))
            children (searchNode k vals).1 lo hlo1 hlomin hsh
            (List.length_set _ _ _) hile r1 ihc.1 ihc.2.1 ihc.2.2.1
          refine ⟨hmain.1, ?_, hmain.2.2.1, ?_⟩
          · rw [height_node]; exact hmain.2.1
          · intro hrb
            rw [countKeys_node]
            exact hmain.2.2.2 (ihc.2.2.2 hrb)
        · -- key found at a leaf: erase the record
          have hnn1t : (children.getD ((searchNode k vals).1 - 1) .null).isNull = true := by
            cases hx : (children.getD ((searchNode k vals).1 - 1) .null).isNull
            · exact absurd hx hnn1
            · rfl
          have hallnull : ∀ c ∈ children, c = .null := by
            have hm1 : children.getD ((searchNode k vals).1 - 1) .null ∈ children :=
              btree_getD_mem (by omega)
            have h0 : (children.getD ((searchNode k vals).1 - 1) .null).height = 0 := by
              rw [(isNull_iff _).mp hnn1t, height_null]
            have hl0 : heightList children = 0 := by
              rw [← hhts _ hm1, h0]
            intro c hc
            have := hhts c hc
            rw [hl0] at this
            exact (height_eq_zero_iff c).mp this
          have hnul : (children.eraseIdx (searchNode k vals).1).getD
              (searchNode k vals).1 .null = .null := by
            by_cases hlt : (searchNode k vals).1 < (children.eraseIdx
                (searchNode k vals).1).length
            · exact hallnull _ (List.eraseIdx_subset _ _ (btree_getD_mem hlt))
            · exact getD_of_ge (by omega)
          have heq : delhelpF ord (fuel + 1) k (.node vals children) =
              (.node (vals.eraseIdx ((searchNode k vals).1 - 1))
                (children.eraseIdx (searchNode k vals).1), true) := by
            have hn0 : BTree.null.isNull = true := rfl
            simp only [delhelpF, hsr, hnn1t, Bool.not_true, if_true, Bool.false_eq_true,
              if_false, hnul, hn0, false_and, and_false]
          rw [heq]
          have hel : (vals.eraseIdx ((searchNode k vals).1 - 1)).length =
              vals.length - 1 := by
            rw [List.length_eraseIdx, if_pos (by omega)]
          have hecl : (children.eraseIdx (searchNode k vals).1).length =
              vals.length := by
            rw [List.length_eraseIdx, if_pos (by omega)]
            omega
          have hhl0 : heightList children = 0 := by
            have hm1 : children.getD ((searchNode k vals).1 - 1) .null ∈ children :=
              btree_getD_mem (by omega)
            rw [← hhts _ hm1, (isNull_iff _).mp hnn1t, height_null]
          have heh : ∀ c ∈ children.eraseIdx (searchNode k vals).1, c.height = 0 := by
            intro c hc
            rw [(hallnull c (List.eraseIdx_subset _ _ hc)), height_null]
          have hene : children.eraseIdx (searchNode k vals).1 ≠ [] := by
            intro hcon
            have := congrArg List.length hcon
            rw [hecl] at this
            simp only [List.length_nil] at this
            omega
          have hehl : heightList (children.eraseIdx (searchNode k vals).1) = 0 :=
            heightList_eq_of_all 0 _ hene heh
          refine ⟨?_, ?_, rfl, ?_⟩
          · rw [shapeAt_node_iff]
            refine ⟨by omega, by omega, by omega, ?_, ?_⟩
            · intro c hc; rw [hehl]; exact heh c hc
            · intro c hc
              rw [hallnull c (List.eraseIdx_subset _ _ hc)]
              rfl
          · rw [height_node, height_node, hehl, hhl0]
          · intro hcon
            simp at hcon
      · -- key not found here: delete in the child
        have hb : (searchNode k vals).2 = false := by
          cases hx : (searchNode k vals).2
          · rfl
          · exact absurd hx hsr
        cases hres : delhelpF ord fuel k (children.getD (searchNode k vals).1 .null) with
        | mk r1 rb =>
        have ihc := ih k (children.getD (searchNode k vals).1 .null) (minKeys ord)
          hchsize (minKeys_pos ord) (le_refl _) hchsh
        rw [hres] at ihc
        have heq : delhelpF ord (fuel + 1) k (.node vals children) =
            (delhelpStep ord vals (children.set (searchNode k vals).1 r1)
              (searchNode k vals).1, rb) := by
          simp only [delhelpF, delhelpStep, hb, Bool.false_eq_true, if_false, hres]
          split <;> rfl
        rw [heq]
        have hmain := delhelpStep_shape ord h3 vals vals children
          (searchNode k vals).1 lo hlo1 hlomin hsh rfl hile r1 ihc.1 ihc.2.1 ihc.2.2.1
        refine ⟨hmain.1, ?_, hmain.2.2.1, ?_⟩
        · rw [height_node]; exact hmain.2.1
        · intro hrb
          rw [countKeys_node]
          exact hmain.2.2.2 (ihc.2.2.2 hrb)

theorem insertHelper_shape (f : FileNode) (ord : Nat) (h3 : 3 ≤ ord) (t : BTree)
    (h : shapeAt ord 1 t = true) : shapeAt ord 1 (insertHelper f ord t) = true := by
  unfold insertHelper BTree.insert
  have hs := setvalF_shape f ord h3 (t.size + 1) t 1 (Nat.lt_succ_self _) (le_refl _)
    (minKeys_pos ord) h
  cases hres : setval f ord t with
  | mk t1 o =>
    have hres2 : setvalF f ord (t.size + 1) t = (t1, o) := hres
    cases o with
    | none =>
      obtain ⟨h1, _⟩ := hs.1 t1 hres2
      exact h1
    | some pc =>
      obtain ⟨p0, c0⟩ := pc
      obtain ⟨h1, h2, hh1, hh2⟩ := hs.2 t1 p0 c0 hres2
      show shapeAt ord 1 (.node [p0] [t1, c0]) = true
      have hhl : heightList [t1, c0] = t.height := by
        apply heightList_eq_of_all _ _ (by simp)
        intro c hc
        rcases List.mem_cons.mp hc with hc | hc
        · rw [hc]; exact hh1
        · rw [List.mem_singleton.mp hc]; exact hh2
      rw [shapeAt_node_iff]
      have := minKeys_succ_le_maxKeys ord h3
      have := minKeys_pos ord
      refine ⟨by simp, by simp; omega, by simp, ?_, ?_⟩
      · intro c hc
        rw [hhl]
        rcases List.mem_cons.mp hc with hc | hc
        · rw [hc]; exact hh1
        · rw [List.mem_singleton.mp hc]; exact hh2
      · intro c hc
        rcases List.mem_cons.mp hc with hc | hc
        · rw [hc]; exact h1
        · rw [List.mem_singleton.mp hc]; exact h2

theorem deleteHelper_shape (ord : Nat) (h3 : 3 ≤ ord) (k : Int) (t : BTree)
    (h : shapeAt ord 1 t = true) : shapeAt ord 1 (deleteHelper ord k t) = true := by
  unfold deleteHelper delRoot
  cases t with
  | null => exact rfl
  | node vals children =>
    have hd := delhelpF_shape ord h3 ((BTree.node vals children).size + 1) k
      (.node vals children) 1 (Nat.lt_succ_self _) (le_refl _) (minKeys_pos ord) h
    have hcnt : (BTree.node vals children).countKeys = vals.length := rfl
    have hlo1 : 1 ≤ vals.length := by
      rw [shapeAt_node_iff] at h
      exact h.1
    cases hres : delhelp ord k (.node vals children) with
    | mk r1 rb =>
      have hres2 : delhelpF ord ((BTree.node vals children).size + 1) k
          (.node vals children) = (r1, rb) := hres
      rw [hres2] at hd
      obtain ⟨hd0, hd2, hd3, hd4⟩ := hd
      have hd1 : shapeAt ord 0 r1 = true := hd0
      have hd2a : r1.height = (BTree.node vals children).height := hd2
      have hd3a : r1.isNull = false := hd3
      have hd4a : rb = false → r1.countKeys = vals.length := fun hx => hd4 hx
      show shapeAt ord 1
        (let r := delhelp ord k (BTree.node vals children)
         if r.2 = true then
           match r.1 with
           | BTree.node [] ch => ch.getD 0 BTree.null
           | t1 => t1
         else r.1) = true
      rw [hres]
      cases rb with
      | false =>
        show shapeAt ord 1 r1 = true
        have hc1 : r1.countKeys = vals.length := hd4a rfl
        cases r1 with
        | null => exact absurd hd3a (by simp [BTree.isNull])
        | node rv rc =>
          rw [shapeAt_node_iff] at hd1 ⊢
          rw [countKeys_node] at hc1
          exact ⟨by omega, hd1.2⟩
      | true =>
        cases r1 with
        | null => exact absurd hd3a (by simp [BTree.isNull])
        | node rv rc =>
          cases rv with
          | nil =>
            show shapeAt ord 1 (rc.getD 0 .null) = true
            rw [shapeAt_node_iff] at hd1
            have hrc1 : rc.length = 1 := by
              have := hd1.2.2.1
              simpa using this
            have hmem : rc.getD 0 .null ∈ rc := btree_getD_mem (by omega)
            have := hd1.2.2.2.2 _ hmem
            rw [shapeN_eq_shapeAt] at this
            exact shapeAt_mono ord (minKeys_pos ord) _ this
          | cons v vs =>
            show shapeAt ord 1 (.node (v :: vs) rc) = true
            rw [shapeAt_node_iff] at hd1 ⊢
            exact ⟨by simp, hd1.2⟩

theorem mem_subNodesL {c : BTree} :
    ∀ {l : List BTree}, c ∈ subNodesL l ↔ ∃ x ∈ l, c ∈ subNodes x := by
  intro l
  induction l with
  | nil => simp [subNodesL]
  | cons x xs ih =>
    rw [subNodesL, List.mem_append, ih]
    constructor
    · rintro (hc | ⟨y, hy, hcy⟩)
      · exact ⟨x, by simp, hc⟩
      · exact ⟨y, List.mem_cons_of_mem _ hy, hcy⟩
    · rintro ⟨y, hy, hcy⟩
      rcases List.mem_cons.mp hy with hy | hy
      · exact Or.inl (hy ▸ hcy)
      · exact Or.inr ⟨y, hy, hcy⟩

theorem subNodes_bounds (ord : Nat) :
    ∀ n t, t.size ≤ n → shapeN ord t = true → ∀ c ∈ subNodes t,
      minKeys ord ≤ c.countKeys ∧ c.countKeys ≤ maxKeys ord := by
  intro n
  induction n with
  | zero =>
    intro t hsz _ c hc
    cases t with
    | null => simp [subNodes] at hc
    | node vals children =>
      exfalso
      have : (BTree.node vals children).size = 1 + sizeList children := rfl
      omega
  | succ n ihn =>
    intro t hsz hsh c hc
    cases t with
    | null => simp [subNodes] at hc
    | node vals children =>
      rw [subNodes] at hc
      rw [shapeN_eq_shapeAt, shapeAt_node_iff] at hsh
      rcases List.mem_cons.mp hc with hc | hc
      · rw [hc, countKeys_node]
        exact ⟨hsh.1, hsh.2.1⟩
      · obtain ⟨x, hx, hcx⟩ := mem_subNodesL.mp hc
        have hxsz : x.size ≤ n := by
          have h1 := size_le_sizeList_of_mem hx
          have h2 : (BTree.node vals children).size = 1 + sizeList children := rfl
          omega
        exact ihn x hxsz (hsh.2.2.2.2 x hx) c hcx

theorem applyOps_shape (ord : Nat) (h3 : 3 ≤ ord) (ops : List BTreeOp) :
    shapeAt ord 1 (applyOps ord ops) = true := by
  have main : ∀ (l : List BTreeOp) (t : BTree), shapeAt ord 1 t = true →
      shapeAt ord 1 (l.foldl (applyOp ord) t) = true := by
    intro l
    induction l with
    | nil => intro t h; exact h
    | cons op rest iho =>
      intro t h
      rw [List.foldl_cons]
      apply iho
      cases op with
      | ins f => exact insertHelper_shape f ord h3 t h
      | del k => exact deleteHelper_shape ord h3 k t h
  exact main ops .null rfl

/-- C4.  Occupancy invariant: for every order in `[3, 100]` the code's
decrement-and-clamp `MIN` equals the canonical `⌈t/2⌉ - 1`, and every
tree built from the empty tree by any sequence of `insertHelper` /
`deleteHelper` calls keeps every node other than the root between
`⌈t/2⌉ - 1` and `t - 1` records. -/
theorem btree_occupancy_invariant (ord : Nat) (h3 : 3 ≤ ord) (h100 : ord ≤ 100) :
    minKeys ord = (ord + 1) / 2 - 1 ∧
    ∀ ops : List BTreeOp, ∀ c ∈ subNodesL (applyOps ord ops).childrenOf,
      (ord + 1) / 2 - 1 ≤ c.countKeys ∧ c.countKeys ≤ ord - 1 := by
  refine ⟨minKeys_eq ord h3, ?_⟩
  intro ops c hc
  have hsh := applyOps_shape ord h3 ops
  rw [← minKeys_eq ord h3]
  show minKeys ord ≤ c.countKeys ∧ c.countKeys ≤ maxKeys ord
  cases hT : applyOps ord ops with
  | null =>
    rw [hT] at hc
    simp [BTree.childrenOf, subNodesL] at hc
  | node vals children =>
    rw [hT] at hsh hc
    rw [shapeAt_node_iff] at hsh
    rw [childrenOf_node] at hc
    obtain ⟨x, hx, hcx⟩ := mem_subNodesL.mp hc
    exact subNodes_bounds ord x.size x (le_refl _) (hsh.2.2.2.2 x hx) c hcx

theorem btree_occupancy_invariant_witness :
    ((3 : Nat) ≤ 3 ∧ (3 : Nat) ≤ 100) ∧
    (minKeys 3 = (3 + 1) / 2 - 1 ∧
      ∀ ops : List BTreeOp, ∀ c ∈ subNodesL (applyOps 3 ops).childrenOf,
        (3 + 1) / 2 - 1 ≤ c.countKeys ∧ c.countKeys ≤ 3 - 1) ∧
    (applyOps 3 opsW).getAllFiles.length = 4 :=
  ⟨⟨by decide, by decide⟩, btree_occupancy_invariant 3 (by decide) (by decide), by decide⟩

/-! ## C8: routing always terminates, with a duplicate-free path -/
theorem circPairs_fst (ms : List CircularNode) :
    (circPairs ms).map Prod.fst = ms := by
  unfold circPairs
  apply List.map_fst_zip
  simp only [List.length_append, List.length_drop, List.length_take]
  omega

theorem circPairs_snd (ms : List CircularNode) :
    (circPairs ms).map Prod.snd = ms.drop 1 ++ ms.take 1 := by
  unfold circPairs
  apply List.map_snd_zip
  simp only [List.length_append, List.length_drop, List.length_take]
  omega

theorem mem_of_circPairs {ms : List CircularNode} {pr : CircularNode × CircularNode}
    (h : pr ∈ circPairs ms) : pr.1 ∈ ms ∧ pr.2 ∈ ms := by
  constructor
  · have : pr.1 ∈ (circPairs ms).map Prod.fst := List.mem_map_of_mem _ h
    rwa [circPairs_fst] at this
  · have : pr.2 ∈ (circPairs ms).map Prod.snd := List.mem_map_of_mem _ h
    rw [circPairs_snd] at this
    rcases List.mem_append.mp this with h1 | h1
    · exact List.mem_of_mem_drop h1
    · exact List.mem_of_mem_take h1

theorem nextMachine_mem {ms : List CircularNode} {c : CircularNode}
    (hc : c ∈ ms) : nextMachine ms c ∈ ms := by
  unfold nextMachine
  cases hf : (circPairs ms).find? (fun pr => pr.1.key == c.key) with
  | none => exact hc
  | some pr => exact (mem_of_circPairs (List.mem_of_find?_eq_some hf)).2

theorem findMachineById_mem {ms : List CircularNode} {v : Int} {m : CircularNode}
    (h : findMachineById ms v = some m) : m ∈ ms ∧ m.key = v := by
  refine ⟨List.mem_of_find?_eq_some h, ?_⟩
  have := List.find?_some h
  simpa using this

/-- Every hop the routing loop can take lands on a live machine. -/
theorem routeHop_mem (r : CircularLinkedList) (k : Int) (current : CircularNode)
    (hc : current ∈ r.head) : routeHop r k current ∈ r.head := by
  unfold routeHop
  cases hbf : bestFinger current.RT current.key k with
  | none => exact nextMachine_mem hc
  | some f =>
    have hgen : ∀ (o : Option CircularNode), (∀ h, o = some h → h ∈ r.head) →
        o.getD (nextMachine r.head current) ∈ r.head := by
      intro o ho
      cases o with
      | none => exact nextMachine_mem hc
      | some h => exact ho h rfl
    exact hgen _ (fun h hh => (findMachineById_mem hh).1)

theorem nodup_length_le {l sup : List Int} (hnd : l.Nodup) (hsub : ∀ x ∈ l, x ∈ sup) :
    l.length ≤ sup.length := by
  calc l.length = l.toFinset.card := (List.toFinset_card_of_nodup hnd).symm
    _ ≤ sup.toFinset.card := Finset.card_le_card (fun x hx => by
        rw [List.mem_toFinset] at *
        exact hsub x (by simpa using hx))
    _ ≤ sup.length := sup.toFinset_card_le

theorem routeLoop_total (r : CircularLinkedList) (k : Int) :
    ∀ (fuel : Nat) (current : CircularNode) (path visited : List Int),
      current ∈ r.head →
      path.Nodup → (∀ x ∈ path, x ∈ visited) →
      visited.Nodup → (∀ x ∈ visited, x ∈ r.head.map CircularNode.key) →
      r.head.length + 1 ≤ visited.length + fuel →
      ∃ p, routeLoop r k fuel current path visited = some p ∧ p.Nodup ∧
        ∀ x ∈ p, x ∈ r.head.map CircularNode.key := by
  intro fuel
  induction fuel with
  | zero =>
    intro current path visited _ _ _ hvnd hvsub hlen
    exfalso
    have := nodup_length_le hvnd hvsub
    simp only [List.length_map] at this
    omega
  | succ f ih =>
    intro current path visited hc hpnd hpsub hvnd hvsub hlen
    unfold routeLoop
    by_cases hresp : routeResponsible r.head current k
    · rw [if_pos hresp]
      exact ⟨path, rfl, hpnd, fun x hx => hvsub x (hpsub x hx)⟩
    · rw [if_neg hresp]
      have hhopmem : routeHop r k current ∈ r.head := routeHop_mem r k current hc
      by_cases hvis : (routeHop r k current).key ∈ visited
      · rw [if_pos hvis]
        exact ⟨path, rfl, hpnd, fun x hx => hvsub x (hpsub x hx)⟩
      · rw [if_neg hvis]
        apply ih (routeHop r k current) (path ++ [(routeHop r k current).key])
          ((routeHop r k current).key :: visited) hhopmem
        · rw [List.nodup_append]
          refine ⟨hpnd, List.nodup_singleton _, ?_⟩
          intro x hx hy
          simp only [List.mem_singleton] at hy
          subst hy
          exact hvis (hpsub _ hx)
        · intro x hx
          rcases List.mem_append.mp hx with hx | hx
          · exact List.mem_cons_of_mem _ (hpsub x hx)
          · simp at hx; subst hx; exact List.mem_cons_self _ _
        · exact List.nodup_cons.mpr ⟨hvis, hvnd⟩
        · intro x hx
          rcases List.mem_cons.mp hx with rfl | hx
          · exact List.mem_map_of_mem _ hhopmem
          · exact hvsub x hx
        · simp only [List.length_cons]
          omega

/-- C8.  `routeToKey` always terminates: on every ring state, start ID and
key, the loop (fuel `n+1` suffices) returns a path of pairwise-distinct
live machine IDs, so its length is at most the number of live machines. -/
theorem routeToKey_terminates (r : CircularLinkedList) (s k : Int) :
    ∃ p, routeToKey r s k = some p ∧ p.Nodup ∧ p.length ≤ r.head.length := by
  unfold routeToKey
  cases hf : findMachineById r.head s with
  | none => exact ⟨[], rfl, List.nodup_nil, by simp⟩
  | some c =>
    have hc := (findMachineById_mem hf).1
    obtain ⟨p, hp, hnd, hsub⟩ := routeLoop_total r k (r.head.length + 1) c
      [c.key] [c.key] hc (List.nodup_singleton _) (fun x hx => hx)
      (List.nodup_singleton _)
      (fun x hx => by simp at hx; subst hx; exact List.mem_map_of_mem _ hc)
      (by simp)
    refine ⟨p, hp, hnd, ?_⟩
    have := nodup_length_le hnd hsub
    simpa using this

/-! ## C1 machinery: circular order, predecessors, responsibility -/
theorem dmod (a b N : Int) (ha : 0 ≤ a) (ha2 : a < N) (hb : 0 ≤ b) (hb2 : b < N) :
    (a - b) % N = if b ≤ a then a - b else a - b + N := by
  by_cases h : b ≤ a
  · rw [if_pos h]
    exact Int.emod_eq_of_lt (by omega) (by omega)
  · rw [if_neg h]
    have h1 : (a - b + N) % N = (a - b) % N := by
      have h2 := Int.add_mul_emod_self_left (a := a - b) (b := N) (c := 1)
      simpa using h2
    rw [← h1]
    exact Int.emod_eq_of_lt (by omega) (by omega)

theorem isBetween_iff (x c e N : Int) (hx : 0 ≤ x ∧ x < N) (hc : 0 ≤ c ∧ c < N)
    (he : 0 ≤ e ∧ e < N) (hne : c ≠ e) :
    isBetween x c e = true ↔ x ≠ c ∧ (e - x) % N < (e - c) % N := by
  unfold isBetween
  rw [dmod e x N he.1 he.2 hx.1 hx.2, dmod e c N he.1 he.2 hc.1 hc.2]
  by_cases h1 : c < e
  · rw [if_pos h1, if_pos (le_of_lt h1)]
    by_cases h2 : x ≤ e
    · rw [if_pos h2]
      simp only [decide_eq_true_eq]
      omega
    · rw [if_neg h2]
      simp only [decide_eq_true_eq]
      omega
  · have h4 : ¬(c ≤ e) := by omega
    rw [if_neg h1, if_neg h4]
    by_cases h2 : x ≤ e
    · rw [if_pos h2]
      simp only [decide_eq_true_eq]
      omega
    · rw [if_neg h2]
      simp only [decide_eq_true_eq]
      omega

theorem sortedKeys_nodup {ms : List CircularNode} (hs : SortedKeys ms) :
    (ms.map CircularNode.key).Nodup :=
  hs.imp (fun h => ne_of_lt h)

theorem key_inj {ms : List CircularNode} (hnd : (ms.map CircularNode.key).Nodup)
    {a b : CircularNode} (ha : a ∈ ms) (hb : b ∈ ms) (hk : a.key = b.key) : a = b := by
  obtain ⟨i, hi, rfl⟩ := List.getElem_of_mem ha
  obtain ⟨j, hj, rfl⟩ := List.getElem_of_mem hb
  rcases Nat.lt_trichotomy i j with h | h | h
  · exfalso
    rw [List.nodup_iff_getElem?_ne_getElem?] at hnd
    exact hnd i j (by simpa using h) (by simpa using hj)
      (by simp only [List.getElem?_map, List.getElem?_eq_getElem hi,
            List.getElem?_eq_getElem hj, Option.map_some]
          exact congrArg some hk)
  · subst h; rfl
  · exfalso
    rw [List.nodup_iff_getElem?_ne_getElem?] at hnd
    exact hnd j i (by simpa using h) (by simpa using hi)
      (by simp only [List.getElem?_map, List.getElem?_eq_getElem hi,
            List.getElem?_eq_getElem hj, Option.map_some]
          exact congrArg some hk.symm)

theorem circPairs_length (ms : List CircularNode) : (circPairs ms).length = ms.length := by
  unfold circPairs
  simp only [List.length_zip, List.length_append, List.length_drop, List.length_take]
  omega

theorem circPairs_adj {ms : List CircularNode} (hs : SortedKeys ms)
    {a b : CircularNode} (hab : (a, b) ∈ circPairs ms) :
    (a.key < b.key ∧ ∀ x ∈ ms, ¬(a.key < x.key ∧ x.key < b.key)) ∨
    (∀ x ∈ ms, b.key ≤ x.key ∧ x.key ≤ a.key) := by
  obtain ⟨i, hi, hget⟩ := List.getElem_of_mem hab
  rw [circPairs_length] at hi
  unfold circPairs at hget
  rw [List.getElem_zip] at hget
  have hfst : ms[i] = a := congrArg Prod.fst hget
  have hsnd : getElem (ms.drop 1 ++ ms.take 1) i (by
      simp only [List.length_append, List.length_drop, List.length_take]; omega) = b :=
    congrArg Prod.snd hget
  have hpw := (List.pairwise_iff_getElem).mp hs
  have hgetkey : ∀ (j : Nat) (hj : j < ms.length),
      getElem (ms.map CircularNode.key) j (by simpa using hj) = ms[j].key := by
    intro j hj
    simp
  by_cases hlast : i + 1 < ms.length
  · left
    have hb2 : ms[i + 1] = b := by
      rw [List.getElem_append_left (by simp; omega)] at hsnd
      rw [List.getElem_drop] at hsnd
      simpa [Nat.add_comm] using hsnd
    constructor
    · rw [← hfst, ← hb2]
      have := hpw i (i + 1) (by simpa using hi) (by simpa using hlast) (by omega)
      rwa [hgetkey i hi, hgetkey (i + 1) hlast] at this
    · intro x hx hcontra
      obtain ⟨j, hj, rfl⟩ := List.getElem_of_mem hx
      rcases Nat.lt_or_ge j (i + 1) with hji | hji
      · -- j ≤ i: x.key ≤ a.key
        have : ms[j].key ≤ a.key := by
          rcases Nat.lt_or_ge j i with hji2 | hji2
          · have := hpw j i (by simpa using hj) (by simpa using hi) hji2
            rw [hgetkey j hj, hgetkey i hi] at this
            rw [← hfst]; omega
          · have : j = i := by omega
            subst this
            rw [← hfst]
        omega
      · have : b.key ≤ ms[j].key := by
          rcases Nat.lt_or_ge (i + 1) j with hji2 | hji2
          · have := hpw (i + 1) j (by simpa using hlast) (by simpa using hj) hji2
            rw [hgetkey (i + 1) hlast, hgetkey j hj] at this
            rw [← hb2]; omega
          · have : j = i + 1 := by omega
            subst this
            rw [← hb2]
        omega
  · right
    have hin : i = ms.length - 1 := by omega
    have hne : ms ≠ [] := by
      intro h; subst h; simp at hi
    have hb2 : getElem ms 0 (by cases ms with | nil => simp at hi | cons => simp) = b := by
      rw [List.getElem_append_right (by simp; omega)] at hsnd
      simp only [List.length_drop] at hsnd
      rw [List.getElem_take] at hsnd
      convert hsnd using 2
      omega
    intro x hx
    obtain ⟨j, hj, rfl⟩ := List.getElem_of_mem hx
    constructor
    · rcases Nat.eq_zero_or_pos j with rfl | hj0
      · rw [← hb2]
      · have := hpw 0 j (by simpa using Nat.lt_of_lt_of_le hj0 (Nat.le_of_lt hj))
          (by simpa using hj) hj0
        rw [hgetkey 0 (by omega), hgetkey j hj] at this
        rw [← hb2]
        omega
    · rcases Nat.lt_or_ge j i with hji | hji
      · have := hpw j i (by simpa using hj) (by simpa using hi) hji
        rw [hgetkey j hj, hgetkey i hi] at this
        rw [← hfst]
        omega
      · have : j = i := by omega
        subst this
        rw [← hfst]

theorem find_by_fst :
    ∀ (l : List (CircularNode × CircularNode)),
      (l.map (fun pr => pr.1.key)).Nodup →
      ∀ pr0 ∈ l, l.find? (fun pr => pr.1.key == pr0.1.key) = some pr0 := by
  intro l
  induction l with
  | nil => intro _ pr0 h; cases h
  | cons p rest ih =>
    intro hnd pr0 hmem
    simp only [List.map_cons, List.nodup_cons] at hnd
    rw [List.find?_cons]
    rcases List.mem_cons.mp hmem with rfl | hmem
    · simp
    · have hne : (p.1.key == pr0.1.key) = false := by
        rw [beq_eq_false_iff_ne]
        intro hcontra
        exact hnd.1 (hcontra ▸ List.mem_map_of_mem _ hmem)
      rw [hne]
      exact ih hnd.2 pr0 hmem

theorem find_by_snd :
    ∀ (l : List (CircularNode × CircularNode)),
      (l.map (fun pr => pr.2.key)).Nodup →
      ∀ pr0 ∈ l, l.find? (fun pr => pr.2.key == pr0.2.key) = some pr0 := by
  intro l
  induction l with
  | nil => intro _ pr0 h; cases h
  | cons p rest ih =>
    intro hnd pr0 hmem
    simp only [List.map_cons, List.nodup_cons] at hnd
    rw [List.find?_cons]
    rcases List.mem_cons.mp hmem with rfl | hmem
    · simp
    · have hne : (p.2.key == pr0.2.key) = false := by
        rw [beq_eq_false_iff_ne]
        intro hcontra
        exact hnd.1 (hcontra ▸ List.mem_map_of_mem _ hmem)
      rw [hne]
      exact ih hnd.2 pr0 hmem

theorem circPairs_fst_keys_nodup {ms : List CircularNode}
    (hnd : (ms.map CircularNode.key).Nodup) :
    ((circPairs ms).map (fun pr => pr.1.key)).Nodup := by
  have : (circPairs ms).map (fun pr => pr.1.key) =
      ((circPairs ms).map Prod.fst).map CircularNode.key := by
    rw [List.map_map]; rfl
  rw [this, circPairs_fst]
  exact hnd

theorem circPairs_snd_keys_nodup {ms : List CircularNode}
    (hnd : (ms.map CircularNode.key).Nodup) :
    ((circPairs ms).map (fun pr => pr.2.key)).Nodup := by
  have h1 : (circPairs ms).map (fun pr => pr.2.key) =
      ((circPairs ms).map Prod.snd).map CircularNode.key := by
    rw [List.map_map]; rfl
  rw [h1, circPairs_snd]
  have hperm : (ms.drop 1 ++ ms.take 1).Perm ms := by
    refine (List.perm_append_comm).trans ?_
    rw [List.take_append_drop]
  exact ((hperm.map CircularNode.key).nodup_iff).mpr hnd

theorem nextMachine_of_pair {ms : List CircularNode}
    (hnd : (ms.map CircularNode.key).Nodup)
    {a b : CircularNode} (hab : (a, b) ∈ circPairs ms) :
    nextMachine ms a = b := by
  unfold nextMachine
  rw [find_by_fst (circPairs ms) (circPairs_fst_keys_nodup hnd) (a, b) hab]
  rfl

theorem findPredecessor_of_pair {ms : List CircularNode}
    (hnd : (ms.map CircularNode.key).Nodup)
    {a b : CircularNode} (hab : (a, b) ∈ circPairs ms) :
    findPredecessor ms b.key = some a := by
  unfold findPredecessor
  rw [find_by_snd (circPairs ms) (circPairs_snd_keys_nodup hnd) (a, b) hab]
  rfl

theorem exists_pair_fst {ms : List CircularNode} {m : CircularNode} (hm : m ∈ ms) :
    ∃ b, (m, b) ∈ circPairs ms := by
  have : m ∈ (circPairs ms).map Prod.fst := by rw [circPairs_fst]; exact hm
  rcases List.mem_map.mp this with ⟨pr, hpr, hfst⟩
  refine ⟨pr.2, ?_⟩
  rw [← hfst]
  exact hpr

theorem exists_pair_snd {ms : List CircularNode} {m : CircularNode} (hm : m ∈ ms) :
    ∃ a, (a, m) ∈ circPairs ms := by
  have h1 : m ∈ ms.drop 1 ++ ms.take 1 := by
    have hperm : (ms.drop 1 ++ ms.take 1).Perm ms := by
      refine (List.perm_append_comm).trans ?_
      rw [List.take_append_drop]
    exact hperm.mem_iff.mpr hm
  have : m ∈ (circPairs ms).map Prod.snd := by rw [circPairs_snd]; exact h1
  rcases List.mem_map.mp this with ⟨pr, hpr, hsnd⟩
  refine ⟨pr.1, ?_⟩
  rw [← hsnd]
  exact hpr

theorem routeResponsible_iff (ms : List CircularNode) (k : Int)
    (hs : SortedKeys ms) {m : CircularNode} (hm : m ∈ ms)
    {R : CircularNode} (hR : ringSucc ms k = some R) :
    routeResponsible ms m k = true ↔ m.key = R.key := by
  have hnd := sortedKeys_nodup hs
  have hne : ms ≠ [] := by intro h; subst h; cases hm
  obtain ⟨s0, hs0eq, hs0mem, hspec⟩ := ringSucc_spec ms k hs hne
  have hRs : R = s0 := by
    rw [hR] at hs0eq
    exact Option.some.inj hs0eq
  subst hRs
  by_cases hn1 : ms.length = 1
  · unfold routeResponsible
    rw [if_pos (by simpa using hn1)]
    simp only [true_iff]
    rcases List.length_eq_one.mp hn1 with ⟨x, rfl⟩
    have h1 : m = x := by simpa using hm
    have h2 : R = x := by simpa using hs0mem
    rw [h1, h2]
  · obtain ⟨p, hpair⟩ := exists_pair_snd hm
    have hpmem : p ∈ ms := (mem_of_circPairs hpair).1
    have hpred : findPredecessor ms m.key = some p := findPredecessor_of_pair hnd hpair
    have hpkne : p.key ≠ m.key := by
      intro hcontra
      obtain ⟨i, hi, hget⟩ := List.getElem_of_mem hpair
      rw [circPairs_length] at hi
      unfold circPairs at hget
      rw [List.getElem_zip] at hget
      have hfst : ms[i] = p := congrArg Prod.fst hget
      have hsnd : getElem (ms.drop 1 ++ ms.take 1) i (by
          simp only [List.length_append, List.length_drop, List.length_take]
          omega) = m := congrArg Prod.snd hget
      have hpw := (List.pairwise_iff_getElem).mp hs
      by_cases hlast : i + 1 < ms.length
      · have hb2 : ms[i + 1] = m := by
          rw [List.getElem_append_left (by simp; omega)] at hsnd
          rw [List.getElem_drop] at hsnd
          simpa [Nat.add_comm] using hsnd
        have h3 := hpw i (i + 1) (by simpa using hi) (by simpa using hlast) (by omega)
        simp only [List.getElem_map] at h3
        rw [hfst, hb2] at h3
        omega
      · have hi0 : 0 < i := by
          rcases Nat.eq_zero_or_pos i with rfl | h4
          · omega
          · exact h4
        have hb2 : getElem ms 0 (by omega) = m := by
          rw [List.getElem_append_right (by simp; omega)] at hsnd
          simp only [List.length_drop] at hsnd
          rw [List.getElem_take] at hsnd
          convert hsnd using 2
          omega
        have h3 := hpw 0 i (by simpa using Nat.lt_of_lt_of_le hi0 (le_of_lt hi))
          (by simpa using hi) hi0
        simp only [List.getElem_map] at h3
        rw [hfst, hb2] at h3
        omega
    unfold routeResponsible
    rw [hpred]
    rw [if_neg (by simpa using hn1)]
    simp only [Option.map_some', Option.getD_some]
    have hmkeys : m.key ∈ ms.map CircularNode.key := List.mem_map_of_mem _ hm
    have hpkeys : p.key ∈ ms.map CircularNode.key := List.mem_map_of_mem _ hpmem
    have hs0keys : R.key ∈ ms.map CircularNode.key := List.mem_map_of_mem _ hs0mem
    rcases circPairs_adj hs hpair with ⟨hlt, hnb⟩ | hwrap
    · rw [if_pos hlt]
      simp only [decide_eq_true_eq]
      have hnbR : ¬(p.key < R.key ∧ R.key < m.key) := hnb R hs0mem
      constructor
      · rintro ⟨hpk, hkm⟩
        rcases hspec with ⟨_, hkR, hminR⟩ | ⟨hall, _, _⟩
        · have h1 : R.key ≤ m.key := hminR m.key hmkeys hkm
          omega
        · have h1 := hall m.key hmkeys
          omega
      · intro hRm
        rcases hspec with ⟨_, hkR, hminR⟩ | ⟨hall, _, hminR⟩
        · constructor
          · by_contra hcon
            have h1 := hminR p.key hpkeys (by omega)
            omega
          · omega
        · have h1 := hminR p.key hpkeys
          omega
    · have hwm := hwrap m hm
      have hwp := hwrap p hpmem
      have hwR := hwrap R hs0mem
      rw [if_neg (by omega)]
      simp only [decide_eq_true_eq]
      constructor
      · rintro (hpk | hkm)
        · rcases hspec with ⟨_, hkR, _⟩ | ⟨_, _, hminR⟩
          · omega
          · have h1 := hminR m.key hmkeys
            omega
        · rcases hspec with ⟨_, hkR, hminR⟩ | ⟨hall, _, _⟩
          · have h1 := hminR m.key hmkeys hkm
            omega
          · have h1 := hall m.key hmkeys
            omega
      · intro hRm
        by_contra hcon
        push_neg at hcon
        rcases hspec with ⟨_, hkR, _⟩ | ⟨hall, _, _⟩
        · omega
        · have h1 := hall p.key hpkeys
          omega

theorem circPairs_keys_ne {ms : List CircularNode} (hs : SortedKeys ms)
    {a b : CircularNode} (hpair : (a, b) ∈ circPairs ms) (hn : ms.length ≠ 1) :
    a.key ≠ b.key := by
  intro hcontra
  obtain ⟨i, hi, hget⟩ := List.getElem_of_mem hpair
  rw [circPairs_length] at hi
  unfold circPairs at hget
  rw [List.getElem_zip] at hget
  have hfst : ms[i] = a := congrArg Prod.fst hget
  have hsnd : getElem (ms.drop 1 ++ ms.take 1) i (by
      simp only [List.length_append, List.length_drop, List.length_take]
      omega) = b := congrArg Prod.snd hget
  have hpw := (List.pairwise_iff_getElem).mp hs
  by_cases hlast : i + 1 < ms.length
  · have hb2 : ms[i + 1] = b := by
      rw [List.getElem_append_left (by simp; omega)] at hsnd
      rw [List.getElem_drop] at hsnd
      simpa [Nat.add_comm] using hsnd
    have h3 := hpw i (i + 1) (by simpa using hi) (by simpa using hlast) (by omega)
    simp only [List.getElem_map] at h3
    rw [hfst, hb2] at h3
    omega
  · have hi0 : 0 < i := by omega
    have hb2 : getElem ms 0 (by omega) = b := by
      rw [List.getElem_append_right (by simp; omega)] at hsnd
      simp only [List.length_drop] at hsnd
      rw [List.getElem_take] at hsnd
      convert hsnd using 2
      omega
    have h3 := hpw 0 i (by simpa using Nat.lt_of_lt_of_le hi0 (le_of_lt hi))
      (by simpa using hi) hi0
    simp only [List.getElem_map] at h3
    rw [hfst, hb2] at h3
    omega

theorem ringSucc_next {ms : List CircularNode} {N : Int} (hs : SortedKeys ms)
    (hrange : ∀ x ∈ ms, 0 ≤ x.key ∧ x.key < N)
    {m b : CircularNode} (hpair : (m, b) ∈ circPairs ms) :
    ∃ s, ringSucc ms ((m.key + 1) % N) = some s ∧ s.key = b.key := by
  have hmmem : m ∈ ms := (mem_of_circPairs hpair).1
  have hbmem : b ∈ ms := (mem_of_circPairs hpair).2
  have hne : ms ≠ [] := by intro h; subst h; cases hmmem
  have hmr := hrange m hmmem
  have hbr := hrange b hbmem
  obtain ⟨s, hseq, hsmem, hspec⟩ := ringSucc_spec ms ((m.key + 1) % N) hs hne
  refine ⟨s, hseq, ?_⟩
  have hsr := hrange s hsmem
  have hbkeys : b.key ∈ ms.map CircularNode.key := List.mem_map_of_mem _ hbmem
  have hskeys : s.key ∈ ms.map CircularNode.key := List.mem_map_of_mem _ hsmem
  have hmkeys : m.key ∈ ms.map CircularNode.key := List.mem_map_of_mem _ hmmem
  have hrangeKeys : ∀ x ∈ ms.map CircularNode.key, 0 ≤ x ∧ x < N := by
    intro x hx
    rcases List.mem_map.mp hx with ⟨y, hy, rfl⟩
    exact hrange y hy
  by_cases hm1 : m.key + 1 < N
  · have htgt : (m.key + 1) % N = m.key + 1 := Int.emod_eq_of_lt (by omega) hm1
    rw [htgt] at hspec
    rcases circPairs_adj hs hpair with ⟨hlt, hnb⟩ | hwrap
    · have hnbs : ¬(m.key < s.key ∧ s.key < b.key) := hnb s hsmem
      rcases hspec with ⟨_, hge, hmin⟩ | ⟨hall, _, _⟩
      · have h1 := hmin b.key hbkeys (by omega)
        omega
      · have h1 := hall b.key hbkeys
        omega
    · have hwb := hwrap b hbmem
      have hws := hwrap s hsmem
      rcases hspec with ⟨_, hge, _⟩ | ⟨_, _, hmin⟩
      · have := hwrap m hmmem
        omega
      · have h1 := hmin b.key hbkeys
        omega
  · have hmN : m.key + 1 = N := by omega
    have htgt : (m.key + 1) % N = 0 := by
      rw [hmN]
      exact Int.emod_self
    rw [htgt] at hspec
    rcases circPairs_adj hs hpair with ⟨hlt, _⟩ | hwrap
    · exfalso
      omega
    · have hwb := hwrap b hbmem
      have hws := hwrap s hsmem
      rcases hspec with ⟨_, _, hmin⟩ | ⟨hall, _, _⟩
      · have h1 := hmin b.key hbkeys (by omega)
        omega
      · have h1 := hall m.key hmkeys
        omega

theorem bestFinger_fold (curKey k : Int) :
    ∀ (fingers : List Finger) (acc : Option Finger),
      (fingers.foldl (fun acc f =>
          if f.m.isSome ∧ isBetween f.machinekey curKey k then some f else acc) acc = none →
        acc = none ∧ ∀ f ∈ fingers, ¬(f.m.isSome ∧ isBetween f.machinekey curKey k)) ∧
      (∀ g, fingers.foldl (fun acc f =>
          if f.m.isSome ∧ isBetween f.machinekey curKey k then some f else acc) acc = some g →
        (g ∈ fingers ∧ g.m.isSome ∧ isBetween g.machinekey curKey k) ∨ acc = some g) := by
  intro fingers
  induction fingers with
  | nil => intro acc; exact ⟨fun h => ⟨h, by simp⟩, fun g h => Or.inr h⟩
  | cons f rest ih =>
    intro acc
    simp only [List.foldl_cons]
    constructor
    · intro h
      by_cases hq : f.m.isSome ∧ isBetween f.machinekey curKey k
      · rw [if_pos hq] at h
        rcases (ih (some f)).1 h with ⟨hcontra, _⟩
        cases hcontra
      · rw [if_neg hq] at h
        rcases (ih acc).1 h with ⟨h1, h2⟩
        refine ⟨h1, ?_⟩
        intro f2 hf2
        rcases List.mem_cons.mp hf2 with rfl | hf2
        · exact hq
        · exact h2 f2 hf2
    · intro g h
      by_cases hq : f.m.isSome ∧ isBetween f.machinekey curKey k
      · rw [if_pos hq] at h
        rcases (ih (some f)).2 g h with ⟨h1, h2⟩ | h1
        · exact Or.inl ⟨List.mem_cons_of_mem _ h1, h2⟩
        · injection h1 with h1
          subst h1
          exact Or.inl ⟨List.mem_cons_self _ _, hq⟩
      · rw [if_neg hq] at h
        rcases (ih acc).2 g h with ⟨h1, h2⟩ | h1
        · exact Or.inl ⟨List.mem_cons_of_mem _ h1, h2⟩
        · exact Or.inr h1

theorem bestFinger_none {fingers : List Finger} {curKey k : Int}
    (h : bestFinger fingers curKey k = none) :
    ∀ f ∈ fingers, ¬(f.m.isSome ∧ isBetween f.machinekey curKey k) :=
  ((bestFinger_fold curKey k fingers none).1 h).2

theorem bestFinger_some {fingers : List Finger} {curKey k : Int} {g : Finger}
    (h : bestFinger fingers curKey k = some g) :
    g ∈ fingers ∧ g.m.isSome ∧ isBetween g.machinekey curKey k := by
  rcases (bestFinger_fold curKey k fingers none).2 g h with h1 | h1
  · exact h1
  · cases h1

theorem findMachineById_some_of_exists {ms : List CircularNode} {v : Int}
    (h : ∃ m ∈ ms, m.key = v) :
    ∃ b, findMachineById ms v = some b ∧ b ∈ ms ∧ b.key = v := by
  cases hf : findMachineById ms v with
  | none =>
    exfalso
    obtain ⟨m, hm, rfl⟩ := h
    unfold findMachineById at hf
    rw [List.find?_eq_none] at hf
    exact hf m hm (by simp)
  | some b => exact ⟨b, rfl, (findMachineById_mem hf).1, (findMachineById_mem hf).2⟩

theorem routeResponsible_self {ms : List CircularNode} (hs : SortedKeys ms)
    {m : CircularNode} (hm : m ∈ ms) : routeResponsible ms m m.key = true := by
  unfold routeResponsible
  by_cases hn1 : ms.length == 1
  · rw [if_pos hn1]
  · rw [if_neg hn1]
    obtain ⟨p, hpair⟩ := exists_pair_snd hm
    rw [findPredecessor_of_pair (sortedKeys_nodup hs) hpair]
    simp only [Option.map_some', Option.getD_some]
    by_cases h : p.key < m.key
    · rw [if_pos h]
      simp only [decide_eq_true_eq]
      omega
    · rw [if_neg h]
      simp only [decide_eq_true_eq]
      omega

theorem routeResponsible_eq {ms : List CircularNode} {b : CircularNode} (k : Int)
    (hn : ms.length ≠ 1) {p : CircularNode}
    (hpred : findPredecessor ms b.key = some p) :
    routeResponsible ms b k = isBetween k p.key b.key := by
  unfold routeResponsible isBetween
  rw [hpred]
  rw [if_neg (by simpa using hn)]
  simp only [Option.map_some', Option.getD_some]

theorem wrap_flip (ck bk k N : Int) (h1 : 0 ≤ ck ∧ ck < N) (h2 : 0 ≤ bk ∧ bk < N)
    (h3 : 0 ≤ k ∧ k < N) (hne1 : ck ≠ k) (hne2 : ck ≠ bk) (hne3 : bk ≠ k)
    (h : (k - ck) % N ≤ (k - bk) % N) : (bk - k) % N < (bk - ck) % N := by
  rw [dmod k ck N h3.1 h3.2 h1.1 h1.2, dmod k bk N h3.1 h3.2 h2.1 h2.2] at h
  rw [dmod bk k N h2.1 h2.2 h3.1 h3.2, dmod bk ck N h2.1 h2.2 h1.1 h1.2]
  split_ifs at h ⊢ <;> omega

theorem countP_decrease {ms : List CircularNode} {N k ckey : Int} {h0 : CircularNode}
    (hrange : ∀ x ∈ ms, 0 ≤ x.key ∧ x.key < N)
    (hk : 0 ≤ k ∧ k < N) (hck : 0 ≤ ckey ∧ ckey < N)
    (hmem : h0 ∈ ms)
    (hqual : isBetween h0.key ckey k = true) (hk1 : ckey ≠ k) (hk2 : h0.key ≠ k) :
    ms.countP (fun m => isBetween m.key h0.key k) <
      ms.countP (fun m => isBetween m.key ckey k) := by
  have hh0 := hrange h0 hmem
  have hdh := (isBetween_iff h0.key ckey k N hh0 hck hk hk1).mp hqual
  have hpoint : ∀ x ∈ ms, isBetween x.key h0.key k = true → isBetween x.key ckey k = true := by
    intro x hx hxb
    have hxr := hrange x hx
    have hd := (isBetween_iff x.key h0.key k N hxr hh0 hk hk2).mp hxb
    refine (isBetween_iff x.key ckey k N hxr hck hk hk1).mpr ⟨?_, by omega⟩
    intro hcontra
    rw [hcontra] at hd
    omega
  have hself : isBetween h0.key h0.key k = false := by
    by_contra hcontra
    have h2 : isBetween h0.key h0.key k = true := by
      cases h3 : isBetween h0.key h0.key k
      · exact absurd h3 hcontra
      · rfl
    have := (isBetween_iff h0.key h0.key k N hh0 hh0 hk hk2).mp h2
    exact this.1 rfl
  obtain ⟨l1, l2, rfl⟩ := List.append_of_mem hmem
  rw [List.countP_append, List.countP_append, List.countP_cons, List.countP_cons]
  have hm1 : l1.countP (fun m => isBetween m.key h0.key k) ≤
      l1.countP (fun m => isBetween m.key ckey k) := by
    apply List.countP_mono_left
    intro a ha
    exact hpoint a (by simp [ha])
  have hm2 : l2.countP (fun m => isBetween m.key h0.key k) ≤
      l2.countP (fun m => isBetween m.key ckey k) := by
    apply List.countP_mono_left
    intro a ha
    exact hpoint a (by simp [ha])
  simp only [hself, hqual, Bool.false_eq_true, if_false, if_true, eq_self_iff_true]
  omega

theorem ringSucc_mem {ms : List CircularNode} {v : Int} {s : CircularNode}
    (h : ringSucc ms v = some s) : s ∈ ms := by
  unfold ringSucc at h
  cases hf : ms.find? (fun m => v ≤ m.key) with
  | some m =>
    rw [hf] at h
    injection h with h
    subst h
    exact List.mem_of_find?_eq_some hf
  | none =>
    rw [hf] at h
    exact List.mem_of_mem_head? h

theorem ringSucc_isSome {ms : List CircularNode} (hne : ms ≠ []) (v : Int) :
    ∃ s, ringSucc ms v = some s ∧ s ∈ ms := by
  cases hf : ringSucc ms v with
  | some s => exact ⟨s, rfl, ringSucc_mem hf⟩
  | none =>
    exfalso
    unfold ringSucc at hf
    cases hf2 : ms.find? (fun m => v ≤ m.key) with
    | some m => rw [hf2] at hf; cases hf
    | none =>
      rw [hf2] at hf
      rw [List.head?_eq_none_iff] at hf
      exact hne hf

theorem rebuildFingers_length (ms : List CircularNode) (identifierSpace mkey : Int) :
    (rebuildFingers ms identifierSpace mkey).length = numEntries identifierSpace := by
  unfold rebuildFingers
  simp

theorem getD_mem {l : List Finger} {i : Nat} {d : Finger} (h : i < l.length) :
    l.getD i d ∈ l := by
  rw [List.getD_eq_getElem?_getD, List.getElem?_eq_getElem h]
  exact List.getElem_mem h

theorem rebuildFingers_mem {ms : List CircularNode} {identifierSpace mkey : Int}
    (hne : ms ≠ []) {f : Finger} (hf : f ∈ rebuildFingers ms identifierSpace mkey) :
    ∃ s ∈ ms, f.machinekey = s.key ∧ f.m = some s.key := by
  unfold rebuildFingers at hf
  rcases List.mem_map.mp hf with ⟨i, _, rfl⟩
  obtain ⟨s, hseq, hsmem⟩ := ringSucc_isSome hne ((mkey + 2 ^ i) % identifierSpace)
  dsimp only
  rw [hseq]
  exact ⟨s, hsmem, rfl, rfl⟩

theorem finger0_eq {ms : List CircularNode} {identifierSpace mkey : Int} {s : CircularNode}
    (hsucc : ringSucc ms ((mkey + 1) % identifierSpace) = some s) :
    (rebuildFingers ms identifierSpace mkey).getD 0 default =
      ⟨(mkey + 1) % identifierSpace, s.key, some s.key⟩ := by
  have h0 : (0 : Nat) < numEntries identifierSpace := by
    unfold numEntries
    omega
  rw [rebuildFingers_getD ms identifierSpace mkey 0 h0]
  rw [show ((2 : Int) ^ (0 : Nat)) = 1 from pow_zero 2]
  rw [hsucc]

theorem dpos {x k N : Int} (hx : 0 ≤ x ∧ x < N) (hk : 0 ≤ k ∧ k < N) (hne : x ≠ k) :
    0 < (k - x) % N := by
  rw [dmod k x N hk.1 hk.2 hx.1 hx.2]
  split_ifs <;> omega

theorem routeResponsible_of_len1 {ms : List CircularNode} (h : ms.length = 1)
    (m : CircularNode) (k : Int) : routeResponsible ms m k = true := by
  unfold routeResponsible
  rw [if_pos (by simpa using h)]

theorem routeLoop_sound (r : CircularLinkedList) (k : Int)
    (hs : SortedKeys r.head) (hne : r.head ≠ [])
    (hrange : ∀ m ∈ r.head, 0 ≤ m.key ∧ m.key < r.identifierSpace)
    (hRT : ∀ m ∈ r.head, m.RT = rebuildFingers r.head r.identifierSpace m.key)
    (hk : 0 ≤ k ∧ k < r.identifierSpace)
    {R : CircularNode} (hR : ringSucc r.head k = some R) :
    ∀ (fuel : Nat) (current : CircularNode) (path visited : List Int),
      current ∈ r.head →
      routeResponsible r.head current k = false →
      (∀ v ∈ visited, ∃ m ∈ r.head, m.key = v) →
      current.key ∈ visited →
      (∀ v ∈ visited, (k - current.key) % r.identifierSpace ≤
        (k - v) % r.identifierSpace) →
      (∀ v ∈ visited, v ≠ current.key → v ≠ R.key) →
      path.getLast? = some current.key →
      r.head.countP (fun m => isBetween m.key current.key k) + 2 ≤ fuel →
      ∃ ext, routeLoop r k fuel current path visited = some (path ++ ext) ∧
        (path ++ ext).getLast? = some R.key := by
  have hnd := sortedKeys_nodup hs
  intro fuel
  induction fuel with
  | zero =>
    intro current path visited _ _ _ _ _ _ _ hfuel
    omega
  | succ fuel ih =>
    intro current path visited hcmem hresp0 hvlive hcvis hinvd hinvnr hplast hfuel
    have hcr := hrange current hcmem
    have hckR : current.key ≠ R.key := by
      intro hcontra
      rw [(routeResponsible_iff r.head k hs hcmem hR).mpr hcontra] at hresp0
      cases hresp0
    have hck_ne_k : current.key ≠ k := by
      intro hcontra
      have := routeResponsible_self hs hcmem
      rw [hcontra] at this
      rw [this] at hresp0
      cases hresp0
    rw [routeLoop]
    rw [if_neg (by rw [hresp0]; exact Bool.false_ne_true)]
    cases hbf : bestFinger current.RT current.key k with
    | some f =>
      have hfq := bestFinger_some hbf
      have hfRT : f ∈ rebuildFingers r.head r.identifierSpace current.key := by
        rw [← hRT current hcmem]
        exact hfq.1
      obtain ⟨s, hsmem, hfmach, hfm⟩ := rebuildFingers_mem hne hfRT
      obtain ⟨b, hbfind, hbmem, hbkey⟩ :=
        findMachineById_some_of_exists (v := f.machinekey) ⟨s, hsmem, hfmach.symm⟩
      have hhop : routeHop r k current = b := by
        unfold routeHop
        rw [hbf]
        dsimp only
        rw [hbfind]
        rfl
      have hq : isBetween b.key current.key k = true := by
        rw [hbkey]
        exact hfq.2.2
      have hbr := hrange b hbmem
      have hchar := (isBetween_iff b.key current.key k r.identifierSpace
        hbr hcr hk hck_ne_k).mp hq
      have hnvis : ¬ ((routeHop r k current).key ∈ visited) := by
        rw [hhop]
        intro hv
        have := hinvd b.key hv
        omega
      rw [if_neg hnvis]
      rw [hhop]
      by_cases hrb : routeResponsible r.head b k = true
      · have hbR : b.key = R.key := (routeResponsible_iff r.head k hs hbmem hR).mp hrb
        have hfuel1 : 1 ≤ fuel := by omega
        obtain ⟨fuel2, rfl⟩ : ∃ f2, fuel = f2 + 1 := ⟨fuel - 1, by omega⟩
        refine ⟨[b.key], ?_, ?_⟩
        · rw [routeLoop]
          rw [if_pos hrb]
        · rw [List.getLast?_concat, hbR]
      · have hbkR : b.key ≠ R.key := by
          intro hcontra
          exact hrb ((routeResponsible_iff r.head k hs hbmem hR).mpr hcontra)
        have hbk_ne_k : b.key ≠ k := by
          intro hcontra
          have := routeResponsible_self hs hbmem
          rw [hcontra] at this
          exact hrb this
        have hcnt := countP_decrease (N := r.identifierSpace) hrange hk hcr hbmem hq
          hck_ne_k hbk_ne_k
        have hrespb0 : routeResponsible r.head b k = false := by
          cases h2 : routeResponsible r.head b k
          · rfl
          · exact absurd h2 hrb
        obtain ⟨ext, hres, hlast⟩ := ih b (path ++ [b.key]) (b.key :: visited) hbmem
          hrespb0
          (by
            intro v hv
            rcases List.mem_cons.mp hv with rfl | hv
            · exact ⟨b, hbmem, rfl⟩
            · exact hvlive v hv)
          (List.mem_cons_self _ _)
          (by
            intro v hv
            rcases List.mem_cons.mp hv with rfl | hv
            · omega
            · have := hinvd v hv
              omega)
          (by
            intro v hv hvb
            rcases List.mem_cons.mp hv with rfl | hv
            · exact absurd rfl hvb
            · by_cases hvc : v = current.key
              · rw [hvc]; exact hckR
              · exact hinvnr v hv hvc)
          (by rw [List.getLast?_concat])
          (by omega)
        refine ⟨b.key :: ext, ?_, ?_⟩
        · rw [hres]
          rw [List.append_assoc]
          rfl
        · rw [List.append_assoc, List.singleton_append] at hlast
          exact hlast
    | none =>
      have hnq := bestFinger_none hbf
      obtain ⟨b, hpair⟩ := exists_pair_fst hcmem
      have hbmem : b ∈ r.head := (mem_of_circPairs hpair).2
      have hbr := hrange b hbmem
      have hnext : nextMachine r.head current = b := nextMachine_of_pair hnd hpair
      obtain ⟨s, hseq, hskey⟩ := ringSucc_next hs hrange hpair
      have hf0 : (rebuildFingers r.head r.identifierSpace current.key).getD 0 default =
          ⟨(current.key + 1) % r.identifierSpace, s.key, some s.key⟩ := finger0_eq hseq
      have hf0mem : (current.RT).getD 0 default ∈ current.RT := by
        apply getD_mem
        rw [hRT current hcmem, rebuildFingers_length]
        unfold numEntries
        omega
      have hq0 := hnq _ hf0mem
      rw [hRT current hcmem, hf0] at hq0
      simp only [Option.isSome_some, true_and] at hq0
      have hnb : ¬ (isBetween b.key current.key k = true) := by
        rw [← hskey]
        intro hcontra
        exact hq0 hcontra
      have hn1 : r.head.length ≠ 1 := by
        intro hcontra
        rw [routeResponsible_of_len1 hcontra current k] at hresp0
        cases hresp0
      have hbne : current.key ≠ b.key := circPairs_keys_ne hs hpair hn1
      have hbk_ne_k : b.key ≠ k := by
        intro hcontra
        apply hnb
        refine (isBetween_iff b.key current.key k r.identifierSpace
          hbr hcr hk hck_ne_k).mpr ⟨fun h2 => hbne h2.symm, ?_⟩
        rw [hcontra]
        simp only [sub_self, Int.zero_emod]
        exact dpos hcr hk hck_ne_k
      have hge : (k - current.key) % r.identifierSpace ≤
          (k - b.key) % r.identifierSpace := by
        by_contra hcon
        apply hnb
        exact (isBetween_iff b.key current.key k r.identifierSpace
          hbr hcr hk hck_ne_k).mpr ⟨fun h2 => hbne h2.symm, by omega⟩
      have hbtw : isBetween k current.key b.key = true := by
        refine (isBetween_iff k current.key b.key r.identifierSpace
          hk hcr hbr hbne).mpr ⟨fun h2 => hck_ne_k h2.symm, ?_⟩
        exact wrap_flip current.key b.key k r.identifierSpace hcr hbr hk
          hck_ne_k hbne hbk_ne_k hge
      have hpredb : findPredecessor r.head b.key = some current :=
        findPredecessor_of_pair hnd hpair
      have hrespb : routeResponsible r.head b k = true := by
        rw [routeResponsible_eq k hn1 hpredb]
        exact hbtw
      have hbR : b.key = R.key := (routeResponsible_iff r.head k hs hbmem hR).mp hrespb
      have hhop : routeHop r k current = b := by
        unfold routeHop
        rw [hbf]
        dsimp only
        rw [hnext]
      have hnvis : ¬ ((routeHop r k current).key ∈ visited) := by
        rw [hhop]
        intro hv
        by_cases hvc : b.key = current.key
        · exact hbne hvc.symm
        · exact hinvnr b.key hv hvc hbR
      rw [if_neg hnvis]
      rw [hhop]
      have hfuel1 : 1 ≤ fuel := by omega
      obtain ⟨fuel2, rfl⟩ : ∃ f2, fuel = f2 + 1 := ⟨fuel - 1, by omega⟩
      refine ⟨[b.key], ?_, ?_⟩
      · rw [routeLoop]
        rw [if_pos hrespb]
      · rw [List.getLast?_concat, hbR]

theorem respCheck_eq_routeResponsible (r : CircularLinkedList) (k : Int)
    {m : CircularNode} (hm : m ∈ r.head) (hnd : (r.head.map CircularNode.key).Nodup) :
    respCheck r m k = routeResponsible r.head m k := by
  obtain ⟨p, hpair⟩ := exists_pair_snd hm
  have hpred : findPredecessor r.head m.key = some p := findPredecessor_of_pair hnd hpair
  unfold respCheck routeResponsible
  rw [hpred]
  rfl

theorem findResponsible_eq (r : CircularLinkedList) (k : Int)
    (hs : SortedKeys r.head) (hne : r.head ≠ [])
    {R : CircularNode} (hR : ringSucc r.head k = some R) :
    findResponsibleMachine r k = some R := by
  have hnd := sortedKeys_nodup hs
  have hRmem : R ∈ r.head := ringSucc_mem hR
  unfold findResponsibleMachine
  cases hf : r.head.find? (fun m => respCheck r m k) with
  | some m =>
    have hmmem := List.mem_of_find?_eq_some hf
    have hmc : respCheck r m k = true := by simpa using List.find?_some hf
    rw [respCheck_eq_routeResponsible r k hmmem hnd] at hmc
    have : m.key = R.key := (routeResponsible_iff r.head k hs hmmem hR).mp hmc
    rw [key_inj hnd hmmem hRmem this]
  | none =>
    exfalso
    rw [List.find?_eq_none] at hf
    apply hf R hRmem
    have h1 : routeResponsible r.head R k = true :=
      (routeResponsible_iff r.head k hs hRmem hR).mpr rfl
    rw [respCheck_eq_routeResponsible r k hRmem hnd]
    simpa using h1

theorem countP_lt_length {ms : List CircularNode} {p : CircularNode → Bool}
    {x : CircularNode} (hmem : x ∈ ms) (hx : p x = false) :
    ms.countP p < ms.length := by
  obtain ⟨l1, l2, rfl⟩ := List.append_of_mem hmem
  rw [List.countP_append, List.countP_cons, List.length_append, List.length_cons]
  have h1 := List.countP_le_length (p := p) (l := l1)
  have h2 := List.countP_le_length (p := p) (l := l2)
  simp only [hx, Bool.false_eq_true, if_false]
  omega

theorem routeToKey_sound_core (r : CircularLinkedList)
    (h1 : SortedKeys r.head) (h2 : r.head ≠ [])
    (h3 : ∀ m ∈ r.head, 0 ≤ m.key ∧ m.key < r.identifierSpace)
    (h4 : ∀ m ∈ r.head, m.RT = rebuildFingers r.head r.identifierSpace m.key)
    (s k : Int) (hstart : ∃ m ∈ r.head, m.key = s)
    (hk : 0 ≤ k ∧ k < r.identifierSpace) :
    ∃ p, routeToKey r s k = some p ∧ p ≠ [] ∧
      ∃ Rm, findResponsibleMachine r k = some Rm ∧ p.getLast? = some Rm.key ∧
        IsSpecSuccessor (r.head.map CircularNode.key) k Rm.key := by
  obtain ⟨R, hR, hRmem, hRspec⟩ := ringSucc_spec r.head k h1 h2
  have hresp := findResponsible_eq r k h1 h2 hR
  obtain ⟨c, hcfind, hcmem, hckey⟩ := findMachineById_some_of_exists hstart
  unfold routeToKey
  rw [hcfind]
  by_cases hrc : routeResponsible r.head c k = true
  · refine ⟨[c.key], ?_, by simp, R, hresp, ?_, hRspec⟩
    · show routeLoop r k (r.head.length + 1) c [c.key] [c.key] = some [c.key]
      rw [routeLoop]
      rw [if_pos hrc]
    · have : c.key = R.key := (routeResponsible_iff r.head k h1 hcmem hR).mp hrc
      simp [this]
  · have hrc0 : routeResponsible r.head c k = false := by
      cases hx : routeResponsible r.head c k
      · rfl
      · exact absurd hx hrc
    have hck_ne_k : c.key ≠ k := by
      intro hcontra
      have := routeResponsible_self h1 hcmem
      rw [hcontra] at this
      exact hrc this
    have hcself : isBetween c.key c.key k = false := by
      by_contra hcontra
      have hy : isBetween c.key c.key k = true := by
        cases hz : isBetween c.key c.key k
        · exact absurd hz hcontra
        · rfl
      have := (isBetween_iff c.key c.key k r.identifierSpace (h3 c hcmem) (h3 c hcmem)
        hk hck_ne_k).mp hy
      exact this.1 rfl
    have hcount : r.head.countP (fun m => isBetween m.key c.key k) < r.head.length :=
      countP_lt_length hcmem hcself
    obtain ⟨ext, hres, hlast⟩ := routeLoop_sound r k h1 h2 h3 h4 hk hR
      (r.head.length + 1) c [c.key] [c.key] hcmem hrc0
      (fun v hv => by simp at hv; subst hv; exact ⟨c, hcmem, rfl⟩)
      (by simp)
      (fun v hv => by simp at hv; subst hv; exact le_refl _)
      (fun v hv hv2 => by simp at hv; exact absurd hv hv2)
      (by simp)
      (by omega)
    refine ⟨[c.key] ++ ext, hres, by simp, R, hresp, by simpa using hlast, hRspec⟩

/-- C1.  Router soundness: on a sorted non-empty ring with in-range IDs
and rebuilt finger tables, routing from any live start machine to any
in-range key returns a non-empty path whose last element is the ID of the
responsible machine, which is the (spec-side) successor of the key. -/
theorem router_soundness (r : CircularLinkedList)
    (h1 : SortedKeys r.head) (h2 : r.head ≠ [])
    (h3 : ∀ m ∈ r.head, 0 ≤ m.key ∧ m.key < r.identifierSpace)
    (h4 : ∀ m ∈ r.head, m.RT = rebuildFingers r.head r.identifierSpace m.key)
    (s k : Int) (hstart : ∃ m ∈ r.head, m.key = s)
    (hk : 0 ≤ k ∧ k < r.identifierSpace) :
    ∃ p, routeToKey r s k = some p ∧ p ≠ [] ∧
      ∃ Rm, findResponsibleMachine r k = some Rm ∧ p.getLast? = some Rm.key ∧
        IsSpecSuccessor (r.head.map CircularNode.key) k Rm.key :=
  routeToKey_sound_core r h1 h2 h3 h4 s k hstart hk

theorem router_soundness_witness :
    (SortedKeys ringW3.head ∧ ringW3.head ≠ [] ∧
      (∀ m ∈ ringW3.head, 0 ≤ m.key ∧ m.key < ringW3.identifierSpace) ∧
      (∀ m ∈ ringW3.head, m.RT = rebuildFingers ringW3.head ringW3.identifierSpace m.key) ∧
      (∃ m ∈ ringW3.head, m.key = 5) ∧ ((0:Int) ≤ 0 ∧ (0:Int) < ringW3.identifierSpace)) ∧
    (∃ p, routeToKey ringW3 5 0 = some p ∧ p ≠ [] ∧
      ∃ Rm, findResponsibleMachine ringW3 0 = some Rm ∧ p.getLast? = some Rm.key ∧
        IsSpecSuccessor (ringW3.head.map CircularNode.key) 0 Rm.key) :=
  ⟨⟨by unfold SortedKeys; decide,
    fun h => absurd (congrArg List.length h) (by decide),
    by decide, by decide, by decide, by decide⟩,
   router_soundness ringW3 (by unfold SortedKeys; decide)
     (fun h => absurd (congrArg List.length h) (by decide)) (by decide)
     (by decide) 5 0 (by decide) (by decide)⟩

theorem inord_null : BTree.inord .null = [] := rfl

theorem inord_node (vals : List FileNode) (children : List BTree) :
    BTree.inord (.node vals children) = inordMerge vals children := rfl

theorem inordMerge_nil (vals : List FileNode) : inordMerge vals [] = vals := rfl

theorem inordMerge_cons (vals : List FileNode) (c : BTree) (cs : List BTree) :
    inordMerge vals (c :: cs) =
      BTree.inord c ++ vals.take 1 ++ inordMerge vals.tail cs := rfl

theorem inordMerge_split :
    ∀ (i : Nat) (cs : List BTree) (vals : List FileNode), i < cs.length →
      inordMerge vals cs =
        inordMerge (vals.take i) (cs.take i) ++ (cs.getD i .null).inord ++
          ((vals.drop i).take 1 ++ inordMerge (vals.drop (i + 1)) (cs.drop (i + 1))) := by
  intro i
  induction i with
  | zero =>
    intro cs vals hi
    cases cs with
    | nil => simp at hi
    | cons c cs2 =>
      rw [inordMerge_cons]
      simp only [List.take_zero, List.drop_zero, List.getD_cons_zero, List.drop_succ_cons,
        inordMerge_nil, List.nil_append, List.append_assoc, Nat.zero_add, List.drop_one]
  | succ i ih =>
    intro cs vals hi
    cases cs with
    | nil => simp at hi
    | cons c cs2 =>
      have h1 : (vals.take (i + 1)).take 1 = vals.take 1 := by
        rw [List.take_take]
        congr 1
        omega
      have h2 : (vals.take (i + 1)).tail = vals.tail.take i := by
        cases vals <;> simp
      have h3 : vals.tail.drop i = vals.drop (i + 1) := by
        cases vals <;> simp
      have h4 : vals.tail.drop (i + 1) = vals.drop (i + 2) := by
        cases vals <;> simp
      rw [inordMerge_cons, ih cs2 vals.tail (by simpa using hi),
        List.take_succ_cons, List.getD_cons_succ, List.drop_succ_cons, inordMerge_cons,
        h1, h2, h3, h4]
      simp only [List.append_assoc]

theorem take_set_eq (cs : List BTree) (i : Nat) (c' : BTree) (hi : i < cs.length) :
    (cs.set i c').take i = cs.take i := by
  rw [List.set_eq_take_append_cons_drop, if_pos hi, List.take_append_eq_append_take,
    List.take_take]
  have h1 : min i i = i := Nat.min_self i
  have h2 : i - (List.take i cs).length = 0 := by
    rw [List.length_take]
    omega
  rw [h1, h2, List.take_zero, List.append_nil]

theorem drop_set_eq (cs : List BTree) (i : Nat) (c' : BTree) :
    (cs.set i c').drop (i + 1) = cs.drop (i + 1) := by
  rw [List.drop_set, if_pos (by omega)]

theorem inordMerge_set_decomp (i : Nat) (cs : List BTree) (vals : List FileNode)
    (hi : i < cs.length) (c' : BTree) :
    inordMerge vals (cs.set i c') =
      inordMerge (vals.take i) (cs.take i) ++ c'.inord ++
        ((vals.drop i).take 1 ++ inordMerge (vals.drop (i + 1)) (cs.drop (i + 1))) := by
  rw [inordMerge_split i (cs.set i c') vals (by simpa using hi)]
  rw [take_set_eq cs i c' hi, drop_set_eq, getD_set_self hi]

/-! ### Sorted-list toolbox -/
theorem sorted_le_of_getLast : ∀ (l : List Int) (x y : Int),
    List.Pairwise (· < ·) l → x ∈ l → l.getLast? = some y → x ≤ y := by
  intro l
  induction l with
  | nil => intro x y _ hx; cases hx
  | cons a t ih =>
    intro x y hs hx hl
    cases t with
    | nil =>
      simp at hx hl
      omega
    | cons b t2 =>
      rw [List.getLast?_cons_cons] at hl
      have hs2 : List.Pairwise (· < ·) (b :: t2) := (List.pairwise_cons.mp hs).2
      rcases List.mem_cons.mp hx with hxa | hx2
      · have hab : x < b := by
          rw [hxa]
          exact (List.pairwise_cons.mp hs).1 b (by simp)
        have hby : b ≤ y := ih b y hs2 (by simp) hl
        omega
      · exact ih x y hs2 hx2 hl

theorem sorted_ge_head {l : List Int} {x y : Int}
    (hs : List.Pairwise (· < ·) (y :: l)) (hx : x ∈ y :: l) : y ≤ x := by
  rcases List.mem_cons.mp hx with rfl | hx
  · exact le_refl x
  · rw [List.pairwise_cons] at hs
    exact le_of_lt (hs.1 x hx)

/-! ### `searchNode` under a sorted record list -/
theorem searchScan_spec (k : Int) (vals : List FileNode) :
    ∀ m, 1 ≤ m →
      (∀ j, m ≤ j → j < vals.length → k < (vals.getD j sentinelFile).key) →
      1 ≤ searchScan k vals m ∧ searchScan k vals m ≤ m ∧
      (∀ j, searchScan k vals m ≤ j → j < vals.length →
        k < (vals.getD j sentinelFile).key) ∧
      (2 ≤ searchScan k vals m →
        (vals.getD (searchScan k vals m - 1) sentinelFile).key ≤ k) := by
  intro m
  induction m with
  | zero => intro h; omega
  | succ p ih =>
    intro _ hinv
    rw [searchScan]
    by_cases hc : k < (vals.getD p sentinelFile).key ∧ 0 < p
    · rw [if_pos hc]
      have hinv2 : ∀ j, p ≤ j → j < vals.length →
          k < (vals.getD j sentinelFile).key := by
        intro j hj hjl
        rcases Nat.eq_or_lt_of_le hj with rfl | hj2
        · exact hc.1
        · exact hinv j hj2 hjl
      obtain ⟨q1, q2, q3, q4⟩ := ih hc.2 hinv2
      exact ⟨q1, by omega, q3, q4⟩
    · rw [if_neg hc]
      refine ⟨by omega, le_refl _, ?_, ?_⟩
      · intro j hj hjl
        exact hinv j hj hjl
      · intro h2
        have hp : 0 < p := by omega
        have : ¬ k < (vals.getD p sentinelFile).key := by
          intro hlt
          exact hc ⟨hlt, hp⟩
        simp only [Nat.add_sub_cancel]
        omega

theorem sorted_vals_mono {vals : List FileNode}
    (hs : List.Pairwise (· < ·) (vals.map FileNode.key)) {j1 j2 : Nat}
    (h12 : j1 < j2) (h2 : j2 < vals.length) :
    (vals.getD j1 sentinelFile).key < (vals.getD j2 sentinelFile).key := by
  rw [List.getD_eq_getElem _ _ (by omega : j1 < vals.length),
    List.getD_eq_getElem _ _ h2]
  have h := List.pairwise_iff_getElem.mp hs j1 j2 (by simpa using (by omega : j1 < vals.length))
    (by simpa using h2) h12
  simpa using h

theorem searchNode_spec (k : Int) (vals : List FileNode) (hvne : vals ≠ [])
    (hs : List.Pairwise (· < ·) (vals.map FileNode.key)) :
    ((searchNode k vals).1 = 0 → k < (vals.getD 0 sentinelFile).key) ∧
    (1 ≤ (searchNode k vals).1 →
      (vals.getD ((searchNode k vals).1 - 1) sentinelFile).key ≤ k) ∧
    (∀ j, (searchNode k vals).1 ≤ j → j < vals.length →
      k < (vals.getD j sentinelFile).key) ∧
    ((searchNode k vals).2 = true ↔ 1 ≤ (searchNode k vals).1 ∧
      (vals.getD ((searchNode k vals).1 - 1) sentinelFile).key = k) := by
  have hlen : 1 ≤ vals.length := by
    cases vals with
    | nil => exact absurd rfl hvne
    | cons a l => simp
  rw [searchNode]
  by_cases h0 : k < (vals.getD 0 sentinelFile).key
  · rw [if_pos h0]
    dsimp only
    refine ⟨fun _ => h0, ?_, ?_, ?_⟩
    · intro h; simp at h
    · intro j _ hjl
      rcases Nat.eq_zero_or_pos j with rfl | hj
      · exact h0
      · exact lt_trans h0 (sorted_vals_mono hs hj hjl)
    · simp
  · rw [if_neg h0]
    dsimp only
    have hspec := searchScan_spec k vals vals.length hlen (fun j hj hjl => by omega)
    obtain ⟨hp1, hpl, hup, hlow⟩ := hspec
    refine ⟨?_, ?_, ?_, ?_⟩
    · intro h; omega
    · intro _
      rcases Nat.lt_or_ge (searchScan k vals vals.length) 2 with h2 | h2
      · have h1 : searchScan k vals vals.length = 1 := by omega
        simp only [h1, Nat.sub_self]
        omega
      · exact hlow h2
    · exact hup
    · simp only [beq_iff_eq]
      constructor
      · intro h; exact ⟨hp1, h.symm⟩
      · intro h; exact h.2.symm

theorem vals_sublist_inordMerge : ∀ (cs : List BTree) (vals : List FileNode),
    vals.Sublist (inordMerge vals cs) := by
  intro cs
  induction cs with
  | nil => intro vals; rw [inordMerge_nil]
  | cons c cs2 ih =>
    intro vals
    rw [inordMerge_cons]
    cases vals with
    | nil => simp
    | cons v vs =>
      simp only [List.take_succ_cons, List.take_zero, List.tail_cons]
      have h1 : (v :: vs).Sublist ([v] ++ inordMerge vs cs2) := by
        simp only [List.singleton_append]
        exact (ih vs).cons₂ v
      have h2 : ([v] ++ inordMerge vs cs2).Sublist
          (c.inord ++ ([v] ++ inordMerge vs cs2)) :=
        List.sublist_append_of_sublist_right (List.Sublist.refl _)
      simpa [List.append_assoc] using h1.trans h2

theorem drop_take_one {vals : List FileNode} {i : Nat} (hi : i < vals.length) :
    (vals.drop i).take 1 = [vals.getD i sentinelFile] := by
  rw [List.getD_eq_getElem _ _ hi, List.drop_eq_getElem_cons hi]
  rfl

theorem post_empty {vals : List FileNode} {cs : List BTree}
    (hlen : cs.length = vals.length + 1) :
    (vals.drop vals.length).take 1 ++
      inordMerge (vals.drop (vals.length + 1)) (cs.drop (vals.length + 1)) = [] := by
  rw [List.drop_length]
  have h1 : vals.drop (vals.length + 1) = [] := List.drop_eq_nil_of_le (by omega)
  have h2 : cs.drop (vals.length + 1) = [] := List.drop_eq_nil_of_le (by omega)
  rw [h1, h2, inordMerge_nil]
  rfl

theorem take_getLast? {vals : List FileNode} {i : Nat} (h1 : 1 ≤ i)
    (h2 : i ≤ vals.length) :
    (vals.take i).getLast? = some (vals.getD (i - 1) sentinelFile) := by
  rw [List.getLast?_eq_getElem?]
  rw [List.length_take]
  have hmin : min i vals.length = i := by omega
  rw [hmin, List.getElem?_take, if_pos (by omega), List.getD_eq_getElem _ _ (by omega),
    List.getElem?_eq_getElem (by omega)]

theorem inordMerge_getLast? : ∀ (cs : List BTree) (vals : List FileNode),
    cs.length = vals.length →
    (inordMerge vals cs).getLast? = vals.getLast? := by
  intro cs
  induction cs with
  | nil => intro vals _; rw [inordMerge_nil]
  | cons c cs2 ih =>
    intro vals hlen
    cases vals with
    | nil => simp at hlen
    | cons v vs =>
      rw [inordMerge_cons]
      simp only [List.take_succ_cons, List.take_zero, List.tail_cons]
      rw [List.getLast?_append, List.getLast?_append, ih vs (by simpa using hlen)]
      have hrhs : (v :: vs).getLast? = vs.getLast?.or (some v) := by
        cases hvl : vs.getLast? with
        | none => simp at hvl; subst hvl; rfl
        | some x => simp [List.getLast?_cons, hvl]
      rw [hrhs]
      cases vs.getLast? with
      | none => rfl
      | some x => rfl

theorem sorted_vals_of_merge {vals : List FileNode} {children : List BTree}
    (hsorted : List.Pairwise (· < ·) ((inordMerge vals children).map FileNode.key)) :
    List.Pairwise (· < ·) (vals.map FileNode.key) :=
  hsorted.sublist ((vals_sublist_inordMerge children vals).map FileNode.key)

theorem node_ctx (k : Int) (vals : List FileNode) (children : List BTree)
    (hlen : children.length = vals.length + 1)
    (hvne : vals ≠ [])
    (hsorted : List.Pairwise (· < ·) ((inordMerge vals children).map FileNode.key))
    (hnf : (searchNode k vals).2 = false) :
    (∀ x ∈ inordMerge (vals.take (searchNode k vals).1)
        (children.take (searchNode k vals).1), x.key < k) ∧
    (∀ x ∈ (vals.drop (searchNode k vals).1).take 1 ++
        inordMerge (vals.drop ((searchNode k vals).1 + 1))
          (children.drop ((searchNode k vals).1 + 1)), k < x.key) ∧
    List.Pairwise (· < ·)
      (((children.getD (searchNode k vals).1 .null).inord).map FileNode.key) := by
  have hsv := sorted_vals_of_merge hsorted
  have hile := searchNode_le k vals
  have hspec := searchNode_spec k vals hvne hsv
  have hsplit := inordMerge_split (searchNode k vals).1 children vals (by omega)
  rw [hsplit, List.map_append, List.map_append, List.pairwise_append] at hsorted
  obtain ⟨hsl, hsr, _⟩ := hsorted
  rw [List.pairwise_append] at hsl
  obtain ⟨hpre, hmid, _⟩ := hsl
  refine ⟨?_, ?_, hmid⟩
  · intro x hx
    rcases Nat.eq_zero_or_pos (searchNode k vals).1 with h0 | hpos
    · rw [h0] at hx
      simp only [List.take_zero] at hx
      rw [inordMerge_nil] at hx
      cases hx
    · have hlast : (inordMerge (vals.take (searchNode k vals).1)
          (children.take (searchNode k vals).1)).getLast? =
          some (vals.getD ((searchNode k vals).1 - 1) sentinelFile) := by
        rw [inordMerge_getLast? _ _ (by
          rw [List.length_take, List.length_take]
          omega)]
        exact take_getLast? hpos hile
      have hxle : x.key ≤ (vals.getD ((searchNode k vals).1 - 1) sentinelFile).key := by
        apply sorted_le_of_getLast _ _ _ hpre (List.mem_map_of_mem _ hx)
        rw [List.getLast?_map, hlast]
        rfl
      have hne : (vals.getD ((searchNode k vals).1 - 1) sentinelFile).key ≠ k := by
        intro heq
        rw [hspec.2.2.2.mpr ⟨hpos, heq⟩] at hnf
        exact Bool.noConfusion hnf
      have hle := hspec.2.1 hpos
      omega
  · intro x hx
    rcases Nat.lt_or_ge (searchNode k vals).1 vals.length with hlt | hge
    · rw [drop_take_one hlt] at hx
      have hhead : k < (vals.getD (searchNode k vals).1 sentinelFile).key :=
        hspec.2.2.1 _ (le_refl _) hlt
      have : (vals.getD (searchNode k vals).1 sentinelFile).key ≤ x.key := by
        have hsp : List.Pairwise (· < ·)
            (((vals.getD (searchNode k vals).1 sentinelFile) ::
              inordMerge (vals.drop ((searchNode k vals).1 + 1))
                (children.drop ((searchNode k vals).1 + 1))).map FileNode.key) := by
          rw [drop_take_one hlt] at hsr
          simpa using hsr
        have hxm : x.key ∈ ((vals.getD (searchNode k vals).1 sentinelFile) ::
            inordMerge (vals.drop ((searchNode k vals).1 + 1))
              (children.drop ((searchNode k vals).1 + 1))).map FileNode.key := by
          apply List.mem_map_of_mem
          simpa using hx
        exact sorted_ge_head hsp hxm
      omega
    · have hieq : (searchNode k vals).1 = vals.length := by omega
      rw [hieq, post_empty hlen] at hx
      cases hx

theorem keysOf_null : keysOf .null = [] := rfl

theorem keysOf_node (vals : List FileNode) (children : List BTree) :
    keysOf (.node vals children) = (inordMerge vals children).map FileNode.key := rfl

theorem searchDescendF_correct (ord : Nat) (k : Int) :
    ∀ fuel t, t.size < fuel → shapeAt ord 1 t = true → SortedTree t →
      ((searchDescendF k fuel t).isSome = true ↔ k ∈ keysOf t) ∧
      (∀ vls pos, searchDescendF k fuel t = some (vls, pos) →
        ∃ rec, rec ∈ t.inord ∧ rec.key = k ∧
          vls.getD (pos - 1) sentinelFile = rec) := by
  intro fuel
  induction fuel with
  | zero => intro t h _ _; omega
  | succ fuel ih =>
    intro t hsize hsh hsorted
    cases t with
    | null =>
      constructor
      · rw [show searchDescendF k (fuel + 1) .null = none from rfl]
        simp [keysOf_null]
      · intro vls pos h
        rw [show searchDescendF k (fuel + 1) .null = none from rfl] at h
        exact Option.noConfusion h
    | node vals children =>
      rw [shapeAt_node_iff] at hsh
      obtain ⟨hlo, hmax, hlen, hhts, hshl⟩ := hsh
      have hvne : vals ≠ [] := by
        intro hcon
        rw [hcon] at hlo
        simp at hlo
      rw [SortedTree, keysOf_node] at hsorted
      have hsv := sorted_vals_of_merge hsorted
      have hile := searchNode_le k vals
      have hspec := searchNode_spec k vals hvne hsv
      have hchmem : children.getD (searchNode k vals).1 .null ∈ children :=
        btree_getD_mem (by omega)
      have hchsize : (children.getD (searchNode k vals).1 .null).size < fuel := by
        have := size_getD_lt children (searchNode k vals).1 vals
        omega
      have hchsh : shapeAt ord 1 (children.getD (searchNode k vals).1 .null) = true := by
        have := hshl _ hchmem
        rw [shapeN_eq_shapeAt] at this
        exact shapeAt_mono ord (minKeys_pos ord) _ this
      have hsplit := inordMerge_split (searchNode k vals).1 children vals (by omega)
      by_cases hf : (searchNode k vals).2 = true
      · have heq : searchDescendF k (fuel + 1) (.node vals children) =
            some (vals, (searchNode k vals).1) := by
          simp only [searchDescendF, hf, if_true]
        rw [heq]
        have hrec := hspec.2.2.2.mp hf
        constructor
        · simp only [Option.isSome_some, true_iff]
          rw [keysOf_node, ← hrec.2]
          apply List.mem_map_of_mem
          have hv : vals.getD ((searchNode k vals).1 - 1) sentinelFile ∈ vals := by
            rw [List.getD_eq_getElem _ _ (by omega)]
            exact List.getElem_mem _
          exact (vals_sublist_inordMerge children vals).mem hv
        · intro vls pos h
          injection h with h1
          injection h1 with h1 h2
          subst h1; subst h2
          refine ⟨vals.getD ((searchNode k vals).1 - 1) sentinelFile, ?_, hrec.2, rfl⟩
          have hv : vals.getD ((searchNode k vals).1 - 1) sentinelFile ∈ vals := by
            rw [List.getD_eq_getElem _ _ (by omega)]
            exact List.getElem_mem _
          exact (vals_sublist_inordMerge children vals).mem hv
      · have hb : (searchNode k vals).2 = false := by
          cases hx : (searchNode k vals).2
          · rfl
          · exact absurd hx hf
        have hctx := node_ctx k vals children hlen hvne hsorted hb
        have heq : searchDescendF k (fuel + 1) (.node vals children) =
            searchDescendF k fuel (children.getD (searchNode k vals).1 .null) := by
          simp only [searchDescendF, hb, Bool.false_eq_true, if_false]
        rw [heq]
        have ihc := ih (children.getD (searchNode k vals).1 .null) hchsize hchsh hctx.2.2
        constructor
        · rw [ihc.1, keysOf_node, hsplit]
          simp only [List.map_append, List.mem_append]
          constructor
          · intro h
            exact Or.inl (Or.inr h)
          · rintro ((h | h) | h | h)
            · exfalso
              obtain ⟨x, hx, hxk⟩ := List.mem_map.mp h
              have := hctx.1 x hx
              omega
            · exact h
            · exfalso
              obtain ⟨x, hx, hxk⟩ := List.mem_map.mp h
              have := hctx.2.1 x (List.mem_append.mpr (Or.inl hx))
              omega
            · exfalso
              obtain ⟨x, hx, hxk⟩ := List.mem_map.mp h
              have := hctx.2.1 x (List.mem_append.mpr (Or.inr hx))
              omega
        · intro vls pos h
          obtain ⟨rec, hrm, hrk, hrg⟩ := ihc.2 vls pos h
          refine ⟨rec, ?_, hrk, hrg⟩
          rw [inord_node, hsplit]
          simp only [List.mem_append]
          exact Or.inl (Or.inr hrm)

/-! ## Insert semantics: `inord` of `setval` is ordered insertion (claims C3, C7) -/
theorem insertIdx_eq {α : Type} (x : α) : ∀ (n : Nat) (l : List α), n ≤ l.length →
    l.insertIdx n x = l.take n ++ x :: l.drop n := by
  intro n
  induction n with
  | zero => intro l _; simp
  | succ m ih =>
    intro l h
    match l with
    | [] => simp at h
    | a :: t =>
      rw [List.insertIdx_succ_cons, ih t (by simpa using h)]
      simp

theorem take_insertIdx_le {α : Type} (x : α) : ∀ (i n : Nat) (l : List α),
    i ≤ n → n ≤ l.length →
    (l.insertIdx i x).take (n + 1) = (l.take n).insertIdx i x := by
  intro i
  induction i with
  | zero => intro n l _ _; simp [List.insertIdx_zero]
  | succ m ih =>
    intro n l hi hn
    match l, n with
    | [], n =>
      rw [List.length_nil] at hn
      omega
    | a :: t, 0 => omega
    | a :: t, n + 1 =>
      rw [List.insertIdx_succ_cons, List.take_succ_cons, List.take_succ_cons,
          List.insertIdx_succ_cons, ih n t (by omega) (by simpa using hn)]

theorem drop_insertIdx_le {α : Type} (x : α) : ∀ (i n : Nat) (l : List α),
    i ≤ n → n ≤ l.length →
    (l.insertIdx i x).drop (n + 1) = l.drop n := by
  intro i
  induction i with
  | zero => intro n l _ _; simp [List.insertIdx_zero]
  | succ m ih =>
    intro n l hi hn
    match l, n with
    | [], n =>
      rw [List.length_nil] at hn
      omega
    | a :: t, 0 => omega
    | a :: t, n + 1 =>
      rw [List.insertIdx_succ_cons, List.drop_succ_cons, List.drop_succ_cons,
          ih n t (by omega) (by simpa using hn)]

theorem take_insertIdx_ge {α : Type} (x : α) : ∀ (n i : Nat) (l : List α),
    n ≤ i → i ≤ l.length →
    (l.insertIdx i x).take n = l.take n := by
  intro n
  induction n with
  | zero => intro i l _ _; simp
  | succ m ih =>
    intro i l hi hn
    match l, i with
    | [], i =>
      rw [List.length_nil] at hn
      omega
    | a :: t, 0 => omega
    | a :: t, i + 1 =>
      rw [List.insertIdx_succ_cons, List.take_succ_cons, List.take_succ_cons,
          ih i t (by omega) (by simpa using hn)]

theorem drop_insertIdx_ge {α : Type} (x : α) : ∀ (n i : Nat) (l : List α),
    n ≤ i → i ≤ l.length →
    (l.insertIdx i x).drop n = (l.drop n).insertIdx (i - n) x := by
  intro n
  induction n with
  | zero => intro i l _ _; simp
  | succ m ih =>
    intro i l hi hn
    match l, i with
    | [], i =>
      rw [List.length_nil] at hn
      omega
    | a :: t, 0 => omega
    | a :: t, i + 1 =>
      rw [List.insertIdx_succ_cons, List.drop_succ_cons, List.drop_succ_cons,
          ih i t (by omega) (by simpa using hn)]
      congr 1
      omega

theorem getLastD_irrel {α : Type} (l : List α) (d1 d2 : α) (h : l ≠ []) :
    l.getLastD d1 = l.getLastD d2 := by
  cases l with
  | nil => exact absurd rfl h
  | cons a t => rfl

theorem getLastD_take {α : Type} : ∀ (l : List α) (d : α) (n : Nat), n < l.length →
    (l.take (n + 1)).getLastD d = l.getD n d := by
  intro l
  induction l with
  | nil => intro d n h; simp at h
  | cons a t ih =>
    intro d n h
    cases n with
    | zero => simp
    | succ m =>
      rw [List.take_succ_cons]
      have hm : m < t.length := by simpa using h
      have htne : t.take (m + 1) ≠ [] := by
        intro hcon
        have := congrArg List.length hcon
        rw [List.length_take, List.length_nil] at this
        omega
      calc (a :: t.take (m + 1)).getLastD d = (t.take (m + 1)).getLastD a :=
            List.getLastD_cons ..
        _ = (t.take (m + 1)).getLastD d := getLastD_irrel _ a d htne
        _ = t.getD m d := ih d m hm
        _ = (a :: t).getD (m + 1) d := rfl

theorem dropLast_take {α : Type} (l : List α) (n : Nat) (h : n < l.length) :
    (l.take (n + 1)).dropLast = l.take n := by
  rw [List.dropLast_eq_take, List.length_take, List.take_take]
  have h1 : min (n + 1) l.length = n + 1 := by omega
  rw [h1]
  have h2 : min (n + 1 - 1) (n + 1) = n := by omega
  rw [h2]

theorem inordMerge_snoc : ∀ (cs : List BTree) (vals : List FileNode) (a : BTree),
    cs.length = vals.length →
    inordMerge vals (cs ++ [a]) = inordMerge vals cs ++ BTree.inord a := by
  intro cs
  induction cs with
  | nil =>
    intro vals a h
    have hv : vals = [] := by
      match vals with
      | [] => rfl
      | v :: vs => rw [List.length_nil] at h; simp at h
    subst hv
    rw [List.nil_append,
        show inordMerge [] [a] = BTree.inord a ++ [] ++ inordMerge [] [] from rfl]
    simp [inordMerge]
  | cons c cs2 ih =>
    intro vals a h
    match vals with
    | [] => simp at h
    | v :: vs =>
      rw [List.cons_append, inordMerge_cons, inordMerge_cons,
          List.tail_cons, ih vs a (by simpa using h)]
      simp [List.append_assoc]

theorem inordMerge_split2 : ∀ (i : Nat) (cs : List BTree) (vals : List FileNode),
    cs.length = vals.length + 1 → i < vals.length →
    inordMerge vals cs =
      inordMerge (vals.take i) (cs.take (i + 1)) ++
        vals.getD i sentinelFile :: inordMerge (vals.drop (i + 1)) (cs.drop (i + 1)) := by
  intro i
  induction i with
  | zero =>
    intro cs vals hlen hi
    match cs, vals with
    | c :: cs2, v :: vs =>
      rw [inordMerge_cons, List.tail_cons]
      simp only [List.take_zero, List.take_succ_cons, List.take_nil, List.drop_succ_cons,
        List.drop_zero, List.getD_cons_zero]
      rw [show inordMerge [] [c] = BTree.inord c ++ [] ++ inordMerge [] [] from rfl]
      simp [inordMerge]
  | succ m ih =>
    intro cs vals hlen hi
    match cs, vals with
    | c :: cs2, v :: vs =>
      rw [inordMerge_cons, List.tail_cons]
      have hlen2 : cs2.length = vs.length + 1 := by simpa using hlen
      have hi2 : m < vs.length := by simpa using hi
      rw [ih cs2 vs hlen2 hi2]
      simp only [List.take_succ_cons, List.drop_succ_cons, List.getD_cons_succ]
      rw [inordMerge_cons, List.tail_cons]
      simp [List.append_assoc]

theorem insIn_nil (f : FileNode) : insIn f [] = [f] := rfl

theorem insIn_cons (f b : FileNode) (l : List FileNode) :
    insIn f (b :: l) = if b.key < f.key then b :: insIn f l else f :: b :: l := by
  by_cases h : b.key < f.key
  · rw [if_pos h]
    simp [insIn, List.takeWhile_cons, List.dropWhile_cons, h]
  · rw [if_neg h]
    simp [insIn, List.takeWhile_cons, List.dropWhile_cons, h]

theorem mem_insIn (f x : FileNode) : ∀ (l : List FileNode),
    (x ∈ insIn f l ↔ x = f ∨ x ∈ l) := by
  intro l
  induction l with
  | nil =>
    rw [insIn_nil]
    simp
  | cons b t ih =>
    rw [insIn_cons]
    by_cases h : b.key < f.key
    · rw [if_pos h]
      simp only [List.mem_cons, ih]
      tauto
    · rw [if_neg h]
      simp only [List.mem_cons]

theorem insIn_append_left (f : FileNode) : ∀ (A B : List FileNode),
    (∀ x ∈ A, x.key < f.key) → insIn f (A ++ B) = A ++ insIn f B := by
  intro A
  induction A with
  | nil => intro B _; rfl
  | cons a t ih =>
    intro B h
    rw [List.cons_append, insIn_cons, if_pos (h a (List.mem_cons_self a t)),
        ih B (fun x hx => h x (List.mem_cons_of_mem a hx)), List.cons_append]

theorem insIn_append_right (f : FileNode) : ∀ (B C : List FileNode),
    (∀ x ∈ C, f.key < x.key) → insIn f (B ++ C) = insIn f B ++ C := by
  intro B
  induction B with
  | nil =>
    intro C h
    rw [List.nil_append, insIn_nil]
    match C with
    | [] => rfl
    | c :: t =>
      rw [insIn_cons, if_neg (by
        have := h c (List.mem_cons_self c t)
        omega)]
      rfl
  | cons b t ih =>
    intro C h
    rw [List.cons_append, insIn_cons, insIn_cons]
    by_cases hb : b.key < f.key
    · rw [if_pos hb, if_pos hb, ih C h, List.cons_append]
    · rw [if_neg hb, if_neg hb]
      simp

theorem mem_map_key_insIn (f : FileNode) (l : List FileNode) (y : Int) :
    y ∈ (insIn f l).map FileNode.key ↔ y = f.key ∨ y ∈ l.map FileNode.key := by
  simp only [List.mem_map, mem_insIn]
  constructor
  · rintro ⟨r, (rfl | hr), rfl⟩
    · exact Or.inl rfl
    · exact Or.inr ⟨r, hr, rfl⟩
  · rintro (rfl | ⟨r, hr, rfl⟩)
    · exact ⟨f, Or.inl rfl, rfl⟩
    · exact ⟨r, Or.inr hr, rfl⟩

theorem insIn_sorted (f : FileNode) : ∀ (l : List FileNode),
    List.Pairwise (· < ·) (l.map FileNode.key) → f.key ∉ l.map FileNode.key →
    List.Pairwise (· < ·) ((insIn f l).map FileNode.key) := by
  intro l
  induction l with
  | nil => intro _ _; simp [insIn_nil]
  | cons b t ih =>
    intro hs hf
    rw [List.map_cons, List.pairwise_cons] at hs
    rw [List.map_cons, List.mem_cons] at hf
    push_neg at hf
    rw [insIn_cons]
    by_cases h : b.key < f.key
    · rw [if_pos h, List.map_cons, List.pairwise_cons]
      refine ⟨?_, ih hs.2 hf.2⟩
      intro y hy
      rcases (mem_map_key_insIn f t y).mp hy with rfl | hy
      · exact h
      · exact hs.1 y hy
    · rw [if_neg h]
      have hfb : f.key < b.key := by
        rcases lt_or_eq_of_le (not_lt.mp h) with h1 | h1
        · exact h1
        · exact absurd h1 hf.1
      simp only [List.map_cons, List.pairwise_cons]
      refine ⟨?_, ?_, hs.2⟩
      · intro y hy
        rcases List.mem_cons.mp hy with rfl | hy
        · exact hfb
        · exact lt_trans hfb (hs.1 y hy)
      · exact hs.1

theorem getD_append_cons {α : Type} : ∀ (A : List α) (x : α) (B : List α) (d : α),
    (A ++ x :: B).getD A.length d = x := by
  intro A
  induction A with
  | nil => intro x B d; rfl
  | cons a t ih => intro x B d; simpa using ih x B d

theorem take_succ_set_self {α : Type} : ∀ (l : List α) (i : Nat) (a : α), i < l.length →
    (l.set i a).take (i + 1) = l.take i ++ [a] := by
  intro l
  induction l with
  | nil => intro i a h; simp at h
  | cons b t ih =>
    intro i a h
    cases i with
    | zero => rfl
    | succ m =>
      rw [List.set_cons_succ, List.take_succ_cons, ih m a (by simpa using h),
        List.take_succ_cons, List.cons_append]

theorem getD_cons_drop {α : Type} : ∀ (l : List α) (n : Nat) (d : α), n < l.length →
    l.getD n d :: l.drop (n + 1) = l.drop n := by
  intro l
  induction l with
  | nil => intro n d h; simp at h
  | cons b t ih =>
    intro n d h
    cases n with
    | zero => rfl
    | succ m =>
      rw [List.getD_cons_succ, List.drop_succ_cons, List.drop_succ_cons,
        ih m d (by simpa using h)]

theorem tail_drop_eq {α : Type} (l : List α) (n : Nat) :
    (l.drop n).tail = l.drop (n + 1) := by
  rw [← List.drop_one, List.drop_drop]

theorem splitNode_inord (file : FileNode) (c : BTree) (vals : List FileNode)
    (children : List BTree) (k minK : Nat)
    (hk : k ≤ vals.length) (hlen : children.length = vals.length + 1)
    (hmin : minK + 1 ≤ vals.length) :
    BTree.inord (splitNode file c vals children k minK).1 ++
      (splitNode file c vals children k minK).2.1 ::
        BTree.inord (splitNode file c vals children k minK).2.2 =
      inordMerge (vals.insertIdx k file) (children.insertIdx (k + 1) c) := by
  have hVlen : (vals.insertIdx k file).length = vals.length + 1 :=
    List.length_insertIdx _ _ hk
  have hClen : (children.insertIdx (k + 1) c).length = vals.length + 2 := by
    rw [List.length_insertIdx _ _ (by omega)]
    omega
  by_cases hcase : k ≤ minK
  · simp only [splitNode, if_pos hcase]
    rw [inord_node, inord_node]
    have h1 : (vals.take minK).insertIdx k file = (vals.insertIdx k file).take (minK + 1) :=
      (take_insertIdx_le file k minK vals hcase (by omega)).symm
    have h2 : (children.take (minK + 1)).insertIdx (k + 1) c =
        (children.insertIdx (k + 1) c).take (minK + 2) :=
      (take_insertIdx_le c (k + 1) (minK + 1) children (by omega) (by omega)).symm
    have h3 : vals.drop minK = (vals.insertIdx k file).drop (minK + 1) :=
      (drop_insertIdx_le file k minK vals hcase (by omega)).symm
    have h4 : children.drop (minK + 1) = (children.insertIdx (k + 1) c).drop (minK + 2) :=
      (drop_insertIdx_le c (k + 1) (minK + 1) children (by omega) (by omega)).symm
    rw [h1, h2, List.tail_cons, h3, h4]
    rw [dropLast_take _ minK (by omega), dropLast_take _ (minK + 1) (by omega),
        getLastD_take _ sentinelFile minK (by omega),
        getLastD_take _ BTree.null (minK + 1) (by omega),
        getD_cons_drop _ (minK + 1) BTree.null (by omega)]
    exact (inordMerge_split2 minK (children.insertIdx (k + 1) c) (vals.insertIdx k file)
      (by omega) (by omega)).symm
  · simp only [splitNode, if_neg hcase]
    rw [inord_node, inord_node]
    have h1 : vals.take (minK + 1) = (vals.insertIdx k file).take (minK + 1) :=
      (take_insertIdx_ge file (minK + 1) k vals (by omega) hk).symm
    have h2 : children.take (minK + 1 + 1) = (children.insertIdx (k + 1) c).take (minK + 2) :=
      (take_insertIdx_ge c (minK + 2) (k + 1) children (by omega) (by omega)).symm
    have h3 : (vals.drop (minK + 1)).insertIdx (k - (minK + 1)) file =
        (vals.insertIdx k file).drop (minK + 1) :=
      (drop_insertIdx_ge file (minK + 1) k vals (by omega) hk).symm
    have h4 : (children.drop (minK + 1 + 1)).insertIdx (k - (minK + 1)) c =
        (children.insertIdx (k + 1) c).drop (minK + 2) := by
      rw [drop_insertIdx_ge c (minK + 2) (k + 1) children (by omega) (by omega)]
      congr 1
      omega
    rw [List.insertIdx_succ_cons, List.tail_cons, h1, h2, h3, h4]
    rw [dropLast_take _ minK (by omega), dropLast_take _ (minK + 1) (by omega),
        getLastD_take _ sentinelFile minK (by omega),
        getLastD_take _ BTree.null (minK + 1) (by omega),
        getD_cons_drop _ (minK + 1) BTree.null (by omega)]
    exact (inordMerge_split2 minK (children.insertIdx (k + 1) c) (vals.insertIdx k file)
      (by omega) (by omega)).symm

theorem promOut_none : promOut none = [] := rfl

theorem promOut_some (p : FileNode) (c : BTree) :
    promOut (some (p, c)) = p :: BTree.inord c := rfl

theorem inordMerge_insert_decomp (p0 : FileNode) (c0 rt : BTree)
    (vals : List FileNode) (children : List BTree) (i : Nat)
    (hi : i ≤ vals.length) (hlen : children.length = vals.length + 1) :
    inordMerge (vals.insertIdx i p0) ((children.set i rt).insertIdx (i + 1) c0) =
      inordMerge (vals.take i) (children.take i) ++
        (BTree.inord rt ++ (p0 :: (BTree.inord c0 ++ ((vals.drop i).take 1 ++
          inordMerge (vals.drop (i + 1)) (children.drop (i + 1)))))) := by
  have hVlen : (vals.insertIdx i p0).length = vals.length + 1 :=
    List.length_insertIdx _ _ hi
  have hslen : (children.set i rt).length = children.length := List.length_set _ _ _
  have hClen : ((children.set i rt).insertIdx (i + 1) c0).length = vals.length + 2 := by
    rw [List.length_insertIdx _ _ (by omega)]
    omega
  rw [inordMerge_split2 i ((children.set i rt).insertIdx (i + 1) c0)
    (vals.insertIdx i p0) (by omega) (by omega)]
  have h1 : (vals.insertIdx i p0).take i = vals.take i :=
    take_insertIdx_ge p0 i i vals (le_refl i) hi
  have htl : (vals.take i).length = i := by
    rw [List.length_take]
    omega
  have h2 : (vals.insertIdx i p0).getD i sentinelFile = p0 := by
    rw [insertIdx_eq p0 i vals hi]
    have := getD_append_cons (vals.take i) p0 (vals.drop i) sentinelFile
    rw [htl] at this
    exact this
  have h3 : (vals.insertIdx i p0).drop (i + 1) = vals.drop i :=
    drop_insertIdx_le p0 i i vals (le_refl i) hi
  have h4 : ((children.set i rt).insertIdx (i + 1) c0).take (i + 1) =
      children.take i ++ [rt] := by
    rw [take_insertIdx_ge c0 (i + 1) (i + 1) (children.set i rt) (le_refl _) (by omega),
        take_succ_set_self children i rt (by omega)]
  have h5 : ((children.set i rt).insertIdx (i + 1) c0).drop (i + 1) =
      c0 :: children.drop (i + 1) := by
    rw [drop_insertIdx_ge c0 (i + 1) (i + 1) (children.set i rt) (le_refl _) (by omega),
        Nat.sub_self, List.insertIdx_zero, drop_set_eq]
  rw [h1, h2, h3, h4, h5]
  rw [inordMerge_snoc (children.take i) (vals.take i) rt
    (by rw [List.length_take, List.length_take]; omega)]
  rw [inordMerge_cons, tail_drop_eq]
  simp only [List.append_assoc, List.cons_append]

theorem setvalF_inord (f : FileNode) (ord : Nat) (h3 : 3 ≤ ord) :
    ∀ fuel t, t.size < fuel → shapeAt ord 1 t = true → SortedTree t →
      f.key ∉ keysOf t →
      BTree.inord (setvalF f ord fuel t).1 ++ promOut (setvalF f ord fuel t).2 =
        insIn f (BTree.inord t) := by
  intro fuel
  induction fuel with
  | zero => intro t h _ _ _; omega
  | succ fuel ih =>
    intro t hsize hsh hsorted hfresh
    cases t with
    | null =>
      rw [show setvalF f ord (fuel + 1) .null = (.null, some (f, .null)) from rfl]
      rfl
    | node vals children =>
      rw [shapeAt_node_iff] at hsh
      obtain ⟨hlo, hmax, hlen, hhts, hshl⟩ := hsh
      have hvne : vals ≠ [] := by
        intro hcon
        rw [hcon] at hlo
        simp at hlo
      rw [SortedTree, keysOf_node] at hsorted
      have hsv := sorted_vals_of_merge hsorted
      have hile := searchNode_le f.key vals
      have hchmem : children.getD (searchNode f.key vals).1 .null ∈ children :=
        btree_getD_mem (by omega)
      have hchsize : (children.getD (searchNode f.key vals).1 .null).size < fuel := by
        have := size_getD_lt children (searchNode f.key vals).1 vals
        omega
      have hchsh : shapeAt ord 1 (children.getD (searchNode f.key vals).1 .null) = true := by
        have := hshl _ hchmem
        rw [shapeN_eq_shapeAt] at this
        exact shapeAt_mono ord (minKeys_pos ord) _ this
      by_cases hsr : (searchNode f.key vals).2 = true
      · exfalso
        have hspec := searchNode_spec f.key vals hvne hsv
        have hrec := hspec.2.2.2.mp hsr
        have hmem : vals.getD ((searchNode f.key vals).1 - 1) sentinelFile ∈ vals := by
          rw [List.getD_eq_getElem _ _ (by omega)]
          exact List.getElem_mem _
        apply hfresh
        rw [keysOf_node]
        exact List.mem_map.mpr ⟨_, (vals_sublist_inordMerge children vals).mem hmem, hrec.2⟩
      · have hb : (searchNode f.key vals).2 = false := by
          cases hx : (searchNode f.key vals).2
          · rfl
          · exact absurd hx hsr
        have hctx := node_ctx f.key vals children hlen hvne hsorted hb
        have hchfresh : f.key ∉ keysOf (children.getD (searchNode f.key vals).1 .null) := by
          intro hc
          apply hfresh
          rw [keysOf_node]
          simp only [keysOf] at hc
          obtain ⟨x, hx, hxk⟩ := List.mem_map.mp hc
          refine List.mem_map.mpr ⟨x, ?_, hxk⟩
          rw [inordMerge_split (searchNode f.key vals).1 children vals (by omega)]
          exact List.mem_append.mpr (Or.inl (List.mem_append.mpr (Or.inr hx)))
        have ihc := ih (children.getD (searchNode f.key vals).1 .null)
          hchsize hchsh hctx.2.2 hchfresh
        have hins : insIn f (inordMerge vals children) =
            inordMerge (vals.take (searchNode f.key vals).1)
                (children.take (searchNode f.key vals).1) ++
              (insIn f (BTree.inord (children.getD (searchNode f.key vals).1 .null)) ++
                ((vals.drop (searchNode f.key vals).1).take 1 ++
                  inordMerge (vals.drop ((searchNode f.key vals).1 + 1))
                    (children.drop ((searchNode f.key vals).1 + 1)))) := by
          rw [inordMerge_split (searchNode f.key vals).1 children vals (by omega),
              List.append_assoc,
              insIn_append_left f _ _ hctx.1,
              insIn_append_right f _ _ hctx.2.1]
        cases hres : setvalF f ord fuel (children.getD (searchNode f.key vals).1 .null) with
        | mk rt ro =>
        cases ro with
        | none =>
          have ihc2 : BTree.inord rt =
              insIn f (BTree.inord (children.getD (searchNode f.key vals).1 .null)) := by
            have h := ihc
            rw [hres] at h
            rw [promOut_none, List.append_nil] at h
            exact h
          have heq : setvalF f ord (fuel + 1) (.node vals children) =
              (.node vals (children.set (searchNode f.key vals).1 rt), none) := by
            simp only [setvalF, hb, Bool.false_eq_true, if_false, hres]
          rw [heq, promOut_none, List.append_nil, inord_node,
              inordMerge_set_decomp (searchNode f.key vals).1 children vals (by omega) rt,
              ihc2, inord_node, hins]
          simp only [List.append_assoc]
        | some pc =>
          obtain ⟨p0, c0⟩ := pc
          have ihc2 : insIn f (BTree.inord (children.getD (searchNode f.key vals).1 .null)) =
              BTree.inord rt ++ p0 :: BTree.inord c0 := by
            have h := ihc
            rw [hres] at h
            rw [promOut_some] at h
            exact h.symm
          by_cases hfull : vals.length < maxKeys ord
          · have heq : setvalF f ord (fuel + 1) (.node vals children) =
                (fillnode p0 c0 vals (children.set (searchNode f.key vals).1 rt)
                  (searchNode f.key vals).1, none) := by
              simp only [setvalF, hb, Bool.false_eq_true, if_false, hres, hfull, if_true]
            rw [heq, promOut_none, List.append_nil,
                show fillnode p0 c0 vals (children.set (searchNode f.key vals).1 rt)
                  (searchNode f.key vals).1 =
                  .node (vals.insertIdx (searchNode f.key vals).1 p0)
                    ((children.set (searchNode f.key vals).1 rt).insertIdx
                      ((searchNode f.key vals).1 + 1) c0) from rfl,
                inord_node,
                inordMerge_insert_decomp p0 c0 rt vals children _ hile hlen,
                inord_node, hins, ihc2]
            simp only [List.append_assoc, List.cons_append]
          · have heq : setvalF f ord (fuel + 1) (.node vals children) =
                ((splitNode p0 c0 vals (children.set (searchNode f.key vals).1 rt)
                    (searchNode f.key vals).1 (minKeys ord)).1,
                  some ((splitNode p0 c0 vals (children.set (searchNode f.key vals).1 rt)
                    (searchNode f.key vals).1 (minKeys ord)).2.1,
                    (splitNode p0 c0 vals (children.set (searchNode f.key vals).1 rt)
                    (searchNode f.key vals).1 (minKeys ord)).2.2)) := by
              simp only [setvalF, hb, Bool.false_eq_true, if_false, hres]
              rw [if_neg hfull]
            rw [heq, promOut_some,
                splitNode_inord p0 c0 vals (children.set (searchNode f.key vals).1 rt)
                  (searchNode f.key vals).1 (minKeys ord) hile
                  (by rw [List.length_set]; exact hlen)
                  (by
                    have h2m := two_minKeys_le ord h3
                    have h1m := minKeys_pos ord
                    omega),
                inordMerge_insert_decomp p0 c0 rt vals children _ hile hlen,
                inord_node, hins, ihc2]
            simp only [List.append_assoc, List.cons_append]

theorem insertHelper_inord (f : FileNode) (ord : Nat) (h3 : 3 ≤ ord) (t : BTree)
    (hsh : shapeAt ord 1 t = true) (hsorted : SortedTree t)
    (hfresh : f.key ∉ keysOf t) :
    BTree.inord (insertHelper f ord t) = insIn f (BTree.inord t) := by
  unfold insertHelper BTree.insert
  have h := setvalF_inord f ord h3 (t.size + 1) t (Nat.lt_succ_self _) hsh hsorted hfresh
  cases hres : setval f ord t with
  | mk t1 o =>
    have hres2 : setvalF f ord (t.size + 1) t = (t1, o) := hres
    rw [hres2] at h
    cases o with
    | none =>
      rw [promOut_none, List.append_nil] at h
      exact h
    | some pc =>
      obtain ⟨p0, c0⟩ := pc
      rw [promOut_some] at h
      show BTree.inord (.node [p0] [t1, c0]) = insIn f (BTree.inord t)
      rw [inord_node,
          show inordMerge [p0] [t1, c0] =
            BTree.inord t1 ++ [p0] ++
              (BTree.inord c0 ++ [] ++ inordMerge [] []) from rfl]
      rw [← h]
      simp [inordMerge]

theorem inord_key_unique_list : ∀ (l : List FileNode),
    List.Pairwise (· < ·) (l.map FileNode.key) →
    ∀ r1 r2, r1 ∈ l → r2 ∈ l → r1.key = r2.key → r1 = r2 := by
  intro l
  induction l with
  | nil => intro _ r1 r2 h1 _ _; exact absurd h1 (List.not_mem_nil r1)
  | cons a t ih =>
    intro hp r1 r2 h1 h2 hk
    rw [List.map_cons, List.pairwise_cons] at hp
    rcases List.mem_cons.mp h1 with rfl | h1t
    · rcases List.mem_cons.mp h2 with rfl | h2t
      · rfl
      · exfalso
        have := hp.1 r2.key (List.mem_map.mpr ⟨r2, h2t, rfl⟩)
        omega
    · rcases List.mem_cons.mp h2 with rfl | h2t
      · exfalso
        have := hp.1 r1.key (List.mem_map.mpr ⟨r1, h1t, rfl⟩)
        omega
      · exact ih hp.2 r1 r2 h1t h2t hk

theorem searchFile_iff (ord : Nat) (k : Int) (t : BTree)
    (hsh : shapeAt ord 1 t = true) (hs : SortedTree t) :
    (searchFile k t = true ↔ k ∈ keysOf t) := by
  rw [searchFile, searchDescend]
  exact (searchDescendF_correct ord k (t.size + 1) t (Nat.lt_succ_self _) hsh hs).1

theorem findFile_eq (ord : Nat) (k : Int) (t : BTree)
    (hsh : shapeAt ord 1 t = true) (hs : SortedTree t)
    (rec : FileNode) (hrec : rec ∈ BTree.inord t) (hk : rec.key = k) :
    findFile k t = some rec := by
  have hc := searchDescendF_correct ord k (t.size + 1) t (Nat.lt_succ_self _) hsh hs
  have hkm : k ∈ keysOf t := by
    simp only [keysOf]
    exact List.mem_map.mpr ⟨rec, hrec, hk⟩
  have hsome : (searchDescendF k (t.size + 1) t).isSome = true := hc.1.mpr hkm
  rw [Option.isSome_iff_exists] at hsome
  obtain ⟨vp, hres⟩ := hsome
  obtain ⟨vls, pos⟩ := vp
  obtain ⟨rec2, hrm2, hk2, hg2⟩ := hc.2 vls pos hres
  have heq : rec2 = rec :=
    inord_key_unique_list (BTree.inord t) hs rec2 rec hrm2 hrec (hk2.trans hk.symm)
  rw [findFile, searchDescend, hres, Option.map_some']
  rw [hg2, heq]

/-! ### Congruence of the routing machinery under B-tree-only updates -/
theorem map_key_congr (g : CircularNode → CircularNode)
    (hk : ∀ m, (g m).key = m.key) (ms : List CircularNode) :
    (ms.map g).map CircularNode.key = ms.map CircularNode.key := by
  rw [List.map_map]
  exact List.map_congr_left (fun m _ => hk m)

theorem ringSucc_map (g : CircularNode → CircularNode)
    (hk : ∀ m, (g m).key = m.key) (ms : List CircularNode) (v : Int) :
    ringSucc (ms.map g) v = (ringSucc ms v).map g := by
  unfold ringSucc
  rw [List.find?_map]
  have hp : ((fun m : CircularNode => decide (v ≤ m.key)) ∘ g) =
      fun m : CircularNode => decide (v ≤ m.key) := by
    funext m
    simp [Function.comp, hk m]
  rw [hp]
  cases hf : ms.find? (fun m : CircularNode => decide (v ≤ m.key)) with
  | some m => simp
  | none => simp [List.head?_map]

theorem rebuildFingers_map (g : CircularNode → CircularNode)
    (hk : ∀ m, (g m).key = m.key) (ms : List CircularNode) (N mkey : Int) :
    rebuildFingers (ms.map g) N mkey = rebuildFingers ms N mkey := by
  unfold rebuildFingers
  apply List.map_congr_left
  intro i _
  dsimp only
  rw [ringSucc_map g hk]
  cases hs : ringSucc ms ((mkey + 2 ^ i) % N) with
  | none => rfl
  | some m => simp [hk m]

theorem findMachineById_map (g : CircularNode → CircularNode)
    (hk : ∀ m, (g m).key = m.key) (ms : List CircularNode) (v : Int) :
    findMachineById (ms.map g) v = (findMachineById ms v).map g := by
  unfold findMachineById
  rw [List.find?_map]
  have hp : ((fun m : CircularNode => m.key == v) ∘ g) =
      fun m : CircularNode => m.key == v := by
    funext m
    simp [Function.comp, hk m]
  rw [hp]

theorem specSuccessor_unique (keys : List Int) (x s1 s2 : Int)
    (h1 : IsSpecSuccessor keys x s1) (h2 : IsSpecSuccessor keys x s2) : s1 = s2 := by
  rcases h1 with ⟨hm1, hx1, hmin1⟩ | ⟨hall1, hm1, hmin1⟩
  · rcases h2 with ⟨hm2, hx2, hmin2⟩ | ⟨hall2, hm2, hmin2⟩
    · have := hmin1 s2 hm2 hx2
      have := hmin2 s1 hm1 hx1
      omega
    · have := hall2 s1 hm1
      omega
  · rcases h2 with ⟨hm2, hx2, hmin2⟩ | ⟨hall2, hm2, hmin2⟩
    · have := hall1 s2 hm2
      omega
    · have := hmin1 s2 hm2
      have := hmin2 s1 hm1
      omega

theorem findResponsibleMachine_mem (r : CircularLinkedList) (k : Int) (m : CircularNode)
    (h : findResponsibleMachine r k = some m) : m ∈ r.head := by
  unfold findResponsibleMachine at h
  cases hf : r.head.find? (fun m0 => respCheck r m0 k) with
  | some m0 =>
    rw [hf] at h
    injection h with h
    subst h
    exact List.mem_of_find?_eq_some hf
  | none =>
    rw [hf] at h
    exact List.mem_of_mem_head? h

theorem ringSearch_exists (r : CircularLinkedList) (v : Int)
    (h : ringSearch r v = true) : ∃ m ∈ r.head, m.key = v := by
  unfold ringSearch at h
  rw [List.any_eq_true] at h
  obtain ⟨m, hm, he⟩ := h
  exact ⟨m, hm, by simpa using he⟩

theorem putUpdate_key (f : FileNode) (ord : Nat) (rk : Int) (m : CircularNode) :
    (putUpdate f ord rk m).key = m.key := by
  unfold putUpdate
  split
  · rfl
  · rfl

theorem putUpdate_RT (f : FileNode) (ord : Nat) (rk : Int) (m : CircularNode) :
    (putUpdate f ord rk m).RT = m.RT := by
  unfold putUpdate
  split
  · rfl
  · rfl

theorem putUpdate_self (f : FileNode) (ord : Nat) (rk : Int) (m : CircularNode)
    (h : m.key = rk) :
    putUpdate f ord rk m = { m with btree := insertHelper f ord m.btree } := by
  unfold putUpdate
  rw [if_pos (by simp [h])]

theorem put_get_core (r : CircularLinkedList) (ord : Nat) (hord : 3 ≤ ord)
    (h1 : SortedKeys r.head) (h2 : r.head ≠ [])
    (h3 : ∀ m ∈ r.head, 0 ≤ m.key ∧ m.key < r.identifierSpace)
    (h4 : ∀ m ∈ r.head, m.RT = rebuildFingers r.head r.identifierSpace m.key)
    (hbt : ∀ m ∈ r.head, shapeAt ord 1 m.btree = true ∧ SortedTree m.btree)
    (s s2 fileKey : Int) (pth : String)
    (hs : ringSearch r s = true) (hs2 : ∃ m ∈ r.head, m.key = s2)
    (hk : 0 ≤ fileKey ∧ fileKey < r.identifierSpace)
    (hfresh : ∀ m ∈ r.head, fileKey ∉ keysOf m.btree) :
    (insertFileToTree r s fileKey pth ord).2 = PutOutcome.stored ∧
    ∃ resp, searchFileWithMachine (insertFileToTree r s fileKey pth ord).1 s2 fileKey =
        some resp ∧
      findFile fileKey resp.btree = some ⟨fileKey, pth⟩ := by
  obtain ⟨p, hroute, hpne, Rm, hresp, hplast, hspec⟩ :=
    routeToKey_sound_core r h1 h2 h3 h4 s fileKey (ringSearch_exists r s hs) hk
  cases p with
  | nil => exact absurd rfl hpne
  | cons hd tl =>
  have hRmem : Rm ∈ r.head := findResponsibleMachine_mem r fileKey Rm hresp
  obtain ⟨resp, hfind, hrespmem, hrespkey⟩ :=
    findMachineById_some_of_exists (⟨Rm, hRmem, rfl⟩ : ∃ m ∈ r.head, m.key = Rm.key)
  have hgl : (hd :: tl).getLast (List.cons_ne_nil hd tl) = Rm.key := by
    rw [List.getLast?_eq_getLast (hd :: tl) (List.cons_ne_nil hd tl)] at hplast
    injection hplast
  have hemp : r.head.isEmpty = false := by
    cases hh : r.head with
    | nil => exact absurd hh h2
    | cons a b => rfl
  have hsf : searchFile fileKey resp.btree = false := by
    cases hx : searchFile fileKey resp.btree
    · rfl
    · exact absurd ((searchFile_iff ord fileKey resp.btree (hbt resp hrespmem).1
        (hbt resp hrespmem).2).mp hx) (hfresh resp hrespmem)
  have heq : insertFileToTree r s fileKey pth ord =
      ({ r with head := r.head.map (putUpdate ⟨fileKey, pth⟩ ord resp.key) },
        PutOutcome.stored) := by
    unfold insertFileToTree
    rw [hemp]
    rw [if_neg (by simp)]
    rw [if_neg (not_not_intro hs), hroute]
    simp only []
    rw [hgl, hfind]
    simp only []
    rw [if_neg (by simp [hsf])]
    rfl
  refine ⟨by rw [heq], ?_⟩
  rw [heq]
  have hgkey : ∀ m, (putUpdate ⟨fileKey, pth⟩ ord resp.key m).key = m.key :=
    putUpdate_key _ ord resp.key
  have hgRT : ∀ m, (putUpdate ⟨fileKey, pth⟩ ord resp.key m).RT = m.RT :=
    putUpdate_RT _ ord resp.key
  have hmapkey : ((r.head.map (putUpdate ⟨fileKey, pth⟩ ord resp.key)).map
      CircularNode.key) = r.head.map CircularNode.key :=
    map_key_congr _ hgkey r.head
  have h1' : SortedKeys (r.head.map (putUpdate ⟨fileKey, pth⟩ ord resp.key)) := by
    unfold SortedKeys
    rw [hmapkey]
    exact h1
  have h2' : r.head.map (putUpdate ⟨fileKey, pth⟩ ord resp.key) ≠ [] := by
    intro hcon
    have := congrArg List.length hcon
    rw [List.length_map, List.length_nil] at this
    exact h2 (List.length_eq_zero.mp this)
  have h3' : ∀ m ∈ r.head.map (putUpdate ⟨fileKey, pth⟩ ord resp.key),
      0 ≤ m.key ∧ m.key < r.identifierSpace := by
    intro m hm
    obtain ⟨m0, hm0, rfl⟩ := List.mem_map.mp hm
    rw [hgkey m0]
    exact h3 m0 hm0
  have h4' : ∀ m ∈ r.head.map (putUpdate ⟨fileKey, pth⟩ ord resp.key),
      m.RT = rebuildFingers (r.head.map (putUpdate ⟨fileKey, pth⟩ ord resp.key))
        r.identifierSpace m.key := by
    intro m hm
    obtain ⟨m0, hm0, rfl⟩ := List.mem_map.mp hm
    rw [hgRT m0, hgkey m0, rebuildFingers_map _ hgkey]
    exact h4 m0 hm0
  have hs2' : ∃ m ∈ r.head.map (putUpdate ⟨fileKey, pth⟩ ord resp.key), m.key = s2 := by
    obtain ⟨m0, hm0, rfl⟩ := hs2
    exact ⟨putUpdate ⟨fileKey, pth⟩ ord resp.key m0,
      List.mem_map_of_mem _ hm0, hgkey m0⟩
  obtain ⟨p2, hroute2, hpne2, Rm2, hresp2, hplast2, hspec2⟩ :=
    routeToKey_sound_core
      { r with head := r.head.map (putUpdate ⟨fileKey, pth⟩ ord resp.key) }
      h1' h2' h3' h4' s2 fileKey hs2' hk
  have hRkey2 : Rm2.key = Rm.key := by
    apply specSuccessor_unique (r.head.map CircularNode.key) fileKey
    · have h0 : IsSpecSuccessor
          ((r.head.map (putUpdate ⟨fileKey, pth⟩ ord resp.key)).map CircularNode.key)
          fileKey Rm2.key := hspec2
      rw [hmapkey] at h0
      exact h0
    · exact hspec
  cases p2 with
  | nil => exact absurd rfl hpne2
  | cons hd2 tl2 =>
  have hgl2 : (hd2 :: tl2).getLast (List.cons_ne_nil hd2 tl2) = Rm.key := by
    rw [List.getLast?_eq_getLast (hd2 :: tl2) (List.cons_ne_nil hd2 tl2)] at hplast2
    injection hplast2 with hres
    rw [hRkey2] at hres
    exact hres
  have hfind2 : findMachineById (r.head.map (putUpdate ⟨fileKey, pth⟩ ord resp.key))
      Rm.key = some (putUpdate ⟨fileKey, pth⟩ ord resp.key resp) := by
    rw [findMachineById_map _ hgkey, hfind]
    rfl
  have hemp2 : (r.head.map (putUpdate ⟨fileKey, pth⟩ ord resp.key)).isEmpty = false := by
    cases hh : r.head.map (putUpdate ⟨fileKey, pth⟩ ord resp.key) with
    | nil => exact absurd hh h2'
    | cons a b => rfl
  have hgresp : putUpdate ⟨fileKey, pth⟩ ord resp.key resp =
      { resp with btree := insertHelper ⟨fileKey, pth⟩ ord resp.btree } :=
    putUpdate_self _ ord resp.key resp rfl
  have hshn : shapeAt ord 1 (insertHelper ⟨fileKey, pth⟩ ord resp.btree) = true :=
    insertHelper_shape _ ord hord resp.btree (hbt resp hrespmem).1
  have hinew : BTree.inord (insertHelper ⟨fileKey, pth⟩ ord resp.btree) =
      insIn ⟨fileKey, pth⟩ (BTree.inord resp.btree) :=
    insertHelper_inord _ ord hord resp.btree (hbt resp hrespmem).1 (hbt resp hrespmem).2
      (hfresh resp hrespmem)
  have hsortednew : SortedTree (insertHelper ⟨fileKey, pth⟩ ord resp.btree) := by
    unfold SortedTree
    simp only [keysOf]
    rw [hinew]
    exact insIn_sorted ⟨fileKey, pth⟩ (BTree.inord resp.btree) (hbt resp hrespmem).2
      (hfresh resp hrespmem)
  have hmemnew : (⟨fileKey, pth⟩ : FileNode) ∈
      BTree.inord (insertHelper ⟨fileKey, pth⟩ ord resp.btree) := by
    rw [hinew]
    exact (mem_insIn _ _ _).mpr (Or.inl rfl)
  have hsfnew : searchFile fileKey
      ((putUpdate ⟨fileKey, pth⟩ ord resp.key resp).btree) = true := by
    rw [hgresp]
    rw [searchFile_iff ord fileKey _ hshn hsortednew]
    simp only [keysOf]
    exact List.mem_map.mpr ⟨_, hmemnew, rfl⟩
  have hfound : findFile fileKey (insertHelper ⟨fileKey, pth⟩ ord resp.btree) =
      some ⟨fileKey, pth⟩ :=
    findFile_eq ord fileKey _ hshn hsortednew ⟨fileKey, pth⟩ hmemnew rfl
  refine ⟨putUpdate ⟨fileKey, pth⟩ ord resp.key resp, ?_, by rw [hgresp]; exact hfound⟩
  show searchFileWithMachine
      { r with head := r.head.map (putUpdate ⟨fileKey, pth⟩ ord resp.key) } s2 fileKey =
    some (putUpdate ⟨fileKey, pth⟩ ord resp.key resp)
  unfold searchFileWithMachine
  rw [hemp2]
  rw [if_neg (by simp)]
  rw [hroute2]
  simp only []
  rw [hgl2, hfind2]
  simp only []
  rw [if_pos hsfnew]

/-- C7.  Put/get round-trip: on a reachable ring state (sorted non-empty
ring, in-range machine IDs, rebuilt finger tables, well-shaped sorted
per-machine B-trees), for every pair of live start machines and every
in-range file key not yet stored anywhere, the put
(`InsertFileToTree`) from the first start reports success, and the get
(`SearchFile_WithMachine`) of the same key from the second start finds
the responsible machine whose B-tree yields the stored record with that
key and path. -/
theorem put_get_roundtrip (r : CircularLinkedList) (ord : Nat) (hord : 3 ≤ ord)
    (h1 : SortedKeys r.head) (h2 : r.head ≠ [])
    (h3 : ∀ m ∈ r.head, 0 ≤ m.key ∧ m.key < r.identifierSpace)
    (h4 : ∀ m ∈ r.head, m.RT = rebuildFingers r.head r.identifierSpace m.key)
    (hbt : ∀ m ∈ r.head, shapeAt ord 1 m.btree = true ∧ SortedTree m.btree)
    (s s2 fileKey : Int) (pth : String)
    (hs : ringSearch r s = true) (hs2 : ∃ m ∈ r.head, m.key = s2)
    (hk : 0 ≤ fileKey ∧ fileKey < r.identifierSpace)
    (hfresh : ∀ m ∈ r.head, fileKey ∉ keysOf m.btree) :
    (insertFileToTree r s fileKey pth ord).2 = PutOutcome.stored ∧
    ∃ resp, searchFileWithMachine (insertFileToTree r s fileKey pth ord).1 s2 fileKey =
        some resp ∧
      findFile fileKey resp.btree = some ⟨fileKey, pth⟩ :=
  put_get_core r ord hord h1 h2 h3 h4 hbt s s2 fileKey pth hs hs2 hk hfresh

theorem put_get_roundtrip_witness :
    ((3 ≤ 3) ∧ SortedKeys ringW3.head ∧ ringW3.head ≠ [] ∧
      (∀ m ∈ ringW3.head, 0 ≤ m.key ∧ m.key < ringW3.identifierSpace) ∧
      (∀ m ∈ ringW3.head, m.RT = rebuildFingers ringW3.head ringW3.identifierSpace m.key) ∧
      (∀ m ∈ ringW3.head, shapeAt 3 1 m.btree = true ∧ SortedTree m.btree) ∧
      ringSearch ringW3 5 = true ∧ (∃ m ∈ ringW3.head, m.key = 10) ∧
      ((0:Int) ≤ 7 ∧ (7:Int) < ringW3.identifierSpace) ∧
      (∀ m ∈ ringW3.head, (7:Int) ∉ keysOf m.btree)) ∧
    ((insertFileToTree ringW3 5 7 "ipfs/doc" 3).2 = PutOutcome.stored ∧
      ∃ resp, searchFileWithMachine (insertFileToTree ringW3 5 7 "ipfs/doc" 3).1 10 7 =
          some resp ∧
        findFile 7 resp.btree = some ⟨7, "ipfs/doc"⟩) :=
  ⟨⟨by decide, by unfold SortedKeys; decide,
    fun h => absurd (congrArg List.length h) (by decide),
    by decide, by decide, by unfold SortedTree; decide, by decide, by decide, by decide,
    by decide⟩,
   put_get_roundtrip ringW3 3 (by decide) (by unfold SortedKeys; decide)
     (fun h => absurd (congrArg List.length h) (by decide)) (by decide) (by decide)
     (by unfold SortedTree; decide) 5 10 7 "ipfs/doc" (by decide) (by decide) (by decide)
     (by decide)⟩

/-! ## Delete semantics: `inord` of `delhelp` is keyed removal (claim C3) -/
theorem set_eq_take_cons_drop {α : Type} (a : α) : ∀ (i : Nat) (l : List α),
    i < l.length → l.set i a = l.take i ++ a :: l.drop (i + 1) := by
  intro i
  induction i with
  | zero =>
    intro l h
    match l with
    | [] => simp at h
    | b :: t => rfl
  | succ m ih =>
    intro l h
    match l with
    | [] => simp at h
    | b :: t =>
      rw [List.set_cons_succ, List.take_succ_cons, List.drop_succ_cons,
        ih t (by simpa using h), List.cons_append]

theorem take_succ_getD {α : Type} (d : α) : ∀ (i : Nat) (l : List α), i < l.length →
    l.take (i + 1) = l.take i ++ [l.getD i d] := by
  intro i
  induction i with
  | zero =>
    intro l h
    match l with
    | [] => simp at h
    | b :: t => rfl
  | succ m ih =>
    intro l h
    match l with
    | [] => simp at h
    | b :: t =>
      rw [List.take_succ_cons, List.take_succ_cons, List.getD_cons_succ,
        ih t (by simpa using h), List.cons_append]

theorem eraseIdx_eq_take_drop {α : Type} : ∀ (i : Nat) (l : List α),
    l.eraseIdx i = l.take i ++ l.drop (i + 1) := by
  intro i
  induction i with
  | zero =>
    intro l
    match l with
    | [] => rfl
    | b :: t => rfl
  | succ m ih =>
    intro l
    match l with
    | [] => rfl
    | b :: t =>
      rw [List.eraseIdx_cons_succ, List.take_succ_cons, List.drop_succ_cons, ih t,
        List.cons_append]

theorem inordMerge_append2 : ∀ (C : List BTree) (A B : List FileNode) (D : List BTree),
    C.length = A.length →
    inordMerge (A ++ B) (C ++ D) = inordMerge A C ++ inordMerge B D := by
  intro C
  induction C with
  | nil =>
    intro A B D h
    have hA : A = [] := by
      match A with
      | [] => rfl
      | a :: t => rw [List.length_nil] at h; simp at h
    subst hA
    rfl
  | cons c C2 ih =>
    intro A B D h
    match A with
    | [] => rw [List.length_cons, List.length_nil] at h; omega
    | a :: A2 =>
      rw [List.cons_append, List.cons_append, inordMerge_cons, inordMerge_cons,
        List.tail_cons, List.tail_cons, ih A2 B D (by simpa using h)]
      simp [List.append_assoc]

/-! ### `delOut` toolbox -/
theorem delOut_eq_self (k : Int) (l : List FileNode) (h : k ∉ l.map FileNode.key) :
    delOut k l = l := by
  unfold delOut
  apply List.filter_eq_self.mpr
  intro r hr
  simp only [Bool.not_eq_true']
  rw [beq_eq_false_iff_ne]
  intro hc
  exact h (List.mem_map.mpr ⟨r, hr, hc⟩)

theorem delOut_append (k : Int) (A B : List FileNode) :
    delOut k (A ++ B) = delOut k A ++ delOut k B := by
  unfold delOut
  exact List.filter_append A B

theorem delOut_cons_self (k : Int) (v : FileNode) (B : List FileNode) (h : v.key = k) :
    delOut k (v :: B) = delOut k B := by
  unfold delOut
  rw [List.filter_cons, if_neg (by simp [h])]

theorem delOut_of_unique (k : Int) (A : List FileNode) (v : FileNode)
    (B : List FileNode) (hv : v.key = k)
    (hs : List.Pairwise (· < ·) ((A ++ v :: B).map FileNode.key)) :
    delOut k (A ++ v :: B) = A ++ B := by
  rw [delOut_append, delOut_cons_self k v B hv]
  have hA : delOut k A = A := by
    apply delOut_eq_self
    intro hc
    rw [List.map_append, List.pairwise_append] at hs
    have := hs.2.2 k hc v.key (by simp)
    omega
  have hB : delOut k B = B := by
    apply delOut_eq_self
    intro hc
    rw [List.map_append, List.pairwise_append] at hs
    have h2 := hs.2.1
    rw [List.map_cons, List.pairwise_cons] at h2
    have := h2.1 k hc
    omega
  rw [hA, hB]

theorem delOut_sublist (k : Int) (l : List FileNode) : (delOut k l).Sublist l :=
  List.filter_sublist l

theorem delOut_sorted (k : Int) (l : List FileNode)
    (hs : List.Pairwise (· < ·) (l.map FileNode.key)) :
    List.Pairwise (· < ·) ((delOut k l).map FileNode.key) :=
  hs.sublist ((delOut_sublist k l).map FileNode.key)

/-! ### `inord` preservation of the three restore operations -/
theorem inordMerge_nil_single (c : BTree) : inordMerge [] [c] = BTree.inord c := by
  rw [show inordMerge [] [c] = BTree.inord c ++ [] ++ inordMerge [] [] from rfl]
  simp [inordMerge]

theorem inordMerge_append_cons : ∀ (lv : List FileNode) (lc : List BTree)
    (sep : FileNode) (rv : List FileNode) (rc : List BTree),
    lc.length = lv.length + 1 →
    inordMerge (lv ++ sep :: rv) (lc ++ rc) =
      inordMerge lv lc ++ sep :: inordMerge rv rc := by
  intro lv
  induction lv with
  | nil =>
    intro lc sep rv rc h
    match lc with
    | [c] =>
      rw [List.nil_append, List.cons_append, inordMerge_cons, List.tail_cons,
        List.nil_append, inordMerge_nil_single]
      simp
  | cons a lv2 ih =>
    intro lc sep rv rc h
    match lc with
    | c :: lc2 =>
      rw [List.cons_append, List.cons_append, inordMerge_cons, inordMerge_cons,
        List.tail_cons, List.tail_cons, ih lc2 sep rv rc (by simpa using h)]
      simp [List.append_assoc]

theorem cons_tail_getD {α : Type} (l : List α) (d : α) (h : l ≠ []) :
    l.getD 0 d :: l.tail = l := by
  match l with
  | [] => exact absurd rfl h
  | a :: t => rfl

theorem getLastD_eq_getD {α : Type} (l : List α) (d : α) (h : l ≠ []) :
    l.getLastD d = l.getD (l.length - 1) d := by
  have hlen : 1 ≤ l.length := by
    match l with
    | [] => exact absurd rfl h
    | a :: t => simp
  have h1 := getLastD_take l d (l.length - 1) (by omega)
  have h2 : l.length - 1 + 1 = l.length := by omega
  rw [h2, List.take_length] at h1
  exact h1

theorem take_set_self_of {α : Type} (l : List α) (i j : Nat) (a : α)
    (h : i < l.length) (hj : j = i + 1) :
    (l.set i a).take j = l.take i ++ [a] := by
  subst hj
  exact take_succ_set_self l i a h

theorem leftshift_inord (vals : List FileNode) (children : List BTree) (k : Nat)
    (hk1 : 1 ≤ k) (hkn : k ≤ vals.length) (hlen : children.length = vals.length + 1)
    (lv : List FileNode) (lc : List BTree)
    (hcl : children.getD (k - 1) .null = .node lv lc) (hllen : lc.length = lv.length + 1)
    (rv : List FileNode) (rc : List BTree)
    (hcr : children.getD k .null = .node rv rc)
    (hrv : rv ≠ []) (hrc : rc ≠ []) :
    BTree.inord (leftshift vals children k) = inordMerge vals children := by
  have hkm1 : k - 1 + 1 = k := by omega
  unfold leftshift
  rw [hcl, hcr]
  dsimp only [valsOf_node, childrenOf_node]
  rw [inord_node]
  have hset2 : (children.set (k - 1)
        (.node (lv ++ [vals.getD (k - 1) sentinelFile]) (lc ++ [rc.getD 0 .null]))).set k
        (.node rv.tail rc.tail) =
      children.take (k - 1) ++
        (.node (lv ++ [vals.getD (k - 1) sentinelFile]) (lc ++ [rc.getD 0 .null]) ::
          BTree.node rv.tail rc.tail :: children.drop (k + 1)) := by
    rw [set_eq_take_cons_drop _ k _ (by rw [List.length_set]; omega)]
    rw [List.drop_set, if_pos (by omega)]
    rw [take_set_self_of children (k - 1) k _ (by omega) hkm1.symm]
    simp [List.append_assoc]
  have hvset : vals.set (k - 1) (rv.getD 0 sentinelFile) =
      vals.take (k - 1) ++ rv.getD 0 sentinelFile :: vals.drop k := by
    rw [set_eq_take_cons_drop _ (k - 1) vals (by omega), hkm1]
  rw [hset2, hvset]
  rw [inordMerge_append2 (children.take (k - 1)) (vals.take (k - 1)) _ _
    (by rw [List.length_take, List.length_take]; omega)]
  rw [inordMerge_cons, List.tail_cons, inordMerge_cons, tail_drop_eq]
  rw [inord_node, inord_node]
  rw [inordMerge_append_cons lv lc _ [] [rc.getD 0 .null] (by omega),
    inordMerge_nil_single]
  have hold : inordMerge vals children =
      inordMerge (vals.take (k - 1)) (children.take (k - 1)) ++
        inordMerge (vals.getD (k - 1) sentinelFile :: vals.drop k)
          (BTree.node lv lc :: BTree.node rv rc :: children.drop (k + 1)) := by
    conv_lhs => rw [← List.take_append_drop (k - 1) vals,
      ← List.take_append_drop (k - 1) children]
    rw [inordMerge_append2 (children.take (k - 1)) (vals.take (k - 1)) _ _
      (by rw [List.length_take, List.length_take]; omega)]
    congr 1
    rw [← getD_cons_drop vals (k - 1) sentinelFile (by omega), hkm1]
    rw [← getD_cons_drop children (k - 1) .null (by omega), hkm1,
      ← getD_cons_drop children k .null (by omega), hcl, hcr]
  rw [hold]
  rw [inordMerge_cons, List.tail_cons, inordMerge_cons, tail_drop_eq]
  rw [inord_node, inord_node]
  have hrcd : inordMerge rv rc =
      BTree.inord (rc.getD 0 .null) ++ rv.take 1 ++ inordMerge rv.tail rc.tail := by
    conv_lhs => rw [← cons_tail_getD rc .null hrc]
    rw [inordMerge_cons]
  rw [hrcd]
  have hrv1 : rv.take 1 = [rv.getD 0 sentinelFile] := by
    rw [take_succ_getD sentinelFile 0 rv (by
      match rv with
      | [] => exact absurd rfl hrv
      | a :: t => simp)]
    simp
  rw [hrv1]
  simp [List.append_assoc]

theorem rightshift_inord (vals : List FileNode) (children : List BTree) (k : Nat)
    (hk1 : 1 ≤ k) (hkn : k ≤ vals.length) (hlen : children.length = vals.length + 1)
    (lv : List FileNode) (lc : List BTree)
    (hcl : children.getD (k - 1) .null = .node lv lc) (hllen : lc.length = lv.length + 1)
    (hlv : lv ≠ [])
    (rv : List FileNode) (rc : List BTree)
    (hcr : children.getD k .null = .node rv rc) :
    BTree.inord (rightshift vals children k) = inordMerge vals children := by
  have hkm1 : k - 1 + 1 = k := by omega
  have hlc : lc ≠ [] := by
    intro hcon
    have := congrArg List.length hcon
    rw [hllen, List.length_nil] at this
    omega
  unfold rightshift
  rw [hcl, hcr]
  dsimp only [valsOf_node, childrenOf_node]
  rw [inord_node]
  have hset2 : (children.set (k - 1) (.node lv.dropLast lc.dropLast)).set k
        (.node (vals.getD (k - 1) sentinelFile :: rv) (lc.getLastD .null :: rc)) =
      children.take (k - 1) ++
        (BTree.node lv.dropLast lc.dropLast ::
          BTree.node (vals.getD (k - 1) sentinelFile :: rv) (lc.getLastD .null :: rc) ::
            children.drop (k + 1)) := by
    rw [set_eq_take_cons_drop _ k _ (by rw [List.length_set]; omega)]
    rw [List.drop_set, if_pos (by omega)]
    rw [take_set_self_of children (k - 1) k _ (by omega) hkm1.symm]
    simp [List.append_assoc]
  have hvset : vals.set (k - 1) (lv.getLastD sentinelFile) =
      vals.take (k - 1) ++ lv.getLastD sentinelFile :: vals.drop k := by
    rw [set_eq_take_cons_drop _ (k - 1) vals (by omega), hkm1]
  rw [hset2, hvset]
  rw [inordMerge_append2 (children.take (k - 1)) (vals.take (k - 1)) _ _
    (by rw [List.length_take, List.length_take]; omega)]
  rw [inordMerge_cons, List.tail_cons, inordMerge_cons, tail_drop_eq]
  rw [inord_node, inord_node]
  rw [inordMerge_cons, List.tail_cons]
  have hold : inordMerge vals children =
      inordMerge (vals.take (k - 1)) (children.take (k - 1)) ++
        inordMerge (vals.getD (k - 1) sentinelFile :: vals.drop k)
          (BTree.node lv lc :: BTree.node rv rc :: children.drop (k + 1)) := by
    conv_lhs => rw [← List.take_append_drop (k - 1) vals,
      ← List.take_append_drop (k - 1) children]
    rw [inordMerge_append2 (children.take (k - 1)) (vals.take (k - 1)) _ _
      (by rw [List.length_take, List.length_take]; omega)]
    congr 1
    rw [← getD_cons_drop vals (k - 1) sentinelFile (by omega), hkm1]
    rw [← getD_cons_drop children (k - 1) .null (by omega), hkm1,
      ← getD_cons_drop children k .null (by omega), hcl, hcr]
  rw [hold]
  rw [inordMerge_cons, List.tail_cons, inordMerge_cons, tail_drop_eq]
  rw [inord_node, inord_node]
  have hsplit : inordMerge lv lc =
      inordMerge lv.dropLast lc.dropLast ++
        lv.getLastD sentinelFile :: BTree.inord (lc.getLastD .null) := by
    have hlvp : 1 ≤ lv.length := by
      match lv with
      | [] => exact absurd rfl hlv
      | a :: t => simp
    rw [inordMerge_split2 (lv.length - 1) lc lv (by omega) (by omega)]
    rw [getLastD_eq_getD lv sentinelFile hlv, getLastD_eq_getD lc .null hlc]
    have h1 : lv.take (lv.length - 1) = lv.dropLast := by
      rw [List.dropLast_eq_take]
    have h2 : lc.take (lv.length - 1 + 1) = lc.dropLast := by
      rw [List.dropLast_eq_take]
      congr 1
      omega
    have h3 : lv.drop (lv.length - 1 + 1) = [] := by
      apply List.drop_eq_nil_of_le
      omega
    have h4 : lc.drop (lv.length - 1 + 1) = [lc.getD (lc.length - 1) .null] := by
      have h5 : lv.length - 1 + 1 = lc.length - 1 := by omega
      rw [h5, ← getD_cons_drop lc (lc.length - 1) .null (by omega)]
      rw [List.drop_eq_nil_of_le (by omega)]
    rw [h1, h2, h3, h4, inordMerge_nil_single]
  rw [hsplit]
  simp [List.append_assoc]

theorem mergeAt_inord (vals : List FileNode) (children : List BTree) (k : Nat)
    (hk1 : 1 ≤ k) (hkn : k ≤ vals.length) (hlen : children.length = vals.length + 1)
    (lv : List FileNode) (lc : List BTree)
    (hcl : children.getD (k - 1) .null = .node lv lc) (hllen : lc.length = lv.length + 1)
    (rv : List FileNode) (rc : List BTree)
    (hcr : children.getD k .null = .node rv rc) :
    BTree.inord (mergeAt vals children k) = inordMerge vals children := by
  have hkm1 : k - 1 + 1 = k := by omega
  unfold mergeAt
  rw [hcl, hcr]
  dsimp only [valsOf_node, childrenOf_node]
  rw [inord_node]
  have hset2 : ((children.set (k - 1)
        (.node (lv ++ vals.getD (k - 1) sentinelFile :: rv) (lc ++ rc))).eraseIdx k) =
      children.take (k - 1) ++
        (BTree.node (lv ++ vals.getD (k - 1) sentinelFile :: rv) (lc ++ rc) ::
          children.drop (k + 1)) := by
    rw [eraseIdx_eq_take_drop]
    rw [List.drop_set, if_pos (by omega)]
    rw [take_set_self_of children (k - 1) k _ (by omega) hkm1.symm]
    simp [List.append_assoc]
  have hvset : vals.eraseIdx (k - 1) = vals.take (k - 1) ++ vals.drop k := by
    rw [eraseIdx_eq_take_drop, hkm1]
  rw [hset2, hvset]
  rw [inordMerge_append2 (children.take (k - 1)) (vals.take (k - 1)) _ _
    (by rw [List.length_take, List.length_take]; omega)]
  rw [inordMerge_cons, tail_drop_eq]
  rw [inord_node]
  rw [inordMerge_append_cons lv lc _ rv rc (by omega)]
  have hold : inordMerge vals children =
      inordMerge (vals.take (k - 1)) (children.take (k - 1)) ++
        inordMerge (vals.getD (k - 1) sentinelFile :: vals.drop k)
          (BTree.node lv lc :: BTree.node rv rc :: children.drop (k + 1)) := by
    conv_lhs => rw [← List.take_append_drop (k - 1) vals,
      ← List.take_append_drop (k - 1) children]
    rw [inordMerge_append2 (children.take (k - 1)) (vals.take (k - 1)) _ _
      (by rw [List.length_take, List.length_take]; omega)]
    congr 1
    rw [← getD_cons_drop vals (k - 1) sentinelFile (by omega), hkm1]
    rw [← getD_cons_drop children (k - 1) .null (by omega), hkm1,
      ← getD_cons_drop children k .null (by omega), hcl, hcr]
  rw [hold]
  rw [inordMerge_cons, List.tail_cons, inordMerge_cons, tail_drop_eq]
  rw [inord_node, inord_node]
  simp [List.append_assoc]

theorem restoreAt_inord (ord : Nat) (vals1 : List FileNode) (children1 : List BTree)
    (i : Nat)
    (hvpos : 1 ≤ vals1.length)
    (hlen : children1.length = vals1.length + 1)
    (hi : i ≤ vals1.length)
    (hsibs : ∀ j, j < children1.length → j ≠ i →
      ∃ sv sc, children1.getD j .null = .node sv sc ∧ 1 ≤ sv.length ∧
        sc.length = sv.length + 1)
    (uv : List FileNode) (uc : List BTree)
    (hui : children1.getD i .null = .node uv uc) (huc : uc.length = uv.length + 1) :
    BTree.inord (restoreAt (minKeys ord) vals1 children1 i) = inordMerge vals1 children1 := by
  unfold restoreAt
  by_cases h0 : i = 0
  · subst h0
    rw [if_pos rfl]
    obtain ⟨sv, sc, hs1, hsv, hsc⟩ := hsibs 1 (by omega) (by omega)
    have hsvne : sv ≠ [] := by
      intro hcon
      rw [hcon, List.length_nil] at hsv
      omega
    have hscne : sc ≠ [] := by
      intro hcon
      rw [hcon, List.length_nil] at hsc
      omega
    by_cases hc : minKeys ord < (children1.getD 1 .null).countKeys
    · rw [if_pos hc]
      exact leftshift_inord vals1 children1 1 (le_refl 1) (by omega) hlen
        uv uc hui huc sv sc hs1 hsvne hscne
    · rw [if_neg hc]
      exact mergeAt_inord vals1 children1 1 (le_refl 1) (by omega) hlen
        uv uc hui huc sv sc hs1
  · rw [if_neg h0]
    have hi1 : 1 ≤ i := by omega
    by_cases hface : i = vals1.length
    · rw [if_pos hface]
      obtain ⟨sv, sc, hs1, hsv, hsc⟩ := hsibs (i - 1) (by omega) (by omega)
      have hsvne : sv ≠ [] := by
        intro hcon
        rw [hcon, List.length_nil] at hsv
        omega
      by_cases hc : minKeys ord < (children1.getD (i - 1) .null).countKeys
      · rw [if_pos hc]
        exact rightshift_inord vals1 children1 i hi1 hi hlen
          sv sc hs1 hsc hsvne uv uc hui
      · rw [if_neg hc]
        exact mergeAt_inord vals1 children1 i hi1 hi hlen sv sc hs1 hsc uv uc hui
    · rw [if_neg hface]
      obtain ⟨sv, sc, hs1, hsv, hsc⟩ := hsibs (i - 1) (by omega) (by omega)
      have hsvne : sv ≠ [] := by
        intro hcon
        rw [hcon, List.length_nil] at hsv
        omega
      by_cases hc : minKeys ord < (children1.getD (i - 1) .null).countKeys
      · rw [if_pos hc]
        exact rightshift_inord vals1 children1 i hi1 hi hlen
          sv sc hs1 hsc hsvne uv uc hui
      · rw [if_neg hc]
        obtain ⟨sv2, sc2, hs2, hsv2, hsc2⟩ := hsibs (i + 1) (by omega) (by omega)
        have hsv2ne : sv2 ≠ [] := by
          intro hcon
          rw [hcon, List.length_nil] at hsv2
          omega
        have hsc2ne : sc2 ≠ [] := by
          intro hcon
          rw [hcon, List.length_nil] at hsc2
          omega
        by_cases hc2 : minKeys ord < (children1.getD (i + 1) .null).countKeys
        · rw [if_pos hc2]
          exact leftshift_inord vals1 children1 (i + 1) (by omega) (by omega) hlen
            uv uc hui huc sv2 sc2 hs2 hsv2ne hsc2ne
        · rw [if_neg hc2]
          exact mergeAt_inord vals1 children1 i hi1 hi hlen sv sc hs1 hsc uv uc hui

theorem delhelpStep_inord (ord : Nat) (h3 : 3 ≤ ord)
    (vals vals1 : List FileNode) (children : List BTree) (i : Nat)
    (hsh : shapeAt ord 1 (.node vals children) = true)
    (hv1 : vals1.length = vals.length)
    (hi : i ≤ vals.length)
    (r1 : BTree)
    (hr1sh : shapeAt ord (minKeys ord - 1) r1 = true)
    (hrh : r1.height = (children.getD i .null).height) :
    BTree.inord (delhelpStep ord vals1 (children.set i r1) i) =
      inordMerge vals1 (children.set i r1) := by
  rw [shapeAt_node_iff] at hsh
  obtain ⟨hlo, hmax, hlen, hhts, hshl⟩ := hsh
  have hilt : i < children.length := by omega
  unfold delhelpStep
  rw [getD_set_self hilt r1]
  by_cases hcond : (!r1.isNull) = true ∧ r1.countKeys < minKeys ord
  · rw [if_pos hcond]
    cases r1 with
    | null => exact absurd hcond.1 (by simp [BTree.isNull])
    | node uv uc =>
      rw [shapeAt_node_iff] at hr1sh
      apply restoreAt_inord ord vals1 (children.set i (.node uv uc)) i (by omega)
        (by rw [List.length_set]; omega) (by omega)
      · intro j hj hji
        rw [List.length_set] at hj
        rw [getD_set_ne (fun hx => hji hx.symm)]
        have hsj := hshl _ (btree_getD_mem hj)
        rw [shapeN_eq_shapeAt] at hsj
        cases hcj : children.getD j .null with
        | null =>
          exfalso
          have hh := hhts _ (btree_getD_mem hj)
          rw [hcj, height_null] at hh
          have hh2 := hhts _ (btree_getD_mem (l := children) (i := i) hilt)
          rw [← hh] at hh2
          rw [hh2, height_node] at hrh
          omega
        | node sv sc =>
          rw [hcj, shapeAt_node_iff] at hsj
          exact ⟨sv, sc, rfl, by have := minKeys_pos ord; omega, hsj.2.2.1⟩
      · exact getD_set_self hilt _
      · exact hr1sh.2.2.1
  · rw [if_neg hcond]
    rw [inord_node]

theorem take_succ_getD_of {α : Type} (d : α) (l : List α) (i j : Nat)
    (h : i < l.length) (hj : j = i + 1) :
    l.take j = l.take i ++ [l.getD i d] := by
  subst hj
  exact take_succ_getD d i l h

theorem inord_ne_nil (ord : Nat) (t : BTree) (hsh : shapeAt ord 1 t = true)
    (hnn : t.isNull = false) : BTree.inord t ≠ [] := by
  cases t with
  | null => simp [BTree.isNull] at hnn
  | node vals children =>
    rw [shapeAt_node_iff] at hsh
    intro hcon
    rw [inord_node] at hcon
    have hs := vals_sublist_inordMerge children vals
    rw [hcon] at hs
    have := List.sublist_nil.mp hs
    have h2 := congrArg List.length this
    rw [List.length_nil] at h2
    omega

theorem leftmostRecF_head (ord : Nat) : ∀ (fuel : Nat) (t : BTree), t.size < fuel →
    shapeAt ord 1 t = true → t.isNull = false →
    leftmostRecF fuel t = (BTree.inord t).getD 0 sentinelFile := by
  intro fuel
  induction fuel with
  | zero => intro t h _ _; omega
  | succ fuel ih =>
    intro t hsize hsh hnn
    cases t with
    | null => simp [BTree.isNull] at hnn
    | node vals children =>
      rw [shapeAt_node_iff] at hsh
      obtain ⟨hlo, hmax, hlen, hhts, hshl⟩ := hsh
      have hvne : vals ≠ [] := by
        intro hcon
        rw [hcon, List.length_nil] at hlo
        omega
      have hcne : children ≠ [] := by
        intro hcon
        rw [hcon, List.length_nil] at hlen
        omega
      have hc0mem : children.getD 0 .null ∈ children := btree_getD_mem (by omega)
      have hdecomp : BTree.inord (.node vals children) =
          BTree.inord (children.getD 0 .null) ++ vals.take 1 ++
            inordMerge vals.tail children.tail := by
        rw [inord_node]
        conv_lhs => rw [← cons_tail_getD children .null hcne]
        rw [inordMerge_cons]
      by_cases hc0 : (children.getD 0 .null).isNull = true
      · rw [show leftmostRecF (fuel + 1) (.node vals children) =
            (if (children.getD 0 .null).isNull then vals.getD 0 sentinelFile
             else leftmostRecF fuel (children.getD 0 .null)) from rfl,
          if_pos hc0, hdecomp, (isNull_iff _).mp hc0]
        rw [show BTree.inord .null = [] from rfl, List.nil_append]
        rw [take_succ_getD_of sentinelFile vals 0 1 (by
            match vals with
            | [] => exact absurd rfl hvne
            | a :: t => simp) rfl]
        simp
      · have hc0f : (children.getD 0 .null).isNull = false := by
          cases hx : (children.getD 0 .null).isNull
          · rfl
          · exact absurd hx hc0
        have hc0sh : shapeAt ord 1 (children.getD 0 .null) = true := by
          have := hshl _ hc0mem
          rw [shapeN_eq_shapeAt] at this
          exact shapeAt_mono ord (minKeys_pos ord) _ this
        have hc0size : (children.getD 0 .null).size < fuel := by
          have := size_getD_lt children 0 vals
          omega
        rw [show leftmostRecF (fuel + 1) (.node vals children) =
            (if (children.getD 0 .null).isNull then vals.getD 0 sentinelFile
             else leftmostRecF fuel (children.getD 0 .null)) from rfl,
          if_neg (by rw [hc0f]; exact Bool.false_ne_true), hdecomp]
        rw [ih (children.getD 0 .null) hc0size hc0sh hc0f]
        have hne := inord_ne_nil ord (children.getD 0 .null) hc0sh hc0f
        rw [List.append_assoc, List.getD_append]
        · match h0 : BTree.inord (children.getD 0 .null) with
          | [] => exact absurd h0 hne
          | a :: t => simp

theorem leftmostRec_head (ord : Nat) (t : BTree) (hsh : shapeAt ord 1 t = true)
    (hnn : t.isNull = false) :
    leftmostRec t = (BTree.inord t).getD 0 sentinelFile :=
  leftmostRecF_head ord (t.size + 1) t (Nat.lt_succ_self _) hsh hnn

theorem sublist_mid (A : List FileNode) (v : FileNode) (M Y : List FileNode) :
    M.Sublist (A ++ v :: (M ++ Y)) :=
  (((List.sublist_append_left M Y).cons v).trans
    (List.sublist_append_right A (v :: (M ++ Y))))

theorem delhelpF_inord (ord : Nat) (h3 : 3 ≤ ord) :
    ∀ (fuel : Nat) (k : Int) (t : BTree), t.size < fuel → shapeAt ord 1 t = true →
      SortedTree t →
      ((delhelpF ord fuel k t).2 = true ↔ k ∈ keysOf t) ∧
      BTree.inord (delhelpF ord fuel k t).1 =
        (if (delhelpF ord fuel k t).2 = true then delOut k (BTree.inord t)
         else BTree.inord t) := by
  intro fuel
  induction fuel with
  | zero => intro k t h _ _; omega
  | succ fuel ih =>
    intro k t hsize hsh hsorted
    cases t with
    | null =>
      rw [show delhelpF ord (fuel + 1) k .null = (.null, false) from rfl]
      constructor
      · simp [keysOf_null]
      · simp
    | node vals children =>
      have hshX := hsh
      rw [shapeAt_node_iff] at hshX
      obtain ⟨hlo, hmax, hlen, hhts, hshl⟩ := hshX
      have hile := searchNode_le k vals
      have hilt : (searchNode k vals).1 < children.length := by omega
      have hchmem := btree_getD_mem (l := children) (i := (searchNode k vals).1) hilt
      have hchsize : (children.getD (searchNode k vals).1 .null).size < fuel := by
        have := size_getD_lt children (searchNode k vals).1 vals
        omega
      have hchshN : shapeAt ord (minKeys ord)
          (children.getD (searchNode k vals).1 .null) = true := by
        rw [← shapeN_eq_shapeAt]
        exact hshl _ hchmem
      have hchsh1 : shapeAt ord 1 (children.getD (searchNode k vals).1 .null) = true :=
        shapeAt_mono ord (minKeys_pos ord) _ hchshN
      have hvne : vals ≠ [] := by
        intro hcon
        rw [hcon, List.length_nil] at hlo
        omega
      rw [SortedTree, keysOf_node] at hsorted
      have hsv := sorted_vals_of_merge hsorted
      by_cases hsr : (searchNode k vals).2 = true
      · -- the key sits in this node
        have hipos : 1 ≤ (searchNode k vals).1 := searchNode_found_pos k vals hvne hsr
        have hspec := searchNode_spec k vals hvne hsv
        have hkey : (vals.getD ((searchNode k vals).1 - 1) sentinelFile).key = k :=
          (hspec.2.2.2.mp hsr).2
        have hkm1 : (searchNode k vals).1 - 1 + 1 = (searchNode k vals).1 := by omega
        have hkin : k ∈ keysOf (.node vals children) := by
          rw [keysOf_node]
          refine List.mem_map.mpr
            ⟨vals.getD ((searchNode k vals).1 - 1) sentinelFile, ?_, hkey⟩
          refine (vals_sublist_inordMerge children vals).mem ?_
          rw [List.getD_eq_getElem _ _ (by omega)]
          exact List.getElem_mem _
        have holdO : inordMerge vals children =
            (inordMerge (vals.take ((searchNode k vals).1 - 1))
                (children.take ((searchNode k vals).1 - 1)) ++
              BTree.inord (children.getD ((searchNode k vals).1 - 1) .null)) ++
            vals.getD ((searchNode k vals).1 - 1) sentinelFile ::
              (BTree.inord (children.getD (searchNode k vals).1 .null) ++
                ((vals.drop (searchNode k vals).1).take 1 ++
                  inordMerge (vals.drop ((searchNode k vals).1 + 1))
                    (children.drop ((searchNode k vals).1 + 1)))) := by
          conv_lhs => rw [← List.take_append_drop ((searchNode k vals).1 - 1) vals,
            ← List.take_append_drop ((searchNode k vals).1 - 1) children]
          rw [inordMerge_append2 _ _ _ _
            (by rw [List.length_take, List.length_take]; omega)]
          rw [← getD_cons_drop vals ((searchNode k vals).1 - 1) sentinelFile (by omega),
            hkm1]
          rw [← getD_cons_drop children ((searchNode k vals).1 - 1) .null (by omega),
            hkm1, ← getD_cons_drop children (searchNode k vals).1 .null (by omega)]
          rw [inordMerge_cons, List.tail_cons, inordMerge_cons, tail_drop_eq]
          simp [List.append_assoc]
        have hsorted2 := hsorted
        rw [holdO] at hsorted2
        have hdelO : delOut k (inordMerge vals children) =
            (inordMerge (vals.take ((searchNode k vals).1 - 1))
                (children.take ((searchNode k vals).1 - 1)) ++
              BTree.inord (children.getD ((searchNode k vals).1 - 1) .null)) ++
              (BTree.inord (children.getD (searchNode k vals).1 .null) ++
                ((vals.drop (searchNode k vals).1).take 1 ++
                  inordMerge (vals.drop ((searchNode k vals).1 + 1))
                    (children.drop ((searchNode k vals).1 + 1)))) := by
          rw [holdO]
          exact delOut_of_unique k _ _ _ hkey hsorted2
        by_cases hnn1 : (children.getD ((searchNode k vals).1 - 1) .null).isNull = false
        · -- internal node: swap in the in-order successor and delete it below
          have hci_nn : (children.getD (searchNode k vals).1 .null).isNull = false := by
            apply height_pos_isNull
            have h1 := hhts _ (btree_getD_mem (l := children)
              (i := (searchNode k vals).1 - 1) (by omega))
            have h2 := hhts _ hchmem
            cases hcim1 : children.getD ((searchNode k vals).1 - 1) .null with
            | null => rw [hcim1] at hnn1; simp [BTree.isNull] at hnn1
            | node a b =>
              rw [hcim1, height_node] at h1
              omega
          have hchsorted : SortedTree (children.getD (searchNode k vals).1 .null) := by
            rw [SortedTree]
            simp only [keysOf]
            apply hsorted2.sublist
            exact (sublist_mid _ _ _ _).map FileNode.key
          cases hres : delhelpF ord fuel
              (leftmostRec (children.getD (searchNode k vals).1 .null)).key
              (children.getD (searchNode k vals).1 .null) with
          | mk r1 rb =>
          have ihc := ih (leftmostRec (children.getD (searchNode k vals).1 .null)).key
            (children.getD (searchNode k vals).1 .null) hchsize hchsh1 hchsorted
          rw [hres] at ihc
          have hlm : leftmostRec (children.getD (searchNode k vals).1 .null) =
              (BTree.inord (children.getD (searchNode k vals).1 .null)).getD 0
                sentinelFile :=
            leftmostRec_head ord _ hchsh1 hci_nn
          have hciine := inord_ne_nil ord _ hchsh1 hci_nn
          have hcicons : BTree.inord (children.getD (searchNode k vals).1 .null) =
              leftmostRec (children.getD (searchNode k vals).1 .null) ::
                (BTree.inord (children.getD (searchNode k vals).1 .null)).tail := by
            rw [hlm]
            exact (cons_tail_getD _ _ hciine).symm
          have hlmmem : (leftmostRec (children.getD (searchNode k vals).1 .null)).key ∈
              keysOf (children.getD (searchNode k vals).1 .null) := by
            simp only [keysOf]
            refine List.mem_map.mpr ⟨_, ?_, rfl⟩
            rw [hcicons]
            exact List.mem_cons_self _ _
          have hrb : rb = true := ihc.1.mpr hlmmem
          subst hrb
          have hchsorted2 : List.Pairwise (· < ·)
              ((BTree.inord (children.getD (searchNode k vals).1 .null)).map
                FileNode.key) := hchsorted
          have hr1inord : BTree.inord r1 =
              (BTree.inord (children.getD (searchNode k vals).1 .null)).tail := by
            have h0 := ihc.2
            rw [if_pos rfl] at h0
            rw [h0]
            conv_lhs => rw [hcicons]
            have hu := delOut_of_unique
              (leftmostRec (children.getD (searchNode k vals).1 .null)).key []
              (leftmostRec (children.getD (searchNode k vals).1 .null))
              (BTree.inord (children.getD (searchNode k vals).1 .null)).tail rfl
              (by rw [← hcicons]; exact hchsorted2)
            simpa using hu
          have hshp := delhelpF_shape ord h3 fuel
            (leftmostRec (children.getD (searchNode k vals).1 .null)).key
            (children.getD (searchNode k vals).1 .null) (minKeys ord) hchsize
            (minKeys_pos ord) (le_refl _) hchshN
          rw [hres] at hshp
          have heq : delhelpF ord (fuel + 1) k (.node vals children) =
              (delhelpStep ord
                (vals.set ((searchNode k vals).1 - 1)
                  (leftmostRec (children.getD (searchNode k vals).1 .null)))
                (children.set (searchNode k vals).1 r1) (searchNode k vals).1, true) := by
            simp only [delhelpF, delhelpStep, hsr, hnn1, Bool.not_false, if_true, hres]
            split <;> rfl
          rw [heq]
          refine ⟨⟨fun _ => hkin, fun _ => rfl⟩, ?_⟩
          rw [if_pos rfl]
          rw [delhelpStep_inord ord h3 vals _ children _ hsh (List.length_set _ _ _)
            hile r1 hshp.1 hshp.2.1]
          have hnew : inordMerge
              (vals.set ((searchNode k vals).1 - 1)
                (leftmostRec (children.getD (searchNode k vals).1 .null)))
              (children.set (searchNode k vals).1 r1) =
              inordMerge (vals.take ((searchNode k vals).1 - 1))
                  (children.take ((searchNode k vals).1 - 1)) ++
                (BTree.inord (children.getD ((searchNode k vals).1 - 1) .null) ++
                  (leftmostRec (children.getD (searchNode k vals).1 .null) ::
                    (BTree.inord r1 ++
                      ((vals.drop (searchNode k vals).1).take 1 ++
                        inordMerge (vals.drop ((searchNode k vals).1 + 1))
                          (children.drop ((searchNode k vals).1 + 1)))))) := by
            rw [set_eq_take_cons_drop _ ((searchNode k vals).1 - 1) vals (by omega), hkm1]
            rw [set_eq_take_cons_drop _ (searchNode k vals).1 children (by omega)]
            rw [take_succ_getD_of .null children ((searchNode k vals).1 - 1)
              (searchNode k vals).1 (by omega) hkm1.symm]
            rw [List.append_assoc]
            rw [inordMerge_append2 _ _ _ _
              (by rw [List.length_take, List.length_take]; omega)]
            rw [List.singleton_append, inordMerge_cons, List.tail_cons, inordMerge_cons,
              tail_drop_eq]
            simp [List.append_assoc]
          rw [inord_node, hnew, hdelO, hr1inord]
          conv_rhs => rw [hcicons]
          simp [List.append_assoc]
        · -- leaf: erase the record
          have hnn1t : (children.getD ((searchNode k vals).1 - 1) .null).isNull = true := by
            cases hx : (children.getD ((searchNode k vals).1 - 1) .null).isNull
            · exact absurd hx hnn1
            · rfl
          have hallnull : ∀ c ∈ children, c = .null := by
            have hm1 : children.getD ((searchNode k vals).1 - 1) .null ∈ children :=
              btree_getD_mem (by omega)
            have h0 : (children.getD ((searchNode k vals).1 - 1) .null).height = 0 := by
              rw [(isNull_iff _).mp hnn1t, height_null]
            have hl0 : heightList children = 0 := by
              rw [← hhts _ hm1, h0]
            intro c hc
            have := hhts c hc
            rw [hl0] at this
            exact (height_eq_zero_iff c).mp this
          have hnul : (children.eraseIdx (searchNode k vals).1).getD
              (searchNode k vals).1 .null = .null := by
            by_cases hlt : (searchNode k vals).1 < (children.eraseIdx
                (searchNode k vals).1).length
            · exact hallnull _ (List.eraseIdx_subset _ _ (btree_getD_mem hlt))
            · exact getD_of_ge (by omega)
          have heq : delhelpF ord (fuel + 1) k (.node vals children) =
              (.node (vals.eraseIdx ((searchNode k vals).1 - 1))
                (children.eraseIdx (searchNode k vals).1), true) := by
            have hn0 : BTree.null.isNull = true := rfl
            simp only [delhelpF, hsr, hnn1t, Bool.not_true, if_true, Bool.false_eq_true,
              if_false, hnul, hn0, false_and, and_false]
          rw [heq]
          refine ⟨⟨fun _ => hkin, fun _ => rfl⟩, ?_⟩
          rw [if_pos rfl]
          have hcinull : children.getD (searchNode k vals).1 .null = .null :=
            hallnull _ hchmem
          have hnew : inordMerge (vals.eraseIdx ((searchNode k vals).1 - 1))
              (children.eraseIdx (searchNode k vals).1) =
              inordMerge (vals.take ((searchNode k vals).1 - 1))
                  (children.take ((searchNode k vals).1 - 1)) ++
                (BTree.inord (children.getD ((searchNode k vals).1 - 1) .null) ++
                  ((vals.drop (searchNode k vals).1).take 1 ++
                    inordMerge (vals.drop ((searchNode k vals).1 + 1))
                      (children.drop ((searchNode k vals).1 + 1)))) := by
            rw [eraseIdx_eq_take_drop ((searchNode k vals).1 - 1) vals, hkm1]
            rw [eraseIdx_eq_take_drop (searchNode k vals).1 children]
            rw [take_succ_getD_of .null children ((searchNode k vals).1 - 1)
              (searchNode k vals).1 (by omega) hkm1.symm]
            rw [List.append_assoc]
            rw [inordMerge_append2 _ _ _ _
              (by rw [List.length_take, List.length_take]; omega)]
            rw [List.singleton_append, inordMerge_cons, tail_drop_eq]
            simp [List.append_assoc]
          rw [inord_node, hnew, inord_node, hdelO, hcinull]
          rw [show BTree.inord .null = [] from rfl]
          simp [List.append_assoc]
      · -- not found here: recurse into the child
        have hb : (searchNode k vals).2 = false := by
          cases hx : (searchNode k vals).2
          · rfl
          · exact absurd hx hsr
        have hctx := node_ctx k vals children hlen hvne hsorted hb
        cases hres : delhelpF ord fuel k (children.getD (searchNode k vals).1 .null) with
        | mk r1 rb =>
        have ihc := ih k (children.getD (searchNode k vals).1 .null) hchsize hchsh1
          hctx.2.2
        rw [hres] at ihc
        have hshp := delhelpF_shape ord h3 fuel k
          (children.getD (searchNode k vals).1 .null) (minKeys ord) hchsize
          (minKeys_pos ord) (le_refl _) hchshN
        rw [hres] at hshp
        have heq : delhelpF ord (fuel + 1) k (.node vals children) =
            (delhelpStep ord vals (children.set (searchNode k vals).1 r1)
              (searchNode k vals).1, rb) := by
          simp only [delhelpF, delhelpStep, hb, Bool.false_eq_true, if_false, hres]
          split <;> rfl
        rw [heq]
        have holdO2 : inordMerge vals children =
            inordMerge (vals.take (searchNode k vals).1)
                (children.take (searchNode k vals).1) ++
              (BTree.inord (children.getD (searchNode k vals).1 .null) ++
                ((vals.drop (searchNode k vals).1).take 1 ++
                  inordMerge (vals.drop ((searchNode k vals).1 + 1))
                    (children.drop ((searchNode k vals).1 + 1)))) := by
          conv_lhs => rw [← List.take_append_drop (searchNode k vals).1 vals,
            ← List.take_append_drop (searchNode k vals).1 children]
          rw [inordMerge_append2 _ _ _ _
            (by rw [List.length_take, List.length_take]; omega)]
          rw [← getD_cons_drop children (searchNode k vals).1 .null (by omega)]
          rw [inordMerge_cons, tail_drop_eq]
          simp [List.append_assoc]
        have hmemiff : (k ∈ keysOf (.node vals children)) ↔
            k ∈ keysOf (children.getD (searchNode k vals).1 .null) := by
          rw [keysOf_node, holdO2]
          simp only [keysOf, List.map_append, List.mem_append]
          constructor
          · rintro (h | h | h | h)
            · exfalso
              obtain ⟨x, hx, hxk⟩ := List.mem_map.mp h
              have := hctx.1 x hx
              omega
            · exact h
            · exfalso
              obtain ⟨x, hx, hxk⟩ := List.mem_map.mp h
              have := hctx.2.1 x (List.mem_append.mpr (Or.inl hx))
              omega
            · exfalso
              obtain ⟨x, hx, hxk⟩ := List.mem_map.mp h
              have := hctx.2.1 x (List.mem_append.mpr (Or.inr hx))
              omega
          · intro h
            exact Or.inr (Or.inl h)
        have hkP : k ∉ (inordMerge (vals.take (searchNode k vals).1)
            (children.take (searchNode k vals).1)).map FileNode.key := by
          intro hc
          obtain ⟨x, hx, hxk⟩ := List.mem_map.mp hc
          have := hctx.1 x hx
          omega
        have hkMQ : k ∉ ((vals.drop (searchNode k vals).1).take 1 ++
            inordMerge (vals.drop ((searchNode k vals).1 + 1))
              (children.drop ((searchNode k vals).1 + 1))).map FileNode.key := by
          intro hc
          obtain ⟨x, hx, hxk⟩ := List.mem_map.mp hc
          have := hctx.2.1 x hx
          omega
        have hnew2 : inordMerge vals (children.set (searchNode k vals).1 r1) =
            inordMerge (vals.take (searchNode k vals).1)
                (children.take (searchNode k vals).1) ++
              (BTree.inord r1 ++
                ((vals.drop (searchNode k vals).1).take 1 ++
                  inordMerge (vals.drop ((searchNode k vals).1 + 1))
                    (children.drop ((searchNode k vals).1 + 1)))) := by
          have step1 : inordMerge vals (children.set (searchNode k vals).1 r1) =
              inordMerge
                (vals.take (searchNode k vals).1 ++ vals.drop (searchNode k vals).1)
                (children.take (searchNode k vals).1 ++
                  r1 :: children.drop ((searchNode k vals).1 + 1)) := by
            rw [set_eq_take_cons_drop _ (searchNode k vals).1 children (by omega)]
            rw [List.take_append_drop]
          rw [step1, inordMerge_append2 (children.take (searchNode k vals).1)
            (vals.take (searchNode k vals).1) _ _
            (by rw [List.length_take, List.length_take]; omega)]
          rw [inordMerge_cons, tail_drop_eq]
          simp [List.append_assoc]
        constructor
        · rw [show (delhelpStep ord vals (children.set (searchNode k vals).1 r1)
              (searchNode k vals).1, rb).2 = rb from rfl]
          exact ihc.1.trans hmemiff.symm
        · rw [show (delhelpStep ord vals (children.set (searchNode k vals).1 r1)
              (searchNode k vals).1, rb).2 = rb from rfl]
          rw [delhelpStep_inord ord h3 vals vals children (searchNode k vals).1 hsh rfl
            hile r1 hshp.1 hshp.2.1]
          by_cases hrb : rb = true
          · rw [if_pos hrb]
            have hr1 : BTree.inord r1 =
                delOut k (BTree.inord (children.getD (searchNode k vals).1 .null)) := by
              have h0 := ihc.2
              rw [if_pos hrb] at h0
              exact h0
            rw [inord_node, holdO2, delOut_append, delOut_append,
              delOut_eq_self k _ hkP, delOut_eq_self k _ hkMQ, hnew2, hr1]
          · rw [if_neg hrb]
            have hr1 : BTree.inord r1 =
                BTree.inord (children.getD (searchNode k vals).1 .null) := by
              have h0 := ihc.2
              rw [if_neg hrb] at h0
              exact h0
            rw [inord_node, holdO2, hnew2, hr1]

theorem deleteHelper_inord (ord : Nat) (h3 : 3 ≤ ord) (k : Int) (t : BTree)
    (hsh : shapeAt ord 1 t = true) (hsorted : SortedTree t) :
    BTree.inord (deleteHelper ord k t) = delOut k (BTree.inord t) := by
  unfold deleteHelper delRoot
  cases t with
  | null => rfl
  | node vals children =>
    have hmain := delhelpF_inord ord h3 ((BTree.node vals children).size + 1) k
      (.node vals children) (Nat.lt_succ_self _) hsh hsorted
    have hshape := delhelpF_shape ord h3 ((BTree.node vals children).size + 1) k
      (.node vals children) 1 (Nat.lt_succ_self _) (le_refl _) (minKeys_pos ord) hsh
    cases hres : delhelp ord k (.node vals children) with
    | mk r1 rb =>
      have hres2 : delhelpF ord ((BTree.node vals children).size + 1) k
          (.node vals children) = (r1, rb) := hres
      rw [hres2] at hmain hshape
      show BTree.inord
          (let r := delhelp ord k (.node vals children)
           if r.2 then
             match r.1 with
             | BTree.node [] ch => ch.getD 0 .null
             | t1 => t1
           else r.1) = delOut k (BTree.inord (.node vals children))
      rw [hres]
      cases rb with
      | false =>
        show BTree.inord r1 = delOut k (BTree.inord (.node vals children))
        have hnotin : k ∉ keysOf (.node vals children) := by
          intro hc
          have := hmain.1.mpr hc
          simp at this
        rw [delOut_eq_self k _ hnotin]
        have h0 := hmain.2
        rw [if_neg (by simp)] at h0
        exact h0
      | true =>
        have h0 := hmain.2
        rw [if_pos rfl] at h0
        have hnn : r1.isNull = false := hshape.2.2.1
        cases r1 with
        | null => simp [BTree.isNull] at hnn
        | node rv rc =>
          cases rv with
          | nil =>
            show BTree.inord (rc.getD 0 .null) = delOut k (BTree.inord (.node vals children))
            have hsh1 := hshape.1
            rw [shapeAt_node_iff] at hsh1
            have hrc1 : rc.length = 1 := by
              have := hsh1.2.2.1
              rw [List.length_nil] at this
              omega
            match rc, hrc1 with
            | [c], _ =>
              rw [show ([c] : List BTree).getD 0 .null = c from rfl, ← inordMerge_nil_single c]
              rw [← inord_node, h0]
          | cons v rv2 =>
            show BTree.inord (.node (v :: rv2) rc) = delOut k (BTree.inord (.node vals children))
            exact h0

/-! ### The BFS record collection is a permutation of the in-order list -/
theorem join_inord_filter_nonnull : ∀ (cs : List BTree),
    ((cs.filter (fun c => !c.isNull)).map BTree.inord).flatten =
      (cs.map BTree.inord).flatten := by
  intro cs
  induction cs with
  | nil => rfl
  | cons c cs2 ih =>
    rw [List.filter_cons]
    cases c with
    | null =>
      rw [if_neg (by simp [BTree.isNull])]
      rw [List.map_cons, List.flatten_cons, ih]
      rw [show BTree.inord .null = [] from rfl, List.nil_append]
    | node vals gc =>
      rw [if_pos (by simp [BTree.isNull])]
      rw [List.map_cons, List.flatten_cons, List.map_cons, List.flatten_cons, ih]

theorem inordMerge_perm : ∀ (cs : List BTree) (vals : List FileNode),
    (inordMerge vals cs).Perm (vals ++ (cs.map BTree.inord).flatten) := by
  intro cs
  induction cs with
  | nil =>
    intro vals
    rw [inordMerge_nil, List.map_nil, List.flatten_nil, List.append_nil]
  | cons c cs2 ih =>
    intro vals
    rw [inordMerge_cons, List.map_cons, List.flatten_cons]
    have h1 : (BTree.inord c ++ List.take 1 vals ++ inordMerge vals.tail cs2).Perm
        (BTree.inord c ++ List.take 1 vals ++
          (vals.tail ++ (cs2.map BTree.inord).flatten)) :=
      List.Perm.append_left (BTree.inord c ++ List.take 1 vals) (ih vals.tail)
    have h2 : BTree.inord c ++ List.take 1 vals ++
        (vals.tail ++ (cs2.map BTree.inord).flatten) =
        BTree.inord c ++ (vals ++ (cs2.map BTree.inord).flatten) := by
      rw [List.append_assoc, ← List.append_assoc (List.take 1 vals) vals.tail,
        ← List.drop_one, List.take_append_drop]
    have h12 : (BTree.inord c ++ List.take 1 vals ++ inordMerge vals.tail cs2).Perm
        (BTree.inord c ++ (vals ++ (cs2.map BTree.inord).flatten)) := by
      rw [← h2]
      exact h1
    have h3 : (BTree.inord c ++ (vals ++ (cs2.map BTree.inord).flatten)).Perm
        (vals ++ (BTree.inord c ++ (cs2.map BTree.inord).flatten)) := by
      rw [← List.append_assoc, ← List.append_assoc]
      exact (List.perm_append_comm).append_right _
    exact h12.trans h3

theorem bfsFilesF_perm : ∀ (fuel : Nat) (q : List BTree), queueFuel q ≤ fuel →
    (bfsFilesF fuel q).Perm ((q.map BTree.inord).flatten) := by
  intro fuel
  induction fuel with
  | zero =>
    intro q hq
    match q with
    | [] => exact List.Perm.refl _
    | t :: rest =>
      exfalso
      rw [queueFuel_cons] at hq
      have : 1 ≤ popWeight t := by
        unfold popWeight
        cases t with
        | null => simp [BTree.isNull]
        | node vals cs => simp [BTree.isNull, BTree.size]
      omega
  | succ fuel ih =>
    intro q hq
    match q with
    | [] => exact List.Perm.refl _
    | .null :: rest =>
      rw [show bfsFilesF (fuel + 1) (.null :: rest) = bfsFilesF fuel rest from rfl]
      rw [List.map_cons, List.flatten_cons, show BTree.inord .null = [] from rfl,
        List.nil_append]
      apply ih
      rw [queueFuel_cons] at hq
      have : popWeight .null = 1 := rfl
      omega
    | .node vals children :: rest =>
      rw [show bfsFilesF (fuel + 1) (.node vals children :: rest) =
        vals ++ bfsFilesF fuel (rest ++ children.filter (fun c => !c.isNull)) from rfl]
      rw [List.map_cons, List.flatten_cons]
      have hfq : queueFuel (rest ++ children.filter (fun c => !c.isNull)) ≤ fuel := by
        rw [queueFuel_append, queueFuel_filter_nonnull]
        rw [queueFuel_cons] at hq
        have : popWeight (.node vals children) = 1 + sizeList children := by
          unfold popWeight
          rw [show (BTree.node vals children).isNull = false from rfl]
          simp [BTree.size]
        omega
      have h1 := (ih _ hfq).append_left vals
      have h2 : ((rest ++ children.filter (fun c => !c.isNull)).map BTree.inord).flatten =
          (rest.map BTree.inord).flatten ++ (children.map BTree.inord).flatten := by
        rw [List.map_append, List.flatten_append, join_inord_filter_nonnull]
      rw [h2] at h1
      refine h1.trans ?_
      have h3 : (vals ++ ((rest.map BTree.inord).flatten ++
          (children.map BTree.inord).flatten)).Perm
          ((vals ++ (children.map BTree.inord).flatten) ++
            (rest.map BTree.inord).flatten) := by
        rw [List.append_assoc]
        exact List.Perm.append_left vals List.perm_append_comm
      refine h3.trans ?_
      apply List.Perm.append_right
      exact (inordMerge_perm children vals).symm

theorem getAllFiles_perm (t : BTree) : t.getAllFiles.Perm (BTree.inord t) := by
  unfold BTree.getAllFiles
  cases t with
  | null => exact List.Perm.refl []
  | node vals children =>
    rw [if_neg (by simp [BTree.isNull])]
    unfold bfsFiles
    have h := bfsFilesF_perm (queueFuel [.node vals children]) [.node vals children]
      (le_refl _)
    refine h.trans ?_
    rw [List.map_cons, List.map_nil, List.flatten_cons, List.flatten_nil,
      List.append_nil]

/-! ### Bulk insert and bulk delete accounting -/
theorem insIn_perm (f : FileNode) (l : List FileNode) : (insIn f l).Perm (f :: l) := by
  unfold insIn
  refine List.Perm.trans List.perm_middle ?_
  rw [List.takeWhile_append_dropWhile]

theorem foldl_insert_inord (ord : Nat) (h3 : 3 ≤ ord) :
    ∀ (fs : List FileNode) (t : BTree),
      shapeAt ord 1 t = true → SortedTree t →
      (fs.map FileNode.key).Nodup → (∀ f ∈ fs, f.key ∉ keysOf t) →
      shapeAt ord 1 (fs.foldl (fun t f => insertHelper f ord t) t) = true ∧
      SortedTree (fs.foldl (fun t f => insertHelper f ord t) t) ∧
      (BTree.inord (fs.foldl (fun t f => insertHelper f ord t) t)).Perm
        (BTree.inord t ++ fs) := by
  intro fs
  induction fs with
  | nil =>
    intro t hsh hs _ _
    exact ⟨hsh, hs, by simp⟩
  | cons f fs2 ih =>
    intro t hsh hs hnd hdis
    rw [List.foldl_cons]
    have hfresh : f.key ∉ keysOf t := hdis f (List.mem_cons_self f fs2)
    have hsh1 : shapeAt ord 1 (insertHelper f ord t) = true :=
      insertHelper_shape f ord h3 t hsh
    have hin : BTree.inord (insertHelper f ord t) = insIn f (BTree.inord t) :=
      insertHelper_inord f ord h3 t hsh hs hfresh
    have hs1 : SortedTree (insertHelper f ord t) := by
      rw [SortedTree]
      simp only [keysOf]
      rw [hin]
      exact insIn_sorted f (BTree.inord t) hs hfresh
    have hkeys1 : ∀ g ∈ fs2, g.key ∉ keysOf (insertHelper f ord t) := by
      intro g hg hc
      simp only [keysOf] at hc
      rw [hin] at hc
      rcases (mem_map_key_insIn f (BTree.inord t) g.key).mp hc with h | h
      · rw [List.map_cons, List.nodup_cons] at hnd
        exact hnd.1 (h ▸ List.mem_map.mpr ⟨g, hg, rfl⟩)
      · exact hdis g (List.mem_cons_of_mem f hg) h
    have hnd2 : (fs2.map FileNode.key).Nodup := by
      rw [List.map_cons, List.nodup_cons] at hnd
      exact hnd.2
    obtain ⟨ha, hb, hc⟩ := ih (insertHelper f ord t) hsh1 hs1 hnd2 hkeys1
    refine ⟨ha, hb, ?_⟩
    refine hc.trans ?_
    rw [hin]
    refine ((insIn_perm f (BTree.inord t)).append_right fs2).trans ?_
    rw [List.cons_append]
    exact List.perm_middle.symm

theorem foldl_delete_inord (ord : Nat) (h3 : 3 ≤ ord) :
    ∀ (fs : List FileNode) (t : BTree),
      shapeAt ord 1 t = true → SortedTree t →
      shapeAt ord 1 (fs.foldl (fun t f => deleteHelper ord f.key t) t) = true ∧
      SortedTree (fs.foldl (fun t f => deleteHelper ord f.key t) t) ∧
      BTree.inord (fs.foldl (fun t f => deleteHelper ord f.key t) t) =
        (BTree.inord t).filter (fun r => !(fs.any (fun f => f.key == r.key))) := by
  intro fs
  induction fs with
  | nil =>
    intro t hsh hs
    refine ⟨hsh, hs, ?_⟩
    rw [List.foldl_nil]
    rw [List.filter_eq_self.mpr]
    intro r _
    simp
  | cons f fs2 ih =>
    intro t hsh hs
    rw [List.foldl_cons]
    have hsh1 : shapeAt ord 1 (deleteHelper ord f.key t) = true :=
      deleteHelper_shape ord h3 f.key t hsh
    have hin : BTree.inord (deleteHelper ord f.key t) = delOut f.key (BTree.inord t) :=
      deleteHelper_inord ord h3 f.key t hsh hs
    have hs1 : SortedTree (deleteHelper ord f.key t) := by
      rw [SortedTree]
      simp only [keysOf]
      rw [hin]
      exact delOut_sorted f.key (BTree.inord t) hs
    obtain ⟨ha, hb, hc⟩ := ih (deleteHelper ord f.key t) hsh1 hs1
    refine ⟨ha, hb, ?_⟩
    rw [hc, hin]
    unfold delOut
    rw [List.filter_filter]
    apply List.filter_congr
    intro r _
    simp only [List.any_cons, Bool.not_or]
    rw [Bool.and_comm]
    congr 2
    by_cases hx : f.key = r.key
    · rw [hx]
    · have hx2 : ¬ r.key = f.key := fun h => hx h.symm
      rw [beq_eq_false_iff_ne.mpr hx2, beq_eq_false_iff_ne.mpr hx]

/-! ### Structure of the ring right after the splice -/
theorem mem_ringInsert (r : CircularLinkedList) (v : Int) :
    ∀ m ∈ (ringInsert r v).head,
      m = { key := v, RT := initFingers v r.identifierSpace, btree := .null } ∨
        m ∈ r.head := by
  unfold ringInsert
  cases hh : r.head with
  | nil =>
    intro m hm
    simp only [List.mem_singleton] at hm
    exact Or.inl hm
  | cons c rest =>
    intro m hm
    dsimp only at hm
    by_cases h : v < c.key
    · rw [if_pos h] at hm
      rcases List.mem_cons.mp hm with rfl | hm2
      · exact Or.inl rfl
      · exact Or.inr (hh ▸ hm2)
    · rw [if_neg h] at hm
      rcases mem_ringInsertAux v _ _ m hm with rfl | hm2
      · exact Or.inl rfl
      · exact Or.inr (hh ▸ hm2)

theorem updateRT_head_map (r : CircularLinkedList) (h : r.head ≠ []) :
    (updateRT r).head = r.head.map fun m =>
      { m with RT := rebuildFingers r.head r.identifierSpace m.key } := by
  unfold updateRT
  rw [if_neg (by
    cases hh : r.head with
    | nil => exact absurd hh h
    | cons a b => simp)]

/-- Every machine of the spliced-and-retabled ring: the fresh one carries
an empty B-tree, every other carries the B-tree of the machine of the
original ring with the same ID. -/
theorem spliced_structure (r : CircularLinkedList) (v : Int)
    (hfresh : ∀ m ∈ r.head, m.key ≠ v) :
    ∀ m ∈ (updateRT (ringInsert r v)).head,
      (m.key = v → m.btree = .null) ∧
      (m.key ≠ v → ∃ m0 ∈ r.head, m0.key = m.key ∧ m0.btree = m.btree) := by
  intro m hm
  have hne : (ringInsert r v).head ≠ [] := by
    intro hcon
    have := congrArg List.length (congrArg (List.map CircularNode.key) hcon)
    rw [(ringInsert_keys_perm r v).length_eq] at this
    simp at this
  rw [updateRT_head_map _ hne] at hm
  obtain ⟨m0, hm0, rfl⟩ := List.mem_map.mp hm
  rcases mem_ringInsert r v m0 hm0 with rfl | hm0r
  · constructor
    · intro _
      rfl
    · intro hc
      exact absurd rfl hc
  · constructor
    · intro hkv
      exact absurd hkv (hfresh m0 hm0r)
    · intro _
      exact ⟨m0, hm0r, rfl, rfl⟩

theorem handoffUpdate_key (toMove : List FileNode) (ord : Nat) (nmKey sKey : Int)
    (m : CircularNode) : (handoffUpdate toMove ord nmKey sKey m).key = m.key := by
  unfold handoffUpdate
  split
  · rfl
  · split
    · rfl
    · rfl

theorem handoffUpdate_nm (toMove : List FileNode) (ord : Nat) (nmKey sKey : Int)
    (m : CircularNode) (h : m.key = nmKey) :
    handoffUpdate toMove ord nmKey sKey m =
      { m with btree := toMove.foldl (fun t f => insertHelper f ord t) m.btree } := by
  unfold handoffUpdate
  rw [if_pos (by simp [h])]

theorem handoffUpdate_s (toMove : List FileNode) (ord : Nat) (nmKey sKey : Int)
    (m : CircularNode) (h1 : ¬ m.key = nmKey) (h2 : m.key = sKey) :
    handoffUpdate toMove ord nmKey sKey m =
      { m with btree := toMove.foldl (fun t f => deleteHelper ord f.key t) m.btree } := by
  unfold handoffUpdate
  rw [if_neg (by simp [h1]), if_pos (by simp [h2])]

theorem handoffUpdate_other (toMove : List FileNode) (ord : Nat) (nmKey sKey : Int)
    (m : CircularNode) (h1 : ¬ m.key = nmKey) (h2 : ¬ m.key = sKey) :
    handoffUpdate toMove ord nmKey sKey m = m := by
  unfold handoffUpdate
  rw [if_neg (by simp [h1]), if_neg (by simp [h2])]

theorem join_handoff_core (r : CircularLinkedList) (ord : Nat) (hord : 3 ≤ ord)
    (h1 : SortedKeys r.head) (h2 : r.head ≠ [])
    (hbt : ∀ m ∈ r.head, shapeAt ord 1 m.btree = true ∧ SortedTree m.btree)
    (v : Int) (hv0 : 0 ≤ v) (hvN : v < r.identifierSpace)
    (hnot : ringSearch r v = false) :
    (insertAfter r v ord).2 = false ∧
    ∃ prev nm1 s1,
      searchNewMachine (updateRT (ringInsert r v)).head v = some prev ∧
      nextMachine (updateRT (ringInsert r v)).head prev = nm1 ∧
      nextMachine (updateRT (ringInsert r v)).head nm1 = s1 ∧
      nm1.key = v ∧ s1.key ≠ v ∧ s1 ∈ (updateRT (ringInsert r v)).head ∧
      (∃ nm2 ∈ (insertAfter r v ord).1.head, nm2.key = v ∧
        (∀ rec : FileNode, rec ∈ BTree.inord nm2.btree ↔
          rec ∈ BTree.inord s1.btree ∧ shouldMove prev.key v rec.key = true)) ∧
      (∃ s2 ∈ (insertAfter r v ord).1.head, s2.key = s1.key ∧
        (∀ rec : FileNode, rec ∈ BTree.inord s2.btree ↔
          rec ∈ BTree.inord s1.btree ∧ ¬ shouldMove prev.key v rec.key = true)) ∧
      (∀ m ∈ (insertAfter r v ord).1.head, m.key ≠ v → m.key ≠ s1.key →
        ∃ m0 ∈ r.head, m0.key = m.key ∧ m.btree = m0.btree) := by
  have hfreshkeys : ∀ m ∈ r.head, m.key ≠ v := by
    intro m hm hc
    unfold ringSearch at hnot
    have hx : r.head.any (fun m => m.key == v) = true :=
      List.any_eq_true.mpr ⟨m, hm, by simp [hc]⟩
    rw [hnot] at hx
    exact Bool.noConfusion hx
  have hkeq : (updateRT (ringInsert r v)).head.map CircularNode.key =
      (ringInsert r v).head.map CircularNode.key := updateRT_keys _
  have hperm : ((ringInsert r v).head.map CircularNode.key).Perm
      (v :: r.head.map CircularNode.key) := ringInsert_keys_perm r v
  have hsortRI : SortedKeys (ringInsert r v).head :=
    ringInsert_sorted r v h1 (by simp [hnot])
  have hsort1 : SortedKeys (updateRT (ringInsert r v)).head := by
    unfold SortedKeys
    rw [hkeq]
    exact hsortRI
  have hnd1 : ((updateRT (ringInsert r v)).head.map CircularNode.key).Nodup :=
    sortedKeys_nodup hsort1
  have hlen1 : (updateRT (ringInsert r v)).head.length = r.head.length + 1 := by
    have hpl := hperm.length_eq
    rw [List.length_map, List.length_cons, List.length_map] at hpl
    have h2l := congrArg List.length hkeq
    rw [List.length_map, List.length_map] at h2l
    omega
  have hlenpos : 1 ≤ r.head.length := by
    cases hh : r.head with
    | nil => exact absurd hh h2
    | cons a b => simp
  have hvmem : v ∈ (updateRT (ringInsert r v)).head.map CircularNode.key := by
    rw [hkeq]
    exact hperm.mem_iff.mpr (List.mem_cons_self _ _)
  obtain ⟨nm1, hnm1mem, hnm1key⟩ := List.mem_map.mp hvmem
  obtain ⟨prev, hpair⟩ := exists_pair_snd hnm1mem
  have hfindpred : findPredecessor (updateRT (ringInsert r v)).head v = some prev := by
    have hfp := findPredecessor_of_pair hnd1 hpair
    rw [hnm1key] at hfp
    exact hfp
  have hsnm : searchNewMachine (updateRT (ringInsert r v)).head v = some prev := hfindpred
  have hnext : nextMachine (updateRT (ringInsert r v)).head prev = nm1 :=
    nextMachine_of_pair hnd1 hpair
  obtain ⟨s1, hpair2⟩ := exists_pair_fst hnm1mem
  have hnext2 : nextMachine (updateRT (ringInsert r v)).head nm1 = s1 :=
    nextMachine_of_pair hnd1 hpair2
  have hs1mem : s1 ∈ (updateRT (ringInsert r v)).head := (mem_of_circPairs hpair2).2
  have hkne : nm1.key ≠ s1.key :=
    circPairs_keys_ne hsort1 hpair2 (by omega)
  have hs1v : s1.key ≠ v := by
    rw [← hnm1key]
    exact fun h => hkne h.symm
  have hstruct := spliced_structure r v hfreshkeys
  have hnm1null : nm1.btree = .null := (hstruct nm1 hnm1mem).1 hnm1key
  obtain ⟨s0, hs0mem, hs0key, hs0btree⟩ := (hstruct s1 hs1mem).2 hs1v
  have hs1sh : shapeAt ord 1 s1.btree = true := by
    rw [← hs0btree]
    exact (hbt s0 hs0mem).1
  have hs1sorted : SortedTree s1.btree := by
    rw [← hs0btree]
    exact (hbt s0 hs0mem).2
  have heqIA : insertAfter r v ord =
      ({ updateRT (ringInsert r v) with
          head := traverseInsert (updateRT (ringInsert r v)).head prev ord }, false) := by
    unfold insertAfter
    rw [if_neg (by simp [hnot])]
    rw [if_neg (by omega)]
    dsimp only
    rw [hsnm]
    dsimp only
    rw [if_pos (by omega)]
  rw [heqIA]
  refine ⟨rfl, prev, nm1, s1, hsnm, hnext, hnext2, hnm1key, hs1v, hs1mem, ?_⟩
  by_cases hnull : s1.btree.isNull = true
  · have hs1null : s1.btree = .null := (isNull_iff _).mp hnull
    have htv : traverseInsert (updateRT (ringInsert r v)).head prev ord =
        (updateRT (ringInsert r v)).head := by
      unfold traverseInsert
      dsimp only
      rw [hnext, hnext2, if_pos hnull]
    refine ⟨⟨nm1, by rw [htv]; exact hnm1mem, hnm1key, ?_⟩,
      ⟨s1, by rw [htv]; exact hs1mem, rfl, ?_⟩, ?_⟩
    · intro rec
      rw [hnm1null, hs1null]
      simp [inord_null]
    · intro rec
      rw [hs1null]
      simp [inord_null]
    · intro m hm hmv hms
      rw [htv] at hm
      obtain ⟨m0, hm0, hm0k, hm0b⟩ := (hstruct m hm).2 hmv
      exact ⟨m0, hm0, hm0k, hm0b.symm⟩
  · have hnullf : s1.btree.isNull = false := by
      cases hx : s1.btree.isNull
      · rfl
      · exact absurd hx hnull
    have htv : traverseInsert (updateRT (ringInsert r v)).head prev ord =
        (updateRT (ringInsert r v)).head.map
          (handoffUpdate ((s1.btree.getAllFiles).filter
            (fun f => shouldMove prev.key nm1.key f.key)) ord nm1.key s1.key) := by
      unfold traverseInsert handoffUpdate
      dsimp only
      rw [hnext, hnext2, if_neg (by rw [hnullf]; exact Bool.false_ne_true)]
    have htmperm : ((s1.btree.getAllFiles).filter
        (fun f => shouldMove prev.key nm1.key f.key)).Perm
        ((BTree.inord s1.btree).filter (fun f => shouldMove prev.key nm1.key f.key)) :=
      (getAllFiles_perm s1.btree).filter _
    have hsortedkeys : List.Pairwise (· < ·)
        ((BTree.inord s1.btree).map FileNode.key) := hs1sorted
    have hinnd : ((BTree.inord s1.btree).map FileNode.key).Nodup :=
      hsortedkeys.imp (fun h => ne_of_lt h)
    have htmnd : (((s1.btree.getAllFiles).filter
        (fun f => shouldMove prev.key nm1.key f.key)).map FileNode.key).Nodup := by
      refine ((htmperm.map FileNode.key).nodup_iff).mpr ?_
      exact hinnd.sublist ((List.filter_sublist _).map FileNode.key)
    have htm_mem : ∀ f : FileNode, f ∈ ((s1.btree.getAllFiles).filter
        (fun f => shouldMove prev.key nm1.key f.key)) ↔
        f ∈ BTree.inord s1.btree ∧ shouldMove prev.key nm1.key f.key = true := by
      intro f
      rw [htmperm.mem_iff, List.mem_filter]
    have hins := foldl_insert_inord ord hord ((s1.btree.getAllFiles).filter
        (fun f => shouldMove prev.key nm1.key f.key)) .null rfl List.Pairwise.nil htmnd
      (by
        intro f _
        rw [keysOf_null]
        exact List.not_mem_nil _)
    have hdel := foldl_delete_inord ord hord ((s1.btree.getAllFiles).filter
        (fun f => shouldMove prev.key nm1.key f.key)) s1.btree hs1sh hs1sorted
    rw [htv]
    refine ⟨?_, ?_, ?_⟩
    · -- the new machine holds exactly the moved records
      refine ⟨_, List.mem_map_of_mem _ hnm1mem, ?_, ?_⟩
      · rw [handoffUpdate_nm _ ord _ _ nm1 rfl]
        exact hnm1key
      · intro rec
        rw [handoffUpdate_nm _ ord _ _ nm1 rfl]
        show rec ∈ BTree.inord (((s1.btree.getAllFiles).filter
            (fun f => shouldMove prev.key nm1.key f.key)).foldl
              (fun t f => insertHelper f ord t) nm1.btree) ↔ _
        rw [hnm1null]
        rw [hins.2.2.mem_iff]
        rw [show BTree.inord .null = [] from rfl, List.nil_append]
        rw [htm_mem rec, hnm1key]
    · -- the successor retains exactly the rest
      have hsne : ¬ s1.key = nm1.key := fun h => hkne h.symm
      refine ⟨_, List.mem_map_of_mem _ hs1mem, ?_, ?_⟩
      · rw [handoffUpdate_s _ ord _ _ s1 hsne rfl]
      · intro rec
        rw [handoffUpdate_s _ ord _ _ s1 hsne rfl]
        show rec ∈ BTree.inord (((s1.btree.getAllFiles).filter
            (fun f => shouldMove prev.key nm1.key f.key)).foldl
              (fun t f => deleteHelper ord f.key t) s1.btree) ↔ _
        rw [hdel.2.2, List.mem_filter]
        constructor
        · rintro ⟨hin, hany⟩
          refine ⟨hin, ?_⟩
          intro hsm
          have hmem : rec ∈ ((s1.btree.getAllFiles).filter
              (fun f => shouldMove prev.key nm1.key f.key)) :=
            (htm_mem rec).mpr ⟨hin, by rw [hnm1key]; exact hsm⟩
          have hany2 : ((s1.btree.getAllFiles).filter
              (fun f => shouldMove prev.key nm1.key f.key)).any
                (fun f => f.key == rec.key) = true :=
            List.any_eq_true.mpr ⟨rec, hmem, by simp⟩
          rw [hany2] at hany
          exact Bool.noConfusion hany
        · rintro ⟨hin, hnsm⟩
          refine ⟨hin, ?_⟩
          cases hx : ((s1.btree.getAllFiles).filter
              (fun f => shouldMove prev.key nm1.key f.key)).any
                (fun f => f.key == rec.key) with
          | false => rfl
          | true =>
            exfalso
            obtain ⟨f, hf, hfk⟩ := List.any_eq_true.mp hx
            have hfk2 : f.key = rec.key := by simpa using hfk
            obtain ⟨hfin, hfp⟩ := (htm_mem f).mp hf
            have hfeq : f = rec := inord_key_unique_list (BTree.inord s1.btree)
              hs1sorted f rec hfin hin hfk2
            rw [hfeq, hnm1key] at hfp
            exact hnsm hfp
    · -- every other machine is untouched
      intro m hm hmv hms
      obtain ⟨m1, hm1, rfl⟩ := List.mem_map.mp hm
      have hm1v : m1.key ≠ v := by
        intro hc
        apply hmv
        rw [handoffUpdate_key]
        exact hc
      have hm1s : m1.key ≠ s1.key := by
        intro hc
        apply hms
        rw [handoffUpdate_key]
        exact hc
      rw [handoffUpdate_other _ ord _ _ m1 (by rw [hnm1key]; exact hm1v) hm1s]
        at hmv hms ⊢
      obtain ⟨m0, hm0, hm0k, hm0b⟩ := (hstruct m1 hm1).2 hm1v
      exact ⟨m0, hm0, hm0k, hm0b.symm⟩

/-- C3.  Key hand-off on join: on a sorted non-empty ring with well-formed
per-machine B-trees, a join of a valid, not-yet-present identifier
succeeds; with `prev` the predecessor found after splicing, `nm1` its
successor (the new machine, whose ID is the joined value) and `s1` the
new machine's successor, the new machine's B-tree afterwards holds
exactly the records of `s1`'s old B-tree whose keys lie in the circular
interval `(prev, new]`, the successor afterwards holds exactly its
remaining records, and every other machine's B-tree is the one it had in
the original ring. -/
theorem key_handoff_on_join (r : CircularLinkedList) (ord : Nat) (hord : 3 ≤ ord)
    (h1 : SortedKeys r.head) (h2 : r.head ≠ [])
    (hbt : ∀ m ∈ r.head, shapeAt ord 1 m.btree = true ∧ SortedTree m.btree)
    (v : Int) (hv0 : 0 ≤ v) (hvN : v < r.identifierSpace)
    (hnot : ringSearch r v = false) :
    (insertAfter r v ord).2 = false ∧
    ∃ prev nm1 s1,
      searchNewMachine (updateRT (ringInsert r v)).head v = some prev ∧
      nextMachine (updateRT (ringInsert r v)).head prev = nm1 ∧
      nextMachine (updateRT (ringInsert r v)).head nm1 = s1 ∧
      nm1.key = v ∧ s1.key ≠ v ∧ s1 ∈ (updateRT (ringInsert r v)).head ∧
      (∃ nm2 ∈ (insertAfter r v ord).1.head, nm2.key = v ∧
        (∀ rec : FileNode, rec ∈ BTree.inord nm2.btree ↔
          rec ∈ BTree.inord s1.btree ∧ shouldMove prev.key v rec.key = true)) ∧
      (∃ s2 ∈ (insertAfter r v ord).1.head, s2.key = s1.key ∧
        (∀ rec : FileNode, rec ∈ BTree.inord s2.btree ↔
          rec ∈ BTree.inord s1.btree ∧ ¬ shouldMove prev.key v rec.key = true)) ∧
      (∀ m ∈ (insertAfter r v ord).1.head, m.key ≠ v → m.key ≠ s1.key →
        ∃ m0 ∈ r.head, m0.key = m.key ∧ m.btree = m0.btree) :=
  join_handoff_core r ord hord h1 h2 hbt v hv0 hvN hnot

theorem key_handoff_on_join_witness :
    ((3 ≤ 3) ∧ SortedKeys ringW5.head ∧ ringW5.head ≠ [] ∧
      (∀ m ∈ ringW5.head, shapeAt 3 1 m.btree = true ∧ SortedTree m.btree) ∧
      ((0:Int) ≤ 5) ∧ ((5:Int) < ringW5.identifierSpace) ∧
      ringSearch ringW5 5 = false) ∧
    ((insertAfter ringW5 5 3).2 = false ∧
    ∃ prev nm1 s1,
      searchNewMachine (updateRT (ringInsert ringW5 5)).head 5 = some prev ∧
      nextMachine (updateRT (ringInsert ringW5 5)).head prev = nm1 ∧
      nextMachine (updateRT (ringInsert ringW5 5)).head nm1 = s1 ∧
      nm1.key = 5 ∧ s1.key ≠ 5 ∧ s1 ∈ (updateRT (ringInsert ringW5 5)).head ∧
      (∃ nm2 ∈ (insertAfter ringW5 5 3).1.head, nm2.key = 5 ∧
        (∀ rec : FileNode, rec ∈ BTree.inord nm2.btree ↔
          rec ∈ BTree.inord s1.btree ∧ shouldMove prev.key 5 rec.key = true)) ∧
      (∃ s2 ∈ (insertAfter ringW5 5 3).1.head, s2.key = s1.key ∧
        (∀ rec : FileNode, rec ∈ BTree.inord s2.btree ↔
          rec ∈ BTree.inord s1.btree ∧ ¬ shouldMove prev.key 5 rec.key = true)) ∧
      (∀ m ∈ (insertAfter ringW5 5 3).1.head, m.key ≠ 5 → m.key ≠ s1.key →
        ∃ m0 ∈ ringW5.head, m0.key = m.key ∧ m.btree = m0.btree)) :=
  ⟨⟨by decide, by unfold SortedKeys; decide,
    fun h => absurd (congrArg List.length h) (by decide),
    by unfold SortedTree; decide, by decide, by decide, by decide⟩,
   key_handoff_on_join ringW5 3 (by decide) (by unfold SortedKeys; decide)
     (fun h => absurd (congrArg List.length h) (by decide))
     (by unfold SortedTree; decide) 5 (by decide) (by decide) (by decide)⟩
